import Mathlib

/-!
# Verification of the RiskGame territory-generation engine

Shallow embedding of the map-generation core of the RiskGame repository:
the hex coordinate library (`src/hex.ts`), the territory structure and
adjacency builder (`src/territory.ts`), and the map generator pipeline
(`src/mapGenerator.ts` / compiled `src/mapGenerator.js`, whose pipeline
additionally contains the `removeIsolatedTerritories` pass).

Modelling conventions:
* JavaScript `Set<string>` of hex keys is modelled as an insertion-ordered
  duplicate-free `List Hex` (`hexKey` is injective and `parseHexKey` inverts
  it, so keys and hexes are interchangeable); `Set.add` is `sadd`,
  `Set.delete` is `sdel`, iteration order is list order, exactly as a JS
  `Set` iterates in insertion order.
* JavaScript `Map` is an association list with most-recent-binding-first
  lookup (`mset` / `mfind`), which matches `Map.set` overwrite semantics.
  Where the source stores `Territory` object references in a map, the model
  stores the index of the territory in the territories array, since object
  mutation through a reference is shared with the array slot.
* `Math.floor(Math.random() * n)` is modelled by drawing the next value from
  an explicit stream of naturals and reducing it `% n` (`randBelow`); every
  stream yields a possible JS outcome and every JS outcome is realised by
  some stream, so properties quantified over all streams cover all runs.
* The `while` growth loop is bounded in the source by the iteration budget
  `gridWidth * gridHeight * 2`; the embedding recurses on exactly that
  budget as fuel, so totality of the Lean function mirrors the source's own
  termination argument.
-/

/-- Axial hex coordinate, from `src/hex.ts` (`interface Hex`). -/
structure Hex where
  q : Int
  r : Int
deriving DecidableEq, Repr

/-- The six fixed direction vectors of a pointy-top hex, `DIRECTIONS` in
`src/hex.ts`, in source order (E, NE, NW, W, SW, SE). -/
def DIRECTIONS : List Hex :=
  [⟨1, 0⟩, ⟨1, -1⟩, ⟨0, -1⟩, ⟨-1, 0⟩, ⟨-1, 1⟩, ⟨0, 1⟩]

/-- `hexAdd` from `src/hex.ts`. -/
def hexAdd (a b : Hex) : Hex :=
  ⟨a.q + b.q, a.r + b.r⟩

/-- `hexNeighbors` from `src/hex.ts`: the six adjacent hexes in direction
order. -/
def hexNeighbors (h : Hex) : List Hex :=
  DIRECTIONS.map (hexAdd h)

/-- `generateHexGrid` from `src/hex.ts`: row-major rectangle, odd-r offset;
row `r`, column `c` yields axial `q = c - floor (r / 2)`. -/
def generateHexGrid (width height : Nat) : List Hex :=
  (List.range height).flatMap fun row =>
    (List.range width).map fun (col : Nat) =>
      ⟨(col : Int) - ((row / 2 : Nat) : Int), (row : Int)⟩

/-- JS `Set.add`: append the element if it is not already present. -/
def sadd {α : Type} [DecidableEq α] (s : List α) (a : α) : List α :=
  if a ∈ s then s else s ++ [a]

/-- JS `Set.delete`: remove the element, preserving the order of the rest. -/
def sdel {α : Type} [DecidableEq α] (s : List α) (a : α) : List α :=
  s.filter (fun x => decide (x ≠ a))

/-- Fold a list into a JS set, in iteration order. -/
def addAll {α : Type} [DecidableEq α] (s : List α) (l : List α) : List α :=
  l.foldl sadd s

/-- The stream of pseudo-random draws consumed by a generation run. -/
abbrev RandS : Type := List Nat

/-- Take the next raw value off the stream (0 once exhausted). -/
def draw (g : RandS) : Nat × RandS :=
  match g with
  | [] => (0, [])
  | n :: ns => (n, ns)

/-- Model of `Math.floor(Math.random() * n)`: an arbitrary value below `n`
determined by the stream. -/
def randBelow (g : RandS) (n : Nat) : Nat × RandS :=
  let p := draw g
  (if n = 0 then 0 else p.1 % n, p.2)

/-- Swap two positions of a list (the destructuring swap in `shuffleArray`);
out-of-range indices leave the list unchanged. -/
def lswap {α : Type} (l : List α) (i j : Nat) : List α :=
  match l[i]?, l[j]? with
  | some x, some y => (l.set i y).set j x
  | _, _ => l

/-- The Fisher-Yates loop of `shuffleArray` (`src/mapGenerator.ts` and
`src/colors.ts`): `k` is the current value of the loop index `i`, counting
down to 1; each step draws `j` below `k + 1` and swaps positions `k`, `j`. -/
def fyLoop {α : Type} (g : RandS) (l : List α) : Nat → List α × RandS
  | 0 => (l, g)
  | k + 1 =>
    let p := randBelow g (k + 2)
    fyLoop p.2 (lswap l (k + 1) p.1) k

/-- `shuffleArray` from `src/mapGenerator.ts` (same code as the shuffle in
`src/colors.ts`): Fisher-Yates over a copy, from the last index down. -/
def shuffleArray {α : Type} (g : RandS) (l : List α) : List α × RandS :=
  fyLoop g l (l.length - 1)

section SetLemmas

variable {α : Type} [DecidableEq α]

theorem mem_sadd {s : List α} {a x : α} : x ∈ sadd s a ↔ x ∈ s ∨ x = a := by
  unfold sadd
  split
  · constructor
    · exact fun h => Or.inl h
    · rintro (h | rfl) <;> assumption
  · simp [or_comm]

theorem sadd_subset {s t : List α} {a : α} (hsub : ∀ x ∈ s, x ∈ t) (ha : a ∈ t) :
    ∀ x ∈ sadd s a, x ∈ t := by
  intro x hx
  rcases mem_sadd.mp hx with h | rfl
  · exact hsub x h
  · exact ha

theorem nodup_sadd {s : List α} (h : s.Nodup) (a : α) : (sadd s a).Nodup := by
  unfold sadd
  split
  · exact h
  · next hns => simpa [List.nodup_append] using ⟨h, hns⟩

theorem length_sadd_of_not_mem {s : List α} {a : α} (h : a ∉ s) :
    (sadd s a).length = s.length + 1 := by
  simp [sadd, h]

theorem length_sadd_le {s : List α} {a : α} :
    (sadd s a).length ≤ s.length + 1 := by
  unfold sadd
  split <;> simp

theorem mem_sdel {s : List α} {a x : α} : x ∈ sdel s a ↔ x ∈ s ∧ x ≠ a := by
  simp [sdel]

theorem sdel_subset {s : List α} {a : α} : ∀ x ∈ sdel s a, x ∈ s := by
  intro x hx
  exact (mem_sdel.mp hx).1

theorem nodup_sdel {s : List α} (h : s.Nodup) (a : α) : (sdel s a).Nodup :=
  h.filter _

theorem mem_addAll {s l : List α} {x : α} : x ∈ addAll s l ↔ x ∈ s ∨ x ∈ l := by
  induction l generalizing s with
  | nil => simp [addAll]
  | cons b bs ih =>
    show x ∈ addAll (sadd s b) bs ↔ _
    rw [ih, mem_sadd]
    simp only [List.mem_cons]
    tauto

theorem nodup_addAll {s l : List α} (h : s.Nodup) : (addAll s l).Nodup := by
  induction l generalizing s with
  | nil => exact h
  | cons b bs ih => exact ih (nodup_sadd h b)

theorem length_addAll_nodup {s l : List α} (hl : l.Nodup)
    (hdisj : ∀ x ∈ l, x ∉ s) : (addAll s l).length = s.length + l.length := by
  induction l generalizing s with
  | nil => simp [addAll]
  | cons b bs ih =>
    have hb : b ∉ s := hdisj b (by simp)
    show (addAll (sadd s b) bs).length = _
    rw [ih hl.of_cons]
    · rw [length_sadd_of_not_mem hb]
      simp [Nat.add_assoc, Nat.add_comm 1]
    · intro x hx
      rw [mem_sadd]
      rintro (h | rfl)
      · exact hdisj x (by simp [hx]) h
      · exact (List.nodup_cons.mp hl).1 hx

end SetLemmas

section ShuffleLemmas

variable {α : Type} [DecidableEq α]

theorem lswap_perm (l : List α) (i j : Nat) : (lswap l i j).Perm l := by
  unfold lswap
  split
  · next x y hx hy =>
    have hi : i < l.length := by
      by_contra hge
      rw [List.getElem?_eq_none (Nat.le_of_not_lt hge)] at hx
      exact Option.noConfusion hx
    have hj : j < l.length := by
      by_contra hge
      rw [List.getElem?_eq_none (Nat.le_of_not_lt hge)] at hy
      exact Option.noConfusion hy
    have hxi : l[i] = x := by
      rw [List.getElem?_eq_getElem hi] at hx
      exact Option.some.inj hx
    have hyj : l[j] = y := by
      rw [List.getElem?_eq_getElem hj] at hy
      exact Option.some.inj hy
    subst hxi
    subst hyj
    rw [List.perm_iff_count]
    intro b
    have hj2 : j < (l.set i (l[j])).length := by simpa using hj
    rw [List.count_set _ b _ j hj2, List.count_set _ b l i hi,
      List.getElem_set hj2]
    simp only [beq_iff_eq, ite_self]
    have h1 : (if l[i] = b then 1 else 0) ≤ List.count b l := by
      split
      · next hb => exact List.count_pos_iff.mpr (hb ▸ List.getElem_mem hi)
      · exact Nat.zero_le _
    omega
  · exact List.Perm.refl l

theorem fyLoop_perm (g : RandS) (l : List α) (k : Nat) :
    (fyLoop g l k).1.Perm l := by
  induction k generalizing g l with
  | zero => exact List.Perm.refl l
  | succ n ih =>
    show (fyLoop _ (lswap l (n + 1) _) n).1.Perm l
    exact (ih _ _).trans (lswap_perm _ _ _)

theorem shuffleArray_perm (g : RandS) (l : List α) :
    (shuffleArray g l).1.Perm l :=
  fyLoop_perm g l (l.length - 1)

theorem shuffleArray_length (g : RandS) (l : List α) :
    (shuffleArray g l).1.length = l.length :=
  (shuffleArray_perm g l).length_eq

theorem shuffleArray_mem (g : RandS) (l : List α) {x : α} :
    x ∈ (shuffleArray g l).1 ↔ x ∈ l :=
  (shuffleArray_perm g l).mem_iff

theorem shuffleArray_nodup (g : RandS) {l : List α} (h : l.Nodup) :
    (shuffleArray g l).1.Nodup :=
  (shuffleArray_perm g l).nodup_iff.mpr h

end ShuffleLemmas

/-- `Territory` from `src/territory.ts`. Gameplay fields (`owner`, `armies`)
are carried but never read by the generator. -/
structure Territory where
  id : Nat
  name : String
  hexes : List Hex
  color : String
  neighbors : List Nat
  owner : Option Nat
  armies : Nat
deriving DecidableEq, Repr

/-- `createTerritory` from `src/territory.ts` (no explicit name given). -/
def createTerritory (id : Nat) (color : String) : Territory :=
  { id := id, name := "Territory " ++ toString (id + 1), hexes := [],
    color := color, neighbors := [], owner := none, armies := 1 }

/-- `addHexToTerritory` from `src/territory.ts`. -/
def addHexToTerritory (t : Territory) (h : Hex) : Territory :=
  { t with hexes := sadd t.hexes h }

/-- JS `Map.get`: the value of the most recent `Map.set` for this key. -/
def mfind {β : Type} (m : List (Hex × β)) (k : Hex) : Option β :=
  (m.find? fun p => decide (p.1 = k)).map Prod.snd

/-- The `hexToTerritory` map of `calculateTerritoryNeighbors`
(`src/territory.ts`): hex to owning territory id, later stores win. -/
def buildHexToId (ts : List Territory) : List (Hex × Nat) :=
  ts.foldl (fun m t => t.hexes.foldl (fun m2 h => (h, t.id) :: m2) m) []

/-- Inner step of the neighbor scan in `calculateTerritoryNeighbors`: record
the owner of one adjacent hex unless it is the scanning territory itself. -/
def neighborAdd (m : List (Hex × Nat)) (tid : Nat) (acc : List Nat) (nb : Hex) :
    List Nat :=
  match mfind m nb with
  | some nid => if nid ≠ tid then sadd acc nid else acc
  | none => acc

/-- The full neighbor scan of one territory in `calculateTerritoryNeighbors`. -/
def territoryNeighborIds (m : List (Hex × Nat)) (t : Territory) : List Nat :=
  t.hexes.foldl (fun acc h => (hexNeighbors h).foldl (neighborAdd m t.id) acc) []

/-- `calculateTerritoryNeighbors` from `src/territory.ts`: clear every
neighbor set, then recompute it from final hex ownership. -/
def calculateTerritoryNeighbors (ts : List Territory) : List Territory :=
  let m := buildHexToId ts
  ts.map fun t => { t with neighbors := territoryNeighborIds m t }

/-- `TERRITORY_COLORS` from `src/colors.ts`. -/
def TERRITORY_COLORS : List String :=
  ["#e63946", "#457b9d", "#2a9d8f", "#e9c46a", "#8338ec", "#f77f00",
   "#06d6a0", "#ef476f", "#118ab2", "#84a98c", "#9d4edd", "#fb8500",
   "#3d5a80", "#90be6d", "#f4a261", "#577590"]

/-- `shuffleColors` from `src/colors.ts`: Fisher-Yates over a copy of the
palette (identical shuffle code to `shuffleArray`). -/
def shuffleColors (g : RandS) (colors : List String) : List String × RandS :=
  shuffleArray g colors

/-- `placeSeedPoints` from `src/mapGenerator.ts`: shuffle, greedily accept
candidates at offset-taxicab distance at least `minSpacing * 2` from all
accepted seeds, then fill remaining slots ignoring spacing. -/
def placeSeedPoints (g : RandS) (hexes : List Hex) (count : Nat) :
    List Hex × RandS :=
  let p := shuffleArray g hexes
  let shuffled := p.1
  let minSpacing := 2
  let pass1 := shuffled.foldl
    (fun seeds h =>
      if count ≤ seeds.length then seeds
      else if seeds.any fun s =>
          decide ((h.q - s.q).natAbs + (h.r - s.r).natAbs < minSpacing * 2) then
        seeds
      else seeds ++ [h]) []
  let seeds :=
    if pass1.length < count then
      shuffled.foldl
        (fun seeds h =>
          if count ≤ seeds.length then seeds
          else if h ∈ seeds then seeds
          else seeds ++ [h]) pass1
    else pass1
  (seeds, p.2)

/-- The neighbor test inside `updateFrontier`: add a hex to the frontier
when it is still unclaimed and not blocked. -/
def frontierAdd (unclaimed valid : List Hex) (fr : List Hex) (nb : Hex) :
    List Hex :=
  if nb ∈ unclaimed ∧ nb ∈ valid then sadd fr nb else fr

/-- `updateFrontier` from `src/mapGenerator.ts`: add every unclaimed, valid
neighbor of the territory's hexes, then prune entries no longer unclaimed. -/
def updateFrontier (t : Territory) (frontier unclaimed valid : List Hex) :
    List Hex :=
  let f1 := t.hexes.foldl
    (fun fr h => (hexNeighbors h).foldl (frontierAdd unclaimed valid) fr)
    frontier
  f1.filter fun h => decide (h ∈ unclaimed)

/-- Mutable locals of the growth phase of `generateMap`. -/
structure GenState where
  territories : List Territory
  frontiers : List (List Hex)
  unclaimed : List Hex
  rng : RandS
deriving Repr

/-- Update slot `i` of a list in place (mutation of an array element). -/
def modifyAt {β : Type} (l : List β) (i : Nat) (f : β → β) : List β :=
  match l[i]? with
  | some x => l.set i (f x)
  | none => l

/-- One seed application: territory at the seed's index gains the seed,
which leaves the unclaimed pool. -/
def seedStep (pr : List Territory × List Hex) (p : Nat × Hex) :
    List Territory × List Hex :=
  (modifyAt pr.1 p.1 (fun t => addHexToTerritory t p.2), sdel pr.2 p.2)

/-- One territory's turn inside a growth round (`src/mapGenerator.ts`,
growth loop body): skip at max size or empty frontier, otherwise pick a
random frontier hex; drop it if no longer unclaimed, else claim it and
refresh the frontier. -/
def growStep (maxTerritorySize : Nat) (valid : List Hex) (st : GenState)
    (i : Nat) : GenState :=
  match st.territories[i]?, st.frontiers[i]? with
  | some t, some f =>
    if maxTerritorySize ≤ t.hexes.length then st
    else if f.length = 0 then st
    else
      let p := randBelow st.rng f.length
      let chosen := f.getD p.1 ⟨0, 0⟩
      if chosen ∉ st.unclaimed then
        { st with frontiers := st.frontiers.set i (sdel f chosen), rng := p.2 }
      else
        let t2 := addHexToTerritory t chosen
        let unclaimed2 := sdel st.unclaimed chosen
        let f2 := updateFrontier t2 (sdel f chosen) unclaimed2 valid
        { territories := st.territories.set i t2,
          frontiers := st.frontiers.set i f2,
          unclaimed := unclaimed2,
          rng := p.2 }
  | _, _ => st

/-- One round of the growth loop: shuffle the processing order, then give
every territory one turn. -/
def growRound (maxTerritorySize : Nat) (valid : List Hex) (st : GenState) :
    GenState :=
  let p := shuffleArray st.rng (List.range st.territories.length)
  p.1.foldl (growStep maxTerritorySize valid) { st with rng := p.2 }

/-- The `allMaxed` check ending the growth loop early. -/
def allMaxed (maxTerritorySize : Nat) (ts : List Territory) : Bool :=
  ts.all fun t => decide (maxTerritorySize ≤ t.hexes.length)

/-- The growth `while` loop of `generateMap`, recursing on the remaining
iteration budget; also returns the number of rounds executed. -/
def growLoop (maxTerritorySize : Nat) (valid : List Hex) :
    Nat → GenState → GenState × Nat
  | 0, st => (st, 0)
  | fuel + 1, st =>
    if st.unclaimed.length = 0 then (st, 0)
    else
      let st2 := growRound maxTerritorySize valid st
      if allMaxed maxTerritorySize st2.territories then (st2, 1)
      else
        let r := growLoop maxTerritorySize valid fuel st2
        (r.1, r.2 + 1)

/-- `MapGeneratorConfig` from `src/mapGenerator.ts`. The percent may be any
number and is clamped inside `generateMap`. -/
structure MapGeneratorConfig where
  gridWidth : Nat
  gridHeight : Nat
  territoryCount : Nat
  minTerritorySize : Nat
  maxTerritorySize : Nat
  emptyTilePercent : Int
deriving DecidableEq, Repr

/-- `DEFAULT_CONFIG` from `src/mapGenerator.ts`; `generateMap` is modelled
on the fully resolved configuration (the spread-merge of the caller's
partial configuration over these defaults). -/
def DEFAULT_CONFIG : MapGeneratorConfig :=
  { gridWidth := 18, gridHeight := 12, territoryCount := 15,
    minTerritorySize := 3, maxTerritorySize := 7, emptyTilePercent := 10 }

/-- `GeneratedMap` from `src/mapGenerator.ts`. -/
structure GeneratedMap where
  territories : List Territory
  allHexes : List Hex
  emptyHexes : List Hex
  config : MapGeneratorConfig
deriving Repr

/-- The clamp of `emptyTilePercent` to `[0, 50]` in `generateMap`. -/
def clampPercent (p : Int) : Int :=
  max 0 (min 50 p)

/-- Blocked-tile selection, `generateMap` lines 46-56 of
`src/mapGenerator.ts`: `emptyCount = floor(total * clamped / 100)` hexes of
a shuffled copy become blocked. -/
def selectEmptyHexes (g : RandS) (allHexes : List Hex) (emptyTilePercent : Int) :
    List Hex × RandS :=
  let emptyCount := allHexes.length * (clampPercent emptyTilePercent).toNat / 100
  if 0 < emptyCount then
    let p := shuffleArray g allHexes
    (addAll [] (p.1.take emptyCount), p.2)
  else ([], g)

/-- Per-territory state plus the grid constants of a generation run. -/
structure GenContext where
  allHexes : List Hex
  emptyHexes : List Hex
  validHexes : List Hex
  state : GenState
deriving Repr

/-- The hex grid of a run (`generateMap` line 43). -/
def allHexesOf (cfg : MapGeneratorConfig) : List Hex :=
  generateHexGrid cfg.gridWidth cfg.gridHeight

/-- Blocked-tile selection of a run (`generateMap` lines 46-56). -/
def emptyHexesOf (g : RandS) (cfg : MapGeneratorConfig) : List Hex × RandS :=
  selectEmptyHexes g (allHexesOf cfg) cfg.emptyTilePercent

/-- The non-blocked hex keys (`generateMap` lines 58-64 and 87-93 build the
same set twice, once as the initial unclaimed pool and once as
`validHexKeys`). -/
def validHexesOf (g : RandS) (cfg : MapGeneratorConfig) : List Hex :=
  (addAll [] (allHexesOf cfg)).filter fun k => decide (k ∉ (emptyHexesOf g cfg).1)

/-- The shuffled color palette (`generateMap` line 67). -/
def colorsOf (g : RandS) (cfg : MapGeneratorConfig) : List String × RandS :=
  shuffleColors (emptyHexesOf g cfg).2 TERRITORY_COLORS

/-- The freshly created territories (`generateMap` lines 68-72). -/
def territories0Of (g : RandS) (cfg : MapGeneratorConfig) : List Territory :=
  (List.range cfg.territoryCount).map fun i =>
    createTerritory i ((colorsOf g cfg).1.getD (i % (colorsOf g cfg).1.length) "")

/-- Seed placement (`generateMap` lines 75-76). -/
def seedsOf (g : RandS) (cfg : MapGeneratorConfig) : List Hex × RandS :=
  placeSeedPoints (colorsOf g cfg).2
    ((allHexesOf cfg).filter fun h => decide (h ∉ (emptyHexesOf g cfg).1))
    cfg.territoryCount

/-- Seed application (`generateMap` lines 78-82): each seed joins its
territory and leaves the unclaimed pool. -/
def seededOf (g : RandS) (cfg : MapGeneratorConfig) :
    List Territory × List Hex :=
  (seedsOf g cfg).1.enum.foldl seedStep (territories0Of g cfg, validHexesOf g cfg)

/-- Frontier initialisation (`generateMap` lines 84-98). -/
def frontiers0Of (g : RandS) (cfg : MapGeneratorConfig) : List (List Hex) :=
  (List.range (seededOf g cfg).1.length).map fun i =>
    match (seededOf g cfg).1[i]? with
    | some t => updateFrontier t [] (seededOf g cfg).2 (validHexesOf g cfg)
    | none => []

/-- `generateMap` up to and including frontier initialisation: grid,
blocked tiles, colors, territory creation, seed placement, frontiers. -/
def initContext (g : RandS) (cfg : MapGeneratorConfig) : GenContext :=
  { allHexes := allHexesOf cfg,
    emptyHexes := (emptyHexesOf g cfg).1,
    validHexes := validHexesOf g cfg,
    state := { territories := (seededOf g cfg).1,
               frontiers := frontiers0Of g cfg,
               unclaimed := (seededOf g cfg).2,
               rng := (seedsOf g cfg).2 } }

/-- `generateMap` through the growth loop; the second component is the
number of rounds the loop executed. -/
def grownContext (g : RandS) (cfg : MapGeneratorConfig) : GenContext × Nat :=
  let c := initContext g cfg
  let r := growLoop cfg.maxTerritorySize c.validHexes
    (cfg.gridWidth * cfg.gridHeight * 2) c.state
  ({ c with state := r.1 }, r.2)

/-- Running state of `assignUnclaimedHexes`: the territories array, the
`hexToTerritory` map (hex to territory index), and the blocked set. -/
structure AssignState where
  territories : List Territory
  hexToTerritory : List (Hex × Nat)
  emptyHexes : List Hex
deriving Repr

/-- Size of the territory at index `i` (0 for an out-of-range index). -/
def tsize (ts : List Territory) (i : Nat) : Nat :=
  ((ts[i]?).map fun t => t.hexes.length).getD 0

/-- The initial `hexToTerritory` map of `assignUnclaimedHexes`: built by
iterating the territories and their hexes in order, later stores winning. -/
def buildHexToIdx (ts : List Territory) : List (Hex × Nat) :=
  ts.enum.foldl
    (fun m p => p.2.hexes.foldl (fun m2 h => (h, p.1) :: m2) m) []

/-- One neighbor inspection of the `eligibleTerritories` scan in
`assignUnclaimedHexes`: keep the owning territory when it is below the
size cap. -/
def eligAdd (ts : List Territory) (m : List (Hex × Nat)) (maxSize : Nat)
    (acc : List Nat) (nb : Hex) : List Nat :=
  match mfind m nb with
  | some i =>
    match ts[i]? with
    | some t => if t.hexes.length < maxSize then acc ++ [i] else acc
    | none => acc
  | none => acc

/-- The `eligibleTerritories` collection of `assignUnclaimedHexes`: for each
of the six neighbors in order, the owning territory if it is below the size
cap (duplicates kept, exactly as the source pushes per neighbor). -/
def eligibleTerritories (ts : List Territory) (m : List (Hex × Nat))
    (maxSize : Nat) (h : Hex) : List Nat :=
  (hexNeighbors h).foldl (eligAdd ts m maxSize) []

/-- The `reduce` in `assignUnclaimedHexes` and `cleanupTerritories`:
`(a, b) => a.hexes.size <= b.hexes.size ? a : b`, i.e. the first territory
of minimal current size. -/
def smallestOf (ts : List Territory) (first : Nat) (rest : List Nat) : Nat :=
  rest.foldl (fun a b => if tsize ts a ≤ tsize ts b then a else b) first

/-- The body of the per-hex loop of `assignUnclaimedHexes`: add the hex to
the smallest eligible neighboring territory, or block it. -/
def assignOne (maxSize : Nat) (st : AssignState) (h : Hex) : AssignState :=
  match eligibleTerritories st.territories st.hexToTerritory maxSize h with
  | [] => { st with emptyHexes := sadd st.emptyHexes h }
  | first :: rest =>
    let j := smallestOf st.territories first rest
    { st with
      territories := modifyAt st.territories j
        (fun t => { t with hexes := sadd t.hexes h }),
      hexToTerritory := (h, j) :: st.hexToTerritory }

/-- `assignUnclaimedHexes` from `src/mapGenerator.ts`: dispose of every hex
the growth loop could not place. -/
def assignUnclaimedHexes (ts : List Territory) (unclaimed : List Hex)
    (empty : List Hex) (maxSize : Nat) : List Territory × List Hex :=
  if unclaimed.length = 0 then (ts, empty)
  else
    let st := unclaimed.foldl (assignOne maxSize)
      { territories := ts, hexToTerritory := buildHexToIdx ts,
        emptyHexes := empty }
    (st.territories, st.emptyHexes)

/-- `generateMap` through the unclaimed-hex resolver (the entry state of
the Size-Balancer pass `cleanupTerritories`). -/
def resolvedContext (g : RandS) (cfg : MapGeneratorConfig) : GenContext :=
  let pr := grownContext g cfg
  let c := pr.1
  let ar := assignUnclaimedHexes c.state.territories c.state.unclaimed
    c.emptyHexes cfg.maxTerritorySize
  { c with emptyHexes := ar.2,
           state := { c.state with territories := ar.1 } }

/-- Dense renumbering shared by `cleanupTerritories` and
`removeIsolatedTerritories`: ids become positions, names regenerate. -/
def renumberTerritories (ts : List Territory) : List Territory :=
  ts.enum.map fun p =>
    { p.2 with id := p.1, name := "Territory " ++ toString (p.1 + 1) }

/-- First matching index of `territories.find(t => t.id === id)`. -/
def findIdxById (ts : List Territory) (tid : Nat) : Option Nat :=
  ts.findIdx? fun t => decide (t.id = tid)

/-- Hex transfer of a merge in `cleanupTerritories`: all of the donor's
hexes are added to territory `j`, then the donor at `i` is cleared. -/
def mergeTransfer (ts : List Territory) (i j : Nat) (donor : Territory) :
    List Territory :=
  let ts2 := modifyAt ts j fun t => { t with hexes := addAll t.hexes donor.hexes }
  modifyAt ts2 i fun t => { t with hexes := [] }

/-- One step of the neighbor-id lookup of the merge loop in
`cleanupTerritories`: resolve a neighbor id to its index via
`territories.find(t => t.id === id)`. -/
def mergeFindIdx (ts : List Territory) (acc : List Nat) (tid : Nat) :
    List Nat :=
  match findIdxById ts tid with
  | some j => acc ++ [j]
  | none => acc

/-- The body of the merge loop of `cleanupTerritories` for index `i`:
merge an undersized, non-empty territory into its smallest stale neighbor
whose combined size stays within the cap. -/
def mergeStep (minSize maxSize : Nat) (ts : List Territory) (i : Nat) :
    List Territory :=
  match ts[i]? with
  | none => ts
  | some t =>
    if t.hexes.length < minSize ∧ 0 < t.hexes.length then
      if 0 < t.neighbors.length then
        let found := t.neighbors.foldl (mergeFindIdx ts) []
        match found.filter fun j => decide (tsize ts j + t.hexes.length ≤ maxSize) with
        | [] => ts
        | first :: rest => mergeTransfer ts i (smallestOf ts first rest) t
      else ts
    else ts

/-- `cleanupTerritories` from `src/mapGenerator.ts`: compute the neighbor
graph once, merge undersized territories, drop empties, renumber, and
recompute neighbors. -/
def cleanupTerritories (ts : List Territory) (minSize maxSize : Nat) :
    List Territory :=
  let ts1 := calculateTerritoryNeighbors ts
  let ts2 := (List.range ts1.length).foldl (mergeStep minSize maxSize) ts1
  let nonEmpty := ts2.filter fun t => decide (0 < t.hexes.length)
  calculateTerritoryNeighbors (renumberTerritories nonEmpty)

/-- One neighbor inspection of the BFS in `removeIsolatedTerritories`
(`src/mapGenerator.js`): enqueue unvisited territory hexes. The pair is
(queue, visited). -/
def bfsStepNb (allT : List Hex) (pr : List Hex × List Hex) (nb : Hex) :
    List Hex × List Hex :=
  if nb ∉ pr.2 ∧ nb ∈ allT then (pr.1 ++ [nb], sadd pr.2 nb) else pr

/-- The BFS `while (queue.length > 0)` loop of `removeIsolatedTerritories`.
Every enqueued hex is freshly visited, so `allT.length + 1` dequeue steps
of fuel always outlast the queue (proved below); result is
(component, visited). -/
def bfsLoop (allT : List Hex) :
    Nat → List Hex → List Hex → List Hex → List Hex × List Hex
  | 0, _, visited, component => (component, visited)
  | _ + 1, [], visited, component => (component, visited)
  | fuel + 1, cur :: queue, visited, component =>
    let component2 := sadd component cur
    let pr := (hexNeighbors cur).foldl (bfsStepNb allT) (queue, visited)
    bfsLoop allT fuel pr.1 pr.2 component2

/-- One hex of the component scan of `removeIsolatedTerritories`: start a
BFS at the hex unless it was already visited. The pair is
(visited, components). -/
def compStep (allT : List Hex) (pr : List Hex × List (List Hex)) (h : Hex) :
    List Hex × List (List Hex) :=
  if h ∈ pr.1 then pr
  else
    let r := bfsLoop allT (allT.length + 1) [h] (sadd pr.1 h) []
    (r.2, pr.2 ++ [r.1])

/-- The component scan of `removeIsolatedTerritories`: one BFS per
not-yet-visited hex, in insertion order of the territory-hex set. -/
def hexComponents (allT : List Hex) : List (List Hex) :=
  (allT.foldl (compStep allT) ([], [])).2

/-- The `reduce` picking the main landmass:
`(a, b) => a.size >= b.size ? a : b`, the first component of maximal size. -/
def largestComponent (comps : List (List Hex)) : List Hex :=
  match comps with
  | [] => []
  | c :: rest => rest.foldl (fun a b => if b.length ≤ a.length then a else b) c

/-- `removeIsolatedTerritories` from `src/mapGenerator.js`: find connected
components of the union of territory hexes, keep the largest, convert the
rest to blocked tiles, drop emptied territories and renumber. -/
def removeIsolatedTerritories (ts : List Territory) (empty : List Hex) :
    List Territory × List Hex :=
  if ts.length ≤ 1 then (ts, empty)
  else
    let allT := ts.foldl (fun s t => addAll s t.hexes) []
    let comps := hexComponents allT
    if comps.length ≤ 1 then (ts, empty)
    else
      let largest := largestComponent comps
      let ts2 := ts.map fun t =>
        { t with hexes := t.hexes.filter fun h => decide (h ∈ largest) }
      let empty2 := ts.foldl
        (fun e t => addAll e (t.hexes.filter fun h => decide (h ∉ largest)))
        empty
      let nonEmpty := ts2.filter fun t => decide (0 < t.hexes.length)
      (renumberTerritories nonEmpty, empty2)

/-- `generateMap` from `src/mapGenerator.js` (the full compiled pipeline:
the TypeScript source `src/mapGenerator.ts` is identical except that it
does not run `removeIsolatedTerritories`). -/
def generateMap (g : RandS) (cfg : MapGeneratorConfig) : GeneratedMap :=
  let c := resolvedContext g cfg
  let ts1 := cleanupTerritories c.state.territories cfg.minTerritorySize
    cfg.maxTerritorySize
  let pr := removeIsolatedTerritories ts1 c.emptyHexes
  { territories := calculateTerritoryNeighbors pr.1,
    allHexes := c.allHexes,
    emptyHexes := pr.2,
    config := cfg }

/-- `generateMap` exactly as in `src/mapGenerator.ts` (no
connectivity-enforcement pass). -/
def generateMapTs (g : RandS) (cfg : MapGeneratorConfig) : GeneratedMap :=
  let c := resolvedContext g cfg
  let ts1 := cleanupTerritories c.state.territories cfg.minTerritorySize
    cfg.maxTerritorySize
  { territories := calculateTerritoryNeighbors ts1,
    allHexes := c.allHexes,
    emptyHexes := c.emptyHexes,
    config := cfg }

/-- Hex adjacency: `b` is one of the six neighbors of `a`. -/
def hexAdj (a b : Hex) : Prop :=
  b ∈ hexNeighbors a

instance (a b : Hex) : Decidable (hexAdj a b) :=
  inferInstanceAs (Decidable (b ∈ hexNeighbors a))

theorem mem_hexNeighbors {a b : Hex} :
    b ∈ hexNeighbors a ↔ ∃ d ∈ DIRECTIONS, b = hexAdd a d := by
  simp [hexNeighbors, eq_comm]

theorem hexAdj_symm {a b : Hex} (h : hexAdj a b) : hexAdj b a := by
  rcases mem_hexNeighbors.mp h with ⟨d, hd, rfl⟩
  refine mem_hexNeighbors.mpr ⟨⟨-d.q, -d.r⟩, ?_, ?_⟩
  · fin_cases hd <;> decide
  · show a = hexAdd (hexAdd a d) ⟨-d.q, -d.r⟩
    cases a with
    | mk aq ar =>
      simp only [hexAdd, Hex.mk.injEq]
      omega

/-- Reachability inside a hex set: there is a chain of hex-adjacency steps
from `a` to `b` that never leaves `s` (the spec's notion of a BFS inside
the set). -/
inductive ReachIn (s : List Hex) : Hex → Hex → Prop
  | refl (a : Hex) (ha : a ∈ s) : ReachIn s a a
  | step (a b c : Hex) (hr : ReachIn s a b) (hc : c ∈ s) (hadj : hexAdj b c) :
      ReachIn s a c

theorem ReachIn.mem_left {s : List Hex} {a b : Hex} (h : ReachIn s a b) :
    a ∈ s := by
  induction h with
  | refl ha => exact ha
  | step b c hr hc hadj ih => exact ih

theorem ReachIn.mem_right {s : List Hex} {a b : Hex} (h : ReachIn s a b) :
    b ∈ s := by
  induction h with
  | refl ha => exact ha
  | step b c hr hc hadj ih => exact hc

theorem ReachIn.trans {s : List Hex} {a b c : Hex} (h1 : ReachIn s a b)
    (h2 : ReachIn s b c) : ReachIn s a c := by
  induction h2 with
  | refl hx => exact h1
  | step y z hr hz hadj ih => exact ReachIn.step _ _ _ ih hz hadj

theorem ReachIn.symm {s : List Hex} {a b : Hex} (h : ReachIn s a b) :
    ReachIn s b a := by
  induction h with
  | refl ha => exact ReachIn.refl _ ha
  | step b c hr hc hadj ih =>
    exact ReachIn.trans
      (ReachIn.step c c b (ReachIn.refl c hc) hr.mem_right (hexAdj_symm hadj))
      ih

theorem ReachIn.mono {s t : List Hex} {a b : Hex} (h : ReachIn s a b)
    (hsub : ∀ x ∈ s, x ∈ t) : ReachIn t a b := by
  induction h with
  | refl ha => exact ReachIn.refl _ (hsub _ ha)
  | step b c hr hc hadj ih => exact ReachIn.step _ _ _ ih (hsub c hc) hadj

/-- A set of hexes is edge-connected when all its members reach each other
inside it; the empty set counts as connected. -/
def EdgeConnected (s : List Hex) : Prop :=
  ∀ a ∈ s, ∀ b ∈ s, ReachIn s a b

/-- Append a neighbor to the reached list when it is in-set and new. -/
def addNbIf (s : List Hex) (a2 : List Hex) (nb : Hex) : List Hex :=
  if nb ∈ s ∧ nb ∉ a2 then a2 ++ [nb] else a2

/-- Add all in-set neighbors of one reached hex. -/
def addNbsOf (s : List Hex) (a : List Hex) (h : Hex) : List Hex :=
  (hexNeighbors h).foldl (addNbIf s) a

/-- One saturation sweep of reachability: append every in-set neighbor of
an already reached hex. -/
def expandOnce (s acc : List Hex) : List Hex :=
  acc.foldl (addNbsOf s) acc

/-- Saturated reachable set from `start` inside `s`. -/
def reachList (s : List Hex) (start : Hex) : List Hex :=
  (expandOnce s)^[s.length] [start]

section ReachListLemmas

theorem foldl_extends {β γ : Type} (f : List γ → β → List γ)
    (hf : ∀ acc b, acc <+: f acc b) :
    ∀ (l : List β) (acc : List γ), acc <+: l.foldl f acc := by
  intro l
  induction l with
  | nil => intro acc; exact List.prefix_refl acc
  | cons b bs ih =>
    intro acc
    exact (hf acc b).trans (ih (f acc b))

theorem addNbIf_extends (s a2 : List Hex) (nb : Hex) : a2 <+: addNbIf s a2 nb := by
  unfold addNbIf
  split
  · exact List.prefix_append a2 [nb]
  · exact List.prefix_refl a2

theorem addNbsOf_extends (s a : List Hex) (h : Hex) : a <+: addNbsOf s a h :=
  foldl_extends (addNbIf s) (addNbIf_extends s) (hexNeighbors h) a

theorem expandOnce_extends (s acc : List Hex) : acc <+: expandOnce s acc :=
  foldl_extends (addNbsOf s) (addNbsOf_extends s) acc acc

theorem mem_addNbsOf {s a : List Hex} {h x : Hex}
    (hx : x ∈ addNbsOf s a h) : x ∈ a ∨ (x ∈ s ∧ hexAdj h x) := by
  unfold addNbsOf at hx
  have main : ∀ (l : List Hex) (a0 : List Hex), x ∈ l.foldl (addNbIf s) a0 →
      x ∈ a0 ∨ (x ∈ s ∧ x ∈ l) := by
    intro l
    induction l with
    | nil => intro a0 hx0; exact Or.inl hx0
    | cons nb rest ih =>
      intro a0 hx0
      rcases ih (addNbIf s a0 nb) hx0 with h1 | h1
      · unfold addNbIf at h1
        split at h1
        · rcases List.mem_append.mp h1 with h2 | h2
          · exact Or.inl h2
          · next hg =>
            have : x = nb := by simpa using h2
            exact Or.inr ⟨this ▸ hg.1, by simp [this]⟩
        · exact Or.inl h1
      · exact Or.inr ⟨h1.1, by simp [h1.2]⟩
  rcases main (hexNeighbors h) a hx with h1 | h1
  · exact Or.inl h1
  · exact Or.inr ⟨h1.1, h1.2⟩

theorem mem_expandOnce {s acc : List Hex} {x : Hex}
    (hx : x ∈ expandOnce s acc) : x ∈ acc ∨ (x ∈ s ∧ ∃ y ∈ acc, hexAdj y x) := by
  unfold expandOnce at hx
  have main : ∀ (l : List Hex) (a0 : List Hex), x ∈ l.foldl (addNbsOf s) a0 →
      x ∈ a0 ∨ (x ∈ s ∧ ∃ y ∈ l, hexAdj y x) := by
    intro l
    induction l with
    | nil => intro a0 hx0; exact Or.inl hx0
    | cons h rest ih =>
      intro a0 hx0
      rcases ih (addNbsOf s a0 h) hx0 with h1 | h1
      · rcases mem_addNbsOf h1 with h2 | h2
        · exact Or.inl h2
        · exact Or.inr ⟨h2.1, h, by simp, h2.2⟩
      · exact Or.inr ⟨h1.1, h1.2.choose, by simp [h1.2.choose_spec.1], h1.2.choose_spec.2⟩
  rcases main acc acc hx with h1 | h1
  · exact Or.inl h1
  · exact Or.inr h1

theorem addNbIf_nodup {s a2 : List Hex} (h : a2.Nodup) (nb : Hex) :
    (addNbIf s a2 nb).Nodup := by
  unfold addNbIf
  split
  · next hg => simpa [List.nodup_append] using ⟨h, hg.2⟩
  · exact h

theorem foldl_nodup {β : Type} (f : List Hex → β → List Hex)
    (hf : ∀ acc b, acc.Nodup → (f acc b).Nodup) :
    ∀ (l : List β) (acc : List Hex), acc.Nodup → (l.foldl f acc).Nodup := by
  intro l
  induction l with
  | nil => intro acc h; exact h
  | cons b bs ih => intro acc h; exact ih (f acc b) (hf acc b h)

theorem expandOnce_nodup {s acc : List Hex} (h : acc.Nodup) :
    (expandOnce s acc).Nodup :=
  foldl_nodup (addNbsOf s)
    (fun a hh hn => foldl_nodup (addNbIf s)
      (fun _ nb hn2 => addNbIf_nodup hn2 nb) (hexNeighbors hh) a hn)
    acc acc h

/-- If a neighbor of a processed hex is in-set, the sweep includes it. -/
theorem mem_addNbsOf_of_adj {s a : List Hex} {h nb : Hex}
    (hnb : nb ∈ s) (hmem : nb ∈ hexNeighbors h) :
    nb ∈ addNbsOf s a h := by
  unfold addNbsOf
  have main : ∀ (l : List Hex) (a0 : List Hex), nb ∈ l →
      nb ∈ l.foldl (addNbIf s) a0 := by
    intro l
    induction l with
    | nil => intro a0 h0; cases h0
    | cons c rest ih =>
      intro a0 h0
      rcases List.mem_cons.mp h0 with rfl | h0
      · have hin : nb ∈ addNbIf s a0 nb := by
          unfold addNbIf
          split
          · simp
          · next hg =>
            rcases not_and_or.mp hg with h2 | h2
            · exact absurd hnb h2
            · simpa using not_not.mp h2
        exact (foldl_extends (addNbIf s) (addNbIf_extends s) rest _).mem hin
      · exact ih _ h0
  exact main (hexNeighbors h) a hmem

/-- A fixed point of the sweep is closed under in-set adjacency. -/
theorem closed_of_fixpoint {s acc : List Hex} (hfix : expandOnce s acc = acc) :
    ∀ h ∈ acc, ∀ nb ∈ s, hexAdj h nb → nb ∈ acc := by
  intro h hh nb hnb hadj
  rw [← hfix]
  unfold expandOnce
  rcases List.append_of_mem hh with ⟨l1, l2, rfl⟩
  rw [List.foldl_append]
  have h1 : nb ∈ (h :: l2).foldl (addNbsOf s) ((l1.foldl (addNbsOf s)) (l1 ++ h :: l2)) := by
    show nb ∈ l2.foldl (addNbsOf s) (addNbsOf s _ h)
    have hin : nb ∈ addNbsOf s (l1.foldl (addNbsOf s) (l1 ++ h :: l2)) h :=
      mem_addNbsOf_of_adj hnb hadj
    exact (foldl_extends (addNbsOf s) (addNbsOf_extends s) l2 _).mem hin
  exact h1

end ReachListLemmas

section ReachListMain

theorem reachList_start_mem {s : List Hex} {a : Hex} : a ∈ reachList s a := by
  unfold reachList
  have main : ∀ n : Nat, a ∈ (expandOnce s)^[n] [a] := by
    intro n
    induction n with
    | zero => simp
    | succ k ih =>
      rw [Function.iterate_succ_apply']
      exact (expandOnce_extends s _).mem ih
  exact main s.length

theorem reachList_sound {s : List Hex} {a : Hex} (ha : a ∈ s) :
    ∀ x ∈ reachList s a, ReachIn s a x := by
  unfold reachList
  have main : ∀ (n : Nat), ∀ x ∈ (expandOnce s)^[n] [a], ReachIn s a x := by
    intro n
    induction n with
    | zero =>
      intro x hx
      have : x = a := by simpa using hx
      exact this ▸ ReachIn.refl a ha
    | succ k ih =>
      intro x hx
      rw [Function.iterate_succ_apply'] at hx
      rcases mem_expandOnce hx with h1 | h1
      · exact ih x h1
      · rcases h1 with ⟨hxs, y, hy, hadj⟩
        exact ReachIn.step a y x (ih y hy) hxs hadj
  exact main s.length

theorem reachList_subset {s : List Hex} {a : Hex} :
    ∀ x ∈ reachList s a, x = a ∨ x ∈ s := by
  unfold reachList
  have main : ∀ (n : Nat), ∀ x ∈ (expandOnce s)^[n] [a], x = a ∨ x ∈ s := by
    intro n
    induction n with
    | zero => intro x hx; exact Or.inl (by simpa using hx)
    | succ k ih =>
      intro x hx
      rw [Function.iterate_succ_apply'] at hx
      rcases mem_expandOnce hx with h1 | h1
      · exact ih x h1
      · exact Or.inr h1.1
  exact main s.length

theorem reachList_nodup {s : List Hex} {a : Hex} : (reachList s a).Nodup := by
  unfold reachList
  have main : ∀ (n : Nat), ((expandOnce s)^[n] [a]).Nodup := by
    intro n
    induction n with
    | zero => simp
    | succ k ih =>
      rw [Function.iterate_succ_apply']
      exact expandOnce_nodup ih
  exact main s.length

theorem iterate_fix_propagate {β : Type} (f : β → β) (x : β) (j : Nat)
    (hfix : f (f^[j] x) = f^[j] x) :
    ∀ d : Nat, f^[j + d] x = f^[j] x := by
  intro d
  induction d with
  | zero => rfl
  | succ k ih =>
    have : j + (k + 1) = (j + k) + 1 := by omega
    rw [this, Function.iterate_succ_apply', ih, hfix]

theorem reachList_closed {s : List Hex} {a : Hex} :
    ∀ h ∈ reachList s a, ∀ nb ∈ s, hexAdj h nb → nb ∈ reachList s a := by
  set f := expandOnce s with hf
  have hbound : ∀ n : Nat, (f^[n] [a]).length ≤ s.length + 1 := by
    intro n
    have hsub : ∀ x ∈ f^[n] [a], x ∈ a :: s := by
      intro x hx
      have main : ∀ (m : Nat), ∀ y ∈ f^[m] [a], y = a ∨ y ∈ s := by
        intro m
        induction m with
        | zero => intro y hy; exact Or.inl (by simpa using hy)
        | succ k ih =>
          intro y hy
          rw [Function.iterate_succ_apply'] at hy
          rcases mem_expandOnce hy with h1 | h1
          · exact ih y h1
          · exact Or.inr h1.1
      rcases main n x hx with h1 | h1
      · simp [h1]
      · simp [h1]
    have hnd : (f^[n] [a]).Nodup := by
      have main : ∀ (m : Nat), (f^[m] [a]).Nodup := by
        intro m
        induction m with
        | zero => simp
        | succ k ih =>
          rw [Function.iterate_succ_apply']
          exact expandOnce_nodup ih
      exact main n
    calc (f^[n] [a]).length = (f^[n] [a]).toFinset.card :=
            (List.toFinset_card_of_nodup hnd).symm
      _ ≤ (a :: s).toFinset.card := by
            apply Finset.card_le_card
            intro x hx
            rw [List.mem_toFinset] at hx ⊢
            exact hsub x hx
      _ ≤ (a :: s).length := (a :: s).toFinset_card_le
      _ = s.length + 1 := by simp
  have hgrow : ∀ (m : Nat), (∀ j < m, f (f^[j] [a]) ≠ f^[j] [a]) →
      1 + m ≤ (f^[m] [a]).length := by
    intro m
    induction m with
    | zero => intro _; simp
    | succ k ih =>
      intro hne
      have h1 : 1 + k ≤ (f^[k] [a]).length :=
        ih fun j hj => hne j (Nat.lt_succ_of_lt hj)
      have h2 : f (f^[k] [a]) ≠ f^[k] [a] := hne k (Nat.lt_succ_self k)
      have hpre : f^[k] [a] <+: f (f^[k] [a]) := expandOnce_extends s _
      have hlt : (f^[k] [a]).length < (f (f^[k] [a])).length := by
        rcases Nat.lt_or_ge (f^[k] [a]).length (f (f^[k] [a])).length with h | h
        · exact h
        · exact absurd (List.IsPrefix.eq_of_length hpre
            (Nat.le_antisymm hpre.length_le h)).symm h2
      rw [Function.iterate_succ_apply']
      omega
  have hexfix : ∃ j ≤ s.length, f (f^[j] [a]) = f^[j] [a] := by
    by_contra hno
    push_neg at hno
    have h1 : 1 + (s.length + 1) ≤ (f^[s.length + 1] [a]).length := by
      apply hgrow
      intro j hj
      exact hno j (Nat.le_of_lt_succ hj)
    have h2 := hbound (s.length + 1)
    omega
  rcases hexfix with ⟨j, hj, hfix⟩
  have heq : f^[s.length] [a] = f^[j] [a] := by
    have : s.length = j + (s.length - j) := by omega
    rw [this]
    exact iterate_fix_propagate f [a] j hfix (s.length - j)
  have hrl : reachList s a = f^[j] [a] := by
    unfold reachList
    rw [← hf]
    exact heq
  intro h hh nb hnb hadj
  rw [hrl] at hh ⊢
  exact closed_of_fixpoint hfix h hh nb hnb hadj

theorem reachList_complete {s : List Hex} {a b : Hex} (h : ReachIn s a b) :
    b ∈ reachList s a := by
  induction h with
  | refl ha => exact reachList_start_mem
  | step y z hr hz hadj ih => exact reachList_closed y ih z hz hadj

/-- Boolean edge-connectivity check matching `EdgeConnected`. -/
def edgeConnectedB : List Hex → Bool
  | [] => true
  | a :: rest => (a :: rest).all fun b => decide (b ∈ reachList (a :: rest) a)

theorem edgeConnected_iff_b (s : List Hex) :
    EdgeConnected s ↔ edgeConnectedB s = true := by
  cases s with
  | nil =>
    constructor
    · intro _; rfl
    · intro _ x hx; cases hx
  | cons a rest =>
    constructor
    · intro hconn
      simp only [edgeConnectedB, List.all_eq_true, decide_eq_true_eq]
      intro b hb
      exact reachList_complete (hconn a (by simp) b hb)
    · intro hb x hx y hy
      simp only [edgeConnectedB, List.all_eq_true, decide_eq_true_eq] at hb
      have ha : a ∈ a :: rest := by simp
      have hax : ReachIn (a :: rest) a x := reachList_sound ha x (hb x hx)
      have hay : ReachIn (a :: rest) a y := reachList_sound ha y (hb y hy)
      exact hax.symm.trans hay

instance (s : List Hex) : Decidable (EdgeConnected s) :=
  decidable_of_iff _ (edgeConnected_iff_b s).symm

end ReachListMain

section GridLemmas

theorem generateHexGrid_succ (w h : Nat) :
    generateHexGrid w (h + 1) = generateHexGrid w h ++
      (List.range w).map (fun (col : Nat) =>
        ⟨(col : Int) - ((h / 2 : Nat) : Int), (h : Int)⟩) := by
  unfold generateHexGrid
  rw [List.range_succ, List.flatMap_append]
  congr 1
  rw [List.flatMap_cons, List.flatMap_nil, List.append_nil]

theorem generateHexGrid_length (w h : Nat) :
    (generateHexGrid w h).length = w * h := by
  induction h with
  | zero => simp [generateHexGrid]
  | succ k ih =>
    rw [generateHexGrid_succ, List.length_append, ih]
    simp [Nat.mul_succ]

theorem mem_generateHexGrid {w h : Nat} {x : Hex} :
    x ∈ generateHexGrid w h ↔
      ∃ row, row < h ∧ ∃ col, col < w ∧
        x = ⟨(col : Int) - ((row / 2 : Nat) : Int), (row : Int)⟩ := by
  unfold generateHexGrid
  constructor
  · intro hx
    rcases List.mem_flatMap.mp hx with ⟨row, hrow, hx2⟩
    rcases List.mem_map.mp hx2 with ⟨col, hcol, rfl⟩
    exact ⟨row, List.mem_range.mp hrow, col, List.mem_range.mp hcol, rfl⟩
  · rintro ⟨row, hrow, col, hcol, rfl⟩
    exact List.mem_flatMap.mpr ⟨row, List.mem_range.mpr hrow,
      List.mem_map.mpr ⟨col, List.mem_range.mpr hcol, rfl⟩⟩

theorem generateHexGrid_nodup (w h : Nat) : (generateHexGrid w h).Nodup := by
  induction h with
  | zero => simp [generateHexGrid]
  | succ k ih =>
    rw [generateHexGrid_succ, List.nodup_append]
    refine ⟨ih, ?_, ?_⟩
    · refine List.Nodup.map ?_ (List.nodup_range w)
      intro c1 c2 hc
      have : (c1 : Int) = (c2 : Int) := by
        have := congrArg Hex.q hc
        simpa using this
      exact_mod_cast this
    · intro x hx hy
      rcases mem_generateHexGrid.mp hx with ⟨row, hrow, col, hcol, rfl⟩
      rcases List.mem_map.mp hy with ⟨c, hc, heq⟩
      have := congrArg Hex.r heq
      simp only at this
      omega

theorem generateHexGrid_get {w h r c : Nat} (hr : r < h) (hc : c < w) :
    (generateHexGrid w h)[r * w + c]? =
      some ⟨(c : Int) - ((r / 2 : Nat) : Int), (r : Int)⟩ := by
  induction h with
  | zero => omega
  | succ k ih =>
    rw [generateHexGrid_succ]
    rcases Nat.lt_or_ge r k with hrk | hrk
    · rw [List.getElem?_append_left]
      · exact ih hrk
      · rw [generateHexGrid_length]
        have : r * w + c < (r + 1) * w := by
          calc r * w + c < r * w + w := by omega
            _ = (r + 1) * w := by ring
        have h2 : (r + 1) * w ≤ w * k := by
          have : r + 1 ≤ k := hrk
          calc (r + 1) * w ≤ k * w := Nat.mul_le_mul_right w this
            _ = w * k := Nat.mul_comm k w
        omega
    · have hrk2 : r = k := by omega
      subst hrk2
      rw [List.getElem?_append_right]
      · rw [generateHexGrid_length]
        have harith : r * w + c - w * r = c := by
          have : r * w = w * r := Nat.mul_comm r w
          omega
        rw [harith, List.getElem?_map, List.getElem?_range hc]
        rfl
      · rw [generateHexGrid_length]
        have : r * w = w * r := Nat.mul_comm r w
        omega

end GridLemmas

/-- C8: for all non-negative width and height, `generateHexGrid` returns a
list of exactly `width * height` axial coordinates with no duplicates,
where the hex stored for row `r` and column `c` (position `r * width + c`)
is `q = c - floor (r / 2)`, `r = r`. -/
theorem claim_C8 (width height : Nat) :
    (generateHexGrid width height).length = width * height ∧
    (generateHexGrid width height).Nodup ∧
    ∀ r c : Nat, r < height → c < width →
      (generateHexGrid width height)[r * width + c]? =
        some ⟨(c : Int) - ((r / 2 : Nat) : Int), (r : Int)⟩ :=
  ⟨generateHexGrid_length width height, generateHexGrid_nodup width height,
    fun _ _ hr hc => generateHexGrid_get hr hc⟩

/-- Witness for C8 at a concrete grid: a 3-wide, 2-high grid has 6 distinct
hexes and position `1 * 3 + 2` holds the hex `(2 - 0, 1)`. -/
theorem claim_C8_witness :
    (generateHexGrid 3 2).length = 3 * 2 ∧
    (generateHexGrid 3 2)[1 * 3 + 2]? = some ⟨2, 1⟩ :=
  ⟨(claim_C8 3 2).1, by
    have h := (claim_C8 3 2).2.2 1 2 (by decide) (by decide)
    simpa using h⟩

section BlockedCount

theorem clampPercent_le_50 (p : Int) : (clampPercent p).toNat ≤ 50 := by
  unfold clampPercent
  omega

theorem emptyCount_le_length (n : Nat) (pct : Int) :
    n * (clampPercent pct).toNat / 100 ≤ n := by
  have hle : (clampPercent pct).toNat ≤ 100 :=
    (clampPercent_le_50 pct).trans (by omega)
  have h1 : n * (clampPercent pct).toNat ≤ n * 100 := Nat.mul_le_mul_left _ hle
  calc n * (clampPercent pct).toNat / 100
      ≤ n * 100 / 100 := Nat.div_le_div_right h1
    _ = n := Nat.mul_div_cancel n (by omega)

theorem selectEmptyHexes_length (g : RandS) {allHexes : List Hex}
    (hnd : allHexes.Nodup) (pct : Int) :
    (selectEmptyHexes g allHexes pct).1.length =
      allHexes.length * (clampPercent pct).toNat / 100 := by
  rw [show selectEmptyHexes g allHexes pct =
      (if 0 < allHexes.length * (clampPercent pct).toNat / 100 then
        (addAll [] ((shuffleArray g allHexes).1.take
          (allHexes.length * (clampPercent pct).toNat / 100)),
         (shuffleArray g allHexes).2)
      else ([], g)) from rfl]
  split
  · next hpos =>
    simp only
    have hlen : (shuffleArray g allHexes).1.length = allHexes.length :=
      shuffleArray_length g allHexes
    have hcle := emptyCount_le_length allHexes.length pct
    have htake_nd :
        ((shuffleArray g allHexes).1.take
          (allHexes.length * (clampPercent pct).toNat / 100)).Nodup :=
      (shuffleArray_nodup g hnd).sublist (List.take_sublist _ _)
    rw [length_addAll_nodup htake_nd (by intro x hx; simp)]
    rw [List.length_nil, List.length_take, hlen]
    omega
  · next hneg =>
    simp only [List.length_nil]
    omega

end BlockedCount

/-- C5: immediately after blocked-tile selection (`selectEmptyHexes`, the
inlined lines 46-56 of `generateMap`), the number of blocked hexes equals
`floor(totalHexCount * clamp(emptyTilePercent, 0, 50) / 100)` exactly, for
every stream of random draws and every percent; in particular
`emptyTilePercent = 200` is treated as 50 and blocks `floor(total / 2)`. -/
theorem claim_C5 (g : RandS) (width height : Nat) (pct : Int) :
    (selectEmptyHexes g (generateHexGrid width height) pct).1.length =
      (generateHexGrid width height).length * (clampPercent pct).toNat / 100 ∧
    (selectEmptyHexes g (generateHexGrid width height) 200).1.length =
      (generateHexGrid width height).length / 2 := by
  constructor
  · exact selectEmptyHexes_length g (generateHexGrid_nodup width height) pct
  · rw [selectEmptyHexes_length g (generateHexGrid_nodup width height) 200]
    have h50 : clampPercent 200 = 50 := by decide
    rw [h50]
    have h50n : ((50 : Int)).toNat = 50 := rfl
    rw [h50n]
    omega

section NeighborLemmas

theorem mfind_cons {β : Type} (h : Hex) (v : β) (m : List (Hex × β)) (k : Hex) :
    mfind ((h, v) :: m) k = if k = h then some v else mfind m k := by
  unfold mfind
  rcases eq_or_ne k h with rfl | hne
  · simp [List.find?_cons]
  · rw [List.find?_cons]
    have : (decide ((h, v).1 = k)) = false := by
      simp [Ne.symm hne]
    rw [this]
    simp [hne]

theorem mem_neighborAdd {m : List (Hex × Nat)} {tid : Nat} {acc : List Nat}
    {nb : Hex} {x : Nat} :
    x ∈ neighborAdd m tid acc nb ↔
      x ∈ acc ∨ (mfind m nb = some x ∧ x ≠ tid) := by
  unfold neighborAdd
  split
  · next nid hfind =>
    split
    · next hne =>
      rw [mem_sadd]
      constructor
      · rintro (h | rfl)
        · exact Or.inl h
        · exact Or.inr ⟨hfind, hne⟩
      · rintro (h | ⟨hf2, hx⟩)
        · exact Or.inl h
        · rw [hfind] at hf2
          exact Or.inr (Option.some.inj hf2).symm
    · next hne =>
      have hnid : nid = tid := not_not.mp hne
      constructor
      · exact Or.inl
      · rintro (h | ⟨hf2, hx⟩)
        · exact h
        · rw [hfind] at hf2
          exact absurd (Option.some.inj hf2 ▸ hnid) hx
  · next hfind =>
    constructor
    · exact Or.inl
    · rintro (h | ⟨hf2, hx⟩)
      · exact h
      · rw [hfind] at hf2
        exact Option.noConfusion hf2

theorem mem_foldl_neighborAdd {m : List (Hex × Nat)} {tid : Nat}
    (l : List Hex) (acc : List Nat) (x : Nat) :
    x ∈ l.foldl (neighborAdd m tid) acc ↔
      x ∈ acc ∨ ∃ nb ∈ l, mfind m nb = some x ∧ x ≠ tid := by
  induction l generalizing acc with
  | nil => simp
  | cons nb rest ih =>
    rw [List.foldl_cons, ih, mem_neighborAdd]
    constructor
    · rintro ((h | h) | ⟨y, hy, hf⟩)
      · exact Or.inl h
      · exact Or.inr ⟨nb, by simp, h⟩
      · exact Or.inr ⟨y, by simp [hy], hf⟩
    · rintro (h | ⟨y, hy, hf⟩)
      · exact Or.inl (Or.inl h)
      · rcases List.mem_cons.mp hy with rfl | hy2
        · exact Or.inl (Or.inr hf)
        · exact Or.inr ⟨y, hy2, hf⟩

theorem mem_territoryNeighborIds {m : List (Hex × Nat)} {t : Territory} {x : Nat} :
    x ∈ territoryNeighborIds m t ↔
      ∃ h ∈ t.hexes, ∃ nb ∈ hexNeighbors h, mfind m nb = some x ∧ x ≠ t.id := by
  unfold territoryNeighborIds
  have main : ∀ (l : List Hex) (acc : List Nat),
      x ∈ l.foldl (fun acc2 h => (hexNeighbors h).foldl (neighborAdd m t.id) acc2) acc ↔
        x ∈ acc ∨ ∃ h ∈ l, ∃ nb ∈ hexNeighbors h, mfind m nb = some x ∧ x ≠ t.id := by
    intro l
    induction l with
    | nil => simp
    | cons h rest ih =>
      intro acc
      rw [List.foldl_cons, ih, mem_foldl_neighborAdd]
      constructor
      · rintro ((h1 | ⟨nb, hnb, hf⟩) | ⟨y, hy, hrest⟩)
        · exact Or.inl h1
        · exact Or.inr ⟨h, by simp, nb, hnb, hf⟩
        · exact Or.inr ⟨y, by simp [hy], hrest⟩
      · rintro (h1 | ⟨y, hy, hrest⟩)
        · exact Or.inl (Or.inl h1)
        · rcases List.mem_cons.mp hy with rfl | hy2
          · exact Or.inl (Or.inr hrest)
          · exact Or.inr ⟨y, hy2, hrest⟩
  rw [main t.hexes []]
  simp

end NeighborLemmas

section BuildMapLemmas

theorem inner_build_preserve (tid : Nat) (hx : List Hex)
    (m0 : List (Hex × Nat)) (k : Hex) (hk : k ∉ hx) :
    mfind (hx.foldl (fun m2 h => (h, tid) :: m2) m0) k = mfind m0 k := by
  induction hx generalizing m0 with
  | nil => rfl
  | cons h tl ih =>
    rw [List.foldl_cons]
    rw [ih ((h, tid) :: m0) (fun hmem => hk (by simp [hmem]))]
    rw [mfind_cons]
    have : k ≠ h := fun he => hk (by simp [he])
    simp [this]

theorem inner_build_found (tid : Nat) (hx : List Hex)
    (m0 : List (Hex × Nat)) (k : Hex) (hk : k ∈ hx) :
    mfind (hx.foldl (fun m2 h => (h, tid) :: m2) m0) k = some tid := by
  induction hx generalizing m0 with
  | nil => cases hk
  | cons h tl ih =>
    rw [List.foldl_cons]
    by_cases hmem : k ∈ tl
    · exact ih ((h, tid) :: m0) hmem
    · have hkh : k = h := by
        rcases List.mem_cons.mp hk with h1 | h1
        · exact h1
        · exact absurd h1 hmem
      rw [inner_build_preserve tid tl ((h, tid) :: m0) k hmem, mfind_cons]
      simp [hkh]

theorem outer_build_preserve (ts : List Territory) (m0 : List (Hex × Nat))
    (k : Hex) (hk : ∀ t ∈ ts, k ∉ t.hexes) :
    mfind (ts.foldl (fun m t => t.hexes.foldl (fun m2 h => (h, t.id) :: m2) m) m0) k =
      mfind m0 k := by
  induction ts generalizing m0 with
  | nil => rfl
  | cons t rest ih =>
    rw [List.foldl_cons]
    rw [ih _ (fun u hu => hk u (by simp [hu]))]
    exact inner_build_preserve t.id t.hexes m0 k (hk t (by simp))

theorem mfind_buildHexToId_owner {ts : List Territory} {k : Hex} {i : Nat}
    (hex : ∃ t ∈ ts, k ∈ t.hexes)
    (huniq : ∀ u ∈ ts, k ∈ u.hexes → u.id = i) :
    mfind (buildHexToId ts) k = some i := by
  unfold buildHexToId
  have main : ∀ (l : List Territory) (m0 : List (Hex × Nat)),
      (∃ t ∈ l, k ∈ t.hexes) → (∀ u ∈ l, k ∈ u.hexes → u.id = i) →
      mfind (l.foldl (fun m t => t.hexes.foldl (fun m2 h => (h, t.id) :: m2) m) m0) k =
        some i := by
    intro l
    induction l with
    | nil => rintro m0 ⟨t, ht, _⟩ _; cases ht
    | cons t rest ih =>
      intro m0 hex2 huniq2
      rw [List.foldl_cons]
      by_cases hrest : ∃ u ∈ rest, k ∈ u.hexes
      · exact ih _ hrest (fun u hu => huniq2 u (by simp [hu]))
      · push_neg at hrest
        rw [outer_build_preserve rest _ k hrest]
        have hkt : k ∈ t.hexes := by
          rcases hex2 with ⟨u, hu, hku⟩
          rcases List.mem_cons.mp hu with rfl | hu2
          · exact hku
          · exact absurd hku (hrest u hu2)
        rw [inner_build_found t.id t.hexes m0 k hkt]
        rw [huniq2 t (by simp) hkt]
  exact main ts [] hex huniq

theorem mfind_mem {β : Type} {m : List (Hex × β)} {k : Hex} {v : β}
    (h : mfind m k = some v) : (k, v) ∈ m := by
  unfold mfind at h
  rcases Option.map_eq_some'.mp h with ⟨⟨k2, v2⟩, hfind, hv⟩
  have hp := List.find?_some hfind
  have hk2 : k2 = k := by simpa using hp
  have hm := List.mem_of_find?_eq_some hfind
  subst hk2
  cases hv
  exact hm

theorem mem_buildHexToId {ts : List Territory} {k : Hex} {i : Nat}
    (h : (k, i) ∈ buildHexToId ts) : ∃ t ∈ ts, k ∈ t.hexes ∧ t.id = i := by
  unfold buildHexToId at h
  have main : ∀ (l : List Territory) (m0 : List (Hex × Nat)),
      (k, i) ∈ l.foldl (fun m t => t.hexes.foldl (fun m2 h2 => (h2, t.id) :: m2) m) m0 →
      (k, i) ∈ m0 ∨ ∃ t ∈ l, k ∈ t.hexes ∧ t.id = i := by
    intro l
    induction l with
    | nil => intro m0 h0; exact Or.inl h0
    | cons t rest ih =>
      intro m0 h0
      rcases ih _ h0 with h1 | ⟨u, hu, hku⟩
      · have inner : ∀ (hx : List Hex) (m1 : List (Hex × Nat)),
            (k, i) ∈ hx.foldl (fun m2 h2 => (h2, t.id) :: m2) m1 →
            (k, i) ∈ m1 ∨ (k ∈ hx ∧ t.id = i) := by
          intro hx
          induction hx with
          | nil => intro m1 hm; exact Or.inl hm
          | cons h2 tl ih2 =>
            intro m1 hm
            rcases ih2 _ hm with h3 | h3
            · rcases List.mem_cons.mp h3 with h4 | h4
              · have hk2 : k = h2 ∧ i = t.id := by
                  constructor <;> [exact congrArg Prod.fst h4; exact congrArg Prod.snd h4]
                exact Or.inr ⟨by simp [hk2.1], hk2.2.symm⟩
              · exact Or.inl h4
            · exact Or.inr ⟨by simp [h3.1], h3.2⟩
        rcases inner t.hexes m0 h1 with h2 | h2
        · exact Or.inl h2
        · exact Or.inr ⟨t, by simp, h2.1, h2.2⟩
      · exact Or.inr ⟨u, by simp [hu], hku⟩
  rcases main ts [] h with h1 | h1
  · cases h1
  · exact h1

theorem mfind_buildHexToId_sound {ts : List Territory} {k : Hex} {i : Nat}
    (h : mfind (buildHexToId ts) k = some i) :
    ∃ t ∈ ts, k ∈ t.hexes ∧ t.id = i :=
  mem_buildHexToId (mfind_mem h)

end BuildMapLemmas

section AdjacencySymmetry

theorem mem_calculateTerritoryNeighbors {ts : List Territory} {t2 : Territory}
    (h : t2 ∈ calculateTerritoryNeighbors ts) :
    ∃ t ∈ ts, t2 = { t with
      neighbors := territoryNeighborIds (buildHexToId ts) t } := by
  unfold calculateTerritoryNeighbors at h
  rcases List.mem_map.mp h with ⟨t, ht, rfl⟩
  exact ⟨t, ht, rfl⟩

theorem hex_owner_unique {ts : List Territory}
    (hdisj : List.Pairwise (fun a b => ∀ h ∈ a.hexes, h ∉ b.hexes) ts)
    {a : Territory} (ha : a ∈ ts) {h : Hex} (hh : h ∈ a.hexes) :
    ∀ u ∈ ts, h ∈ u.hexes → u.id = a.id := by
  intro u hu hhu
  have hsymm : Symmetric (fun a b : Territory => ∀ h ∈ a.hexes, h ∉ b.hexes) := by
    intro x y hxy h2 hy2 hx2
    exact hxy h2 hx2 hy2
  rcases eq_or_ne u a with rfl | hne
  · rfl
  · exact absurd hh (hdisj.forall hsymm hu ha hne h hhu)

theorem id_injective_on {ts : List Territory}
    (hids : (ts.map Territory.id).Nodup) :
    ∀ u ∈ ts, ∀ b ∈ ts, u.id = b.id → u = b := by
  intro u hu b hb heq
  exact List.inj_on_of_nodup_map hids hu hb heq

/-- C9: after `calculateTerritoryNeighbors` runs on territories with
pairwise-disjoint hex sets and distinct ids, the neighbor relation is
symmetric: `B.id ∈ A.neighbors` iff `A.id ∈ B.neighbors`. -/
theorem claim_C9 (ts : List Territory)
    (hdisj : List.Pairwise (fun a b => ∀ h ∈ a.hexes, h ∉ b.hexes) ts)
    (hids : (ts.map Territory.id).Nodup) :
    ∀ A ∈ calculateTerritoryNeighbors ts, ∀ B ∈ calculateTerritoryNeighbors ts,
      (B.id ∈ A.neighbors ↔ A.id ∈ B.neighbors) := by
  have main : ∀ a ∈ ts, ∀ b ∈ ts,
      b.id ∈ territoryNeighborIds (buildHexToId ts) a →
      a.id ∈ territoryNeighborIds (buildHexToId ts) b := by
    intro a ha b hb hmem
    rcases mem_territoryNeighborIds.mp hmem with ⟨h, hh, nb, hnb, hf, hne⟩
    rcases mfind_buildHexToId_sound hf with ⟨u, hu, hku, huid⟩
    have hub : u = b := id_injective_on hids u hu b hb huid
    subst hub
    have hfa : mfind (buildHexToId ts) h = some a.id :=
      mfind_buildHexToId_owner ⟨a, ha, hh⟩ (hex_owner_unique hdisj ha hh)
    exact mem_territoryNeighborIds.mpr
      ⟨nb, hku, h, hexAdj_symm hnb, hfa, fun he => hne he.symm⟩
  intro A hA B hB
  rcases mem_calculateTerritoryNeighbors hA with ⟨a, ha, rfl⟩
  rcases mem_calculateTerritoryNeighbors hB with ⟨b, hb, rfl⟩
  simp only
  exact ⟨main a ha b hb, main b hb a ha⟩

/-- Two disjoint, adjacent, distinctly numbered one-hex territories used to
witness the adjacency-symmetry claim. -/
def wsA : Territory :=
  { id := 0, name := "A", hexes := [⟨0, 0⟩], color := "", neighbors := [],
    owner := none, armies := 1 }

/-- Second witness territory, adjacent to `wsA`. -/
def wsB : Territory :=
  { id := 1, name := "B", hexes := [⟨1, 0⟩], color := "", neighbors := [],
    owner := none, armies := 1 }

/-- Witness for C9 on a concrete pair of adjacent territories. -/
theorem claim_C9_witness :
    ((calculateTerritoryNeighbors [wsA, wsB]).getD 1 wsA).id ∈
        ((calculateTerritoryNeighbors [wsA, wsB]).getD 0 wsA).neighbors ↔
      ((calculateTerritoryNeighbors [wsA, wsB]).getD 0 wsA).id ∈
        ((calculateTerritoryNeighbors [wsA, wsB]).getD 1 wsA).neighbors :=
  claim_C9 [wsA, wsB] (by decide) (by decide)
    ((calculateTerritoryNeighbors [wsA, wsB]).getD 0 wsA) (by decide)
    ((calculateTerritoryNeighbors [wsA, wsB]).getD 1 wsA) (by decide)

/-- C10: after `calculateTerritoryNeighbors` runs on any territory list, no
territory records itself as a neighbor, even with overlapping hex sets or
repeated ids, because the scan skips the scanning territory's own id. -/
theorem claim_C10 (ts : List Territory) :
    ∀ t2 ∈ calculateTerritoryNeighbors ts, t2.id ∉ t2.neighbors := by
  intro t2 ht2 hmem
  rcases mem_calculateTerritoryNeighbors ht2 with ⟨t, ht, rfl⟩
  simp only at hmem
  rcases mem_territoryNeighborIds.mp hmem with ⟨h, hh, nb, hnb, hf, hne⟩
  exact hne rfl

/-- Overlapping territories with a duplicate id used to witness C10. -/
def wtA : Territory :=
  { id := 5, name := "A", hexes := [⟨0, 0⟩], color := "", neighbors := [],
    owner := none, armies := 1 }

/-- Second witness territory: same id as `wtA` and overlapping hexes. -/
def wtB : Territory :=
  { id := 5, name := "B", hexes := [⟨0, 0⟩, ⟨1, 0⟩], color := "",
    neighbors := [], owner := none, armies := 1 }

/-- Witness for C10 on overlapping territories with a repeated id. -/
theorem claim_C10_witness :
    ((calculateTerritoryNeighbors [wtA, wtB]).getD 0 wtA).id ∉
      ((calculateTerritoryNeighbors [wtA, wtB]).getD 0 wtA).neighbors :=
  claim_C10 [wtA, wtB]
    ((calculateTerritoryNeighbors [wtA, wtB]).getD 0 wtA) (by decide)

section ResolverStep

theorem smallestOf_cons (ts : List Territory) (first b : Nat) (tl : List Nat) :
    smallestOf ts first (b :: tl) =
      smallestOf ts (if tsize ts first ≤ tsize ts b then first else b) tl := by
  unfold smallestOf
  rw [List.foldl_cons]

theorem smallestOf_spec (ts : List Territory) (first : Nat) (rest : List Nat) :
    ∃ pre post, first :: rest = pre ++ smallestOf ts first rest :: post ∧
      (∀ k ∈ pre, tsize ts (smallestOf ts first rest) < tsize ts k) ∧
      (∀ k ∈ first :: rest, tsize ts (smallestOf ts first rest) ≤ tsize ts k) := by
  induction rest generalizing first with
  | nil =>
    refine ⟨[], [], ?_, by simp, ?_⟩
    · simp [smallestOf]
    · intro k hk
      have : k = first := by simpa using hk
      simp [this, smallestOf]
  | cons b tl ih =>
    rw [smallestOf_cons]
    by_cases hab : tsize ts first ≤ tsize ts b
    · rw [if_pos hab]
      rcases ih first with ⟨pre2, post2, hdec, hstrict, hmin⟩
      cases pre2 with
      | nil =>
        rw [List.nil_append] at hdec
        have h1 : first = smallestOf ts first tl := (List.cons.injEq _ _ _ _).mp hdec |>.1
        refine ⟨[], b :: tl, ?_, by simp, ?_⟩
        · rw [List.nil_append, ← h1]
        · intro k hk
          rcases List.mem_cons.mp hk with rfl | hk2
          · exact hmin k (by simp)
          · rcases List.mem_cons.mp hk2 with rfl | hk3
            · rw [← h1]; exact hab
            · exact hmin k (by simp [hk3])
      | cons p ptl =>
        rw [List.cons_append] at hdec
        have h1 : first = p := (List.cons.injEq _ _ _ _).mp hdec |>.1
        have h2 : tl = ptl ++ smallestOf ts first tl :: post2 :=
          (List.cons.injEq _ _ _ _).mp hdec |>.2
        have hrfirst : tsize ts (smallestOf ts first tl) < tsize ts first := by
          have hp := hstrict p (by simp)
          rw [← h1] at hp
          exact hp
        refine ⟨first :: b :: ptl, post2, ?_, ?_, ?_⟩
        · simp only [List.cons_append]
          exact congrArg (first :: ·) (congrArg (b :: ·) h2)
        · intro k hk
          rcases List.mem_cons.mp hk with rfl | hk2
          · exact hrfirst
          · rcases List.mem_cons.mp hk2 with rfl | hk3
            · exact Nat.lt_of_lt_of_le hrfirst hab
            · exact hstrict k (by simp [hk3])
        · intro k hk
          rcases List.mem_cons.mp hk with rfl | hk2
          · exact Nat.le_of_lt hrfirst
          · rcases List.mem_cons.mp hk2 with rfl | hk3
            · exact Nat.le_of_lt (Nat.lt_of_lt_of_le hrfirst hab)
            · exact hmin k (by simp [hk3])
    · rw [if_neg hab]
      have hba : tsize ts b < tsize ts first := Nat.lt_of_not_le hab
      rcases ih b with ⟨pre2, post2, hdec, hstrict, hmin⟩
      cases pre2 with
      | nil =>
        rw [List.nil_append] at hdec
        have h1 : b = smallestOf ts b tl := (List.cons.injEq _ _ _ _).mp hdec |>.1
        refine ⟨[first], tl, ?_, ?_, ?_⟩
        · rw [← h1]
          have h2 : tl = post2 := (List.cons.injEq _ _ _ _).mp hdec |>.2
          simp
        · intro k hk
          have : k = first := by simpa using hk
          subst this
          rw [← h1]; exact hba
        · intro k hk
          rcases List.mem_cons.mp hk with rfl | hk2
          · rw [← h1]; exact Nat.le_of_lt hba
          · exact hmin k hk2
      | cons p ptl =>
        rw [List.cons_append] at hdec
        have h1 : b = p := (List.cons.injEq _ _ _ _).mp hdec |>.1
        have h2 : tl = ptl ++ smallestOf ts b tl :: post2 :=
          (List.cons.injEq _ _ _ _).mp hdec |>.2
        have hrb : tsize ts (smallestOf ts b tl) < tsize ts b := by
          have hp := hstrict p (by simp)
          rw [← h1] at hp
          exact hp
        refine ⟨first :: b :: ptl, post2, ?_, ?_, ?_⟩
        · simp only [List.cons_append]
          exact congrArg (first :: ·) (congrArg (b :: ·) h2)
        · intro k hk
          rcases List.mem_cons.mp hk with rfl | hk2
          · exact Nat.lt_trans hrb hba
          · rcases List.mem_cons.mp hk2 with rfl | hk3
            · exact hrb
            · exact hstrict k (by simp [hk3])
        · intro k hk
          rcases List.mem_cons.mp hk with rfl | hk2
          · exact Nat.le_of_lt (Nat.lt_trans hrb hba)
          · rcases List.mem_cons.mp hk2 with rfl | hk3
            · exact Nat.le_of_lt hrb
            · exact hmin k (by simp [hk3])

theorem mem_eligAdd {ts : List Territory} {m : List (Hex × Nat)}
    {maxSize : Nat} {acc : List Nat} {nb : Hex} {i : Nat} :
    i ∈ eligAdd ts m maxSize acc nb ↔
      i ∈ acc ∨ (mfind m nb = some i ∧
        ∃ t, ts[i]? = some t ∧ t.hexes.length < maxSize) := by
  unfold eligAdd
  split
  · next j hfind =>
    split
    · next t ht =>
      split
      · next hlt =>
        simp only [List.mem_append, List.mem_singleton]
        constructor
        · rintro (h1 | rfl)
          · exact Or.inl h1
          · exact Or.inr ⟨hfind, t, ht, hlt⟩
        · rintro (h1 | ⟨hf2, _⟩)
          · exact Or.inl h1
          · rw [hfind] at hf2
            exact Or.inr (Option.some.inj hf2).symm
      · next hge =>
        constructor
        · exact Or.inl
        · rintro (h1 | ⟨hf2, t2, ht2, hlt2⟩)
          · exact h1
          · rw [hfind] at hf2
            have : j = i := Option.some.inj hf2
            subst this
            rw [ht] at ht2
            have : t = t2 := Option.some.inj ht2
            subst this
            exact absurd hlt2 hge
    · next ht =>
      constructor
      · exact Or.inl
      · rintro (h1 | ⟨hf2, t2, ht2, _⟩)
        · exact h1
        · rw [hfind] at hf2
          have : j = i := Option.some.inj hf2
          subst this
          rw [ht] at ht2
          exact Option.noConfusion ht2
  · next hfind =>
    constructor
    · exact Or.inl
    · rintro (h1 | ⟨hf2, _⟩)
      · exact h1
      · rw [hfind] at hf2
        exact Option.noConfusion hf2

theorem mem_eligibleTerritories {ts : List Territory} {m : List (Hex × Nat)}
    {maxSize : Nat} {h : Hex} {i : Nat} :
    i ∈ eligibleTerritories ts m maxSize h ↔
      (∃ nb ∈ hexNeighbors h, mfind m nb = some i) ∧
        ∃ t, ts[i]? = some t ∧ t.hexes.length < maxSize := by
  unfold eligibleTerritories
  have main : ∀ (l : List Hex) (acc : List Nat),
      i ∈ l.foldl (eligAdd ts m maxSize) acc ↔
        i ∈ acc ∨ ((∃ nb ∈ l, mfind m nb = some i) ∧
          ∃ t, ts[i]? = some t ∧ t.hexes.length < maxSize) := by
    intro l
    induction l with
    | nil => simp
    | cons nb rest ih =>
      intro acc
      rw [List.foldl_cons, ih, mem_eligAdd]
      constructor
      · rintro ((h1 | ⟨hf, ht⟩) | ⟨⟨y, hy, hf⟩, ht⟩)
        · exact Or.inl h1
        · exact Or.inr ⟨⟨nb, by simp, hf⟩, ht⟩
        · exact Or.inr ⟨⟨y, by simp [hy], hf⟩, ht⟩
      · rintro (h1 | ⟨⟨y, hy, hf⟩, ht⟩)
        · exact Or.inl (Or.inl h1)
        · rcases List.mem_cons.mp hy with rfl | hy2
          · exact Or.inl (Or.inr ⟨hf, ht⟩)
          · exact Or.inr ⟨⟨y, hy2, hf⟩, ht⟩
  rw [main (hexNeighbors h) []]
  simp

/-- C6: one step of `assignUnclaimedHexes` (the function is the fold of
`assignOne` over the still-unclaimed hexes, in insertion order). If no
territory owning one of the hex's six neighbors is strictly below
`maxTerritorySize`, the hex joins the blocked set; otherwise the hex is
added to an eligible neighboring territory of minimal current size, and
among equally small ones the first encountered in the fixed
neighbor-enumeration order. -/
theorem claim_C6 (ts : List Territory) (m : List (Hex × Nat))
    (empty : List Hex) (maxSize : Nat) (h : Hex) :
    ((∀ i, ¬ ((∃ nb ∈ hexNeighbors h, mfind m nb = some i) ∧
        ∃ t, ts[i]? = some t ∧ t.hexes.length < maxSize)) →
      assignOne maxSize ⟨ts, m, empty⟩ h = ⟨ts, m, sadd empty h⟩) ∧
    (∀ i, ((∃ nb ∈ hexNeighbors h, mfind m nb = some i) ∧
        ∃ t, ts[i]? = some t ∧ t.hexes.length < maxSize) →
      ∃ j, ((∃ nb ∈ hexNeighbors h, mfind m nb = some j) ∧
          ∃ t, ts[j]? = some t ∧ t.hexes.length < maxSize) ∧
        (∀ k ∈ eligibleTerritories ts m maxSize h, tsize ts j ≤ tsize ts k) ∧
        (∃ pre post, eligibleTerritories ts m maxSize h = pre ++ j :: post ∧
          ∀ k ∈ pre, tsize ts j < tsize ts k) ∧
        assignOne maxSize ⟨ts, m, empty⟩ h =
          ⟨modifyAt ts j (fun t => { t with hexes := sadd t.hexes h }),
            (h, j) :: m, empty⟩) := by
  constructor
  · intro hnone
    have helig : eligibleTerritories ts m maxSize h = [] := by
      cases hE : eligibleTerritories ts m maxSize h with
      | nil => rfl
      | cons e es =>
        exact absurd (mem_eligibleTerritories.mp (hE ▸ List.mem_cons_self e es))
          (hnone e)
    unfold assignOne
    simp only
    rw [helig]
  · intro i hi
    cases hE : eligibleTerritories ts m maxSize h with
    | nil =>
      exact absurd (hE ▸ mem_eligibleTerritories.mpr hi) (List.not_mem_nil i)
    | cons first rest =>
      refine ⟨smallestOf ts first rest, ?_, ?_, ?_, ?_⟩
      · rcases smallestOf_spec ts first rest with ⟨pre, post, hdec, _, _⟩
        apply mem_eligibleTerritories.mp
        rw [hE, hdec]
        simp
      · intro k hk
        rcases smallestOf_spec ts first rest with ⟨_, _, _, _, hmin⟩
        exact hmin k hk
      · rcases smallestOf_spec ts first rest with ⟨pre, post, hdec, hstrict, _⟩
        exact ⟨pre, post, hdec, hstrict⟩
      · unfold assignOne
        simp only
        rw [hE]

/-- Witness territory for C6: a one-hex territory owning `(0,0)`. -/
def wc6A : Territory :=
  { id := 0, name := "", hexes := [⟨0, 0⟩], color := "", neighbors := [],
    owner := none, armies := 1 }

/-- Witness territory for C6: a two-hex territory owning `(2,0)`, `(2,1)`. -/
def wc6B : Territory :=
  { id := 1, name := "", hexes := [⟨2, 0⟩, ⟨2, 1⟩], color := "",
    neighbors := [], owner := none, armies := 1 }

/-- Witness territory list for C6. -/
def wc6ts : List Territory := [wc6A, wc6B]

/-- Witness ownership map for C6. -/
def wc6m : List (Hex × Nat) := buildHexToIdx wc6ts

/-- Witness for C6: the hex `(1,0)` between the two witness territories is
assigned to a smallest eligible neighboring territory. -/
theorem claim_C6_witness :
    ∃ j, ((∃ nb ∈ hexNeighbors ⟨1, 0⟩, mfind wc6m nb = some j) ∧
        ∃ t, wc6ts[j]? = some t ∧ t.hexes.length < 3) ∧
      (∀ k ∈ eligibleTerritories wc6ts wc6m 3 ⟨1, 0⟩,
        tsize wc6ts j ≤ tsize wc6ts k) ∧
      (∃ pre post, eligibleTerritories wc6ts wc6m 3 ⟨1, 0⟩ = pre ++ j :: post ∧
        ∀ k ∈ pre, tsize wc6ts j < tsize wc6ts k) ∧
      assignOne 3 ⟨wc6ts, wc6m, []⟩ ⟨1, 0⟩ =
        ⟨modifyAt wc6ts j (fun t => { t with hexes := sadd t.hexes ⟨1, 0⟩ }),
          (⟨1, 0⟩, j) :: wc6m, []⟩ :=
  (claim_C6 wc6ts wc6m [] 3 ⟨1, 0⟩).2 0
    ⟨⟨⟨0, 0⟩, by decide, by decide⟩, wc6A, by decide, by decide⟩

section LoopBound

theorem growLoop_succ (maxSize : Nat) (valid : List Hex) (k : Nat)
    (st : GenState) :
    growLoop maxSize valid (k + 1) st =
      if st.unclaimed.length = 0 then (st, 0)
      else if allMaxed maxSize (growRound maxSize valid st).territories = true
        then (growRound maxSize valid st, 1)
        else ((growLoop maxSize valid k (growRound maxSize valid st)).1,
          (growLoop maxSize valid k (growRound maxSize valid st)).2 + 1) := rfl

theorem growRound_eq (maxSize : Nat) (valid : List Hex) (st : GenState) :
    growRound maxSize valid st =
      List.foldl (growStep maxSize valid)
        { st with rng := (shuffleArray st.rng (List.range st.territories.length)).2 }
        (shuffleArray st.rng (List.range st.territories.length)).1 := rfl

theorem growLoop_rounds_le (maxSize : Nat) (valid : List Hex) :
    ∀ (fuel : Nat) (st : GenState),
      (growLoop maxSize valid fuel st).2 ≤ fuel := by
  intro fuel
  induction fuel with
  | zero => intro st; simp [growLoop]
  | succ k ih =>
    intro st
    rw [growLoop_succ]
    split
    · simp
    · split
      · simp
      · simp only
        have := ih (growRound maxSize valid st)
        omega

theorem growLoop_unclaimed_empty (maxSize : Nat) (valid : List Hex)
    (fuel : Nat) (st : GenState) (h : st.unclaimed.length = 0) :
    growLoop maxSize valid fuel st = (st, 0) := by
  cases fuel with
  | zero => rfl
  | succ k =>
    rw [growLoop_succ, if_pos h]

theorem growStep_of_allMaxed (maxSize : Nat) (valid : List Hex)
    (st : GenState) (i : Nat)
    (h : allMaxed maxSize st.territories = true) :
    growStep maxSize valid st i = st := by
  unfold growStep
  split
  · next t f ht hf =>
    have hmem : t ∈ st.territories := by
      have hlt : i < st.territories.length := by
        by_contra hge
        rw [List.getElem?_eq_none (Nat.le_of_not_lt hge)] at ht
        exact Option.noConfusion ht
      have h2 := List.getElem?_eq_getElem hlt
      rw [ht] at h2
      exact (Option.some.inj h2) ▸ List.getElem_mem hlt
    have hsize : maxSize ≤ t.hexes.length := by
      have := (List.all_eq_true.mp h) t hmem
      simpa using this
    rw [if_pos hsize]
  · rfl

theorem growRound_of_allMaxed (maxSize : Nat) (valid : List Hex)
    (st : GenState) (h : allMaxed maxSize st.territories = true) :
    (growRound maxSize valid st).territories = st.territories := by
  have main : ∀ (l : List Nat) (s : GenState),
      allMaxed maxSize s.territories = true →
      List.foldl (growStep maxSize valid) s l = s := by
    intro l
    induction l with
    | nil => intro s _; rfl
    | cons i rest ih =>
      intro s hs
      rw [List.foldl_cons, growStep_of_allMaxed maxSize valid s i hs]
      exact ih s hs
  rw [growRound_eq]
  have h2 : allMaxed maxSize
      ({ st with rng := (shuffleArray st.rng
        (List.range st.territories.length)).2 } : GenState).territories =
      true := h
  rw [main _ _ h2]

theorem growLoop_allMaxed_le_one (maxSize : Nat) (valid : List Hex)
    (fuel : Nat) (st : GenState)
    (h : allMaxed maxSize st.territories = true) :
    (growLoop maxSize valid fuel st).2 ≤ 1 := by
  cases fuel with
  | zero => simp [growLoop]
  | succ k =>
    rw [growLoop_succ]
    split
    · simp
    · have h2 : allMaxed maxSize (growRound maxSize valid st).territories = true := by
        rw [growRound_of_allMaxed maxSize valid st h]
        exact h
      rw [if_pos h2]

end LoopBound

/-- Degenerate loop state used by the C7 witness. -/
def wSt0 : GenState :=
  { territories := [], frontiers := [], unclaimed := [], rng := [] }

/-- All-maxed loop state used by the C7 witness. -/
def wSt1 : GenState :=
  { territories := [wc6A], frontiers := [[]], unclaimed := [⟨9, 9⟩], rng := [] }

/-- C7: the growth loop of `generateMap` executes at most
`2 * gridWidth * gridHeight` rounds; it returns immediately when the
unclaimed pool is empty and after at most one round when every territory
has already reached `maxTerritorySize`. The embedding recurses on exactly
the source's iteration budget, so `generateMap` is total for every
configuration by construction (last conjunct: it returns a map echoing the
resolved configuration). -/
theorem claim_C7 (g : RandS) (cfg : MapGeneratorConfig) :
    (grownContext g cfg).2 ≤ 2 * cfg.gridWidth * cfg.gridHeight ∧
    (∀ (maxSize : Nat) (valid : List Hex) (fuel : Nat) (st : GenState),
      st.unclaimed.length = 0 → growLoop maxSize valid fuel st = (st, 0)) ∧
    (∀ (maxSize : Nat) (valid : List Hex) (fuel : Nat) (st : GenState),
      allMaxed maxSize st.territories = true →
      (growLoop maxSize valid fuel st).2 ≤ 1) ∧
    (generateMap g cfg).config = cfg := by
  refine ⟨?_, growLoop_unclaimed_empty, growLoop_allMaxed_le_one, rfl⟩
  have h := growLoop_rounds_le cfg.maxTerritorySize
    (initContext g cfg).validHexes (cfg.gridWidth * cfg.gridHeight * 2)
    (initContext g cfg).state
  have heq : (grownContext g cfg).2 =
      (growLoop cfg.maxTerritorySize (initContext g cfg).validHexes
        (cfg.gridWidth * cfg.gridHeight * 2) (initContext g cfg).state).2 := rfl
  rw [heq]
  calc (growLoop cfg.maxTerritorySize (initContext g cfg).validHexes
        (cfg.gridWidth * cfg.gridHeight * 2) (initContext g cfg).state).2
      ≤ cfg.gridWidth * cfg.gridHeight * 2 := h
    _ = 2 * cfg.gridWidth * cfg.gridHeight := by ring

/-- Witness for C7: a state with an empty unclaimed pool ends the loop with
zero rounds, and an all-maxed state ends it within one round. -/
theorem claim_C7_witness :
    growLoop 1 [] 5 wSt0 = (wSt0, 0) ∧
    (growLoop 0 [] 7 wSt1).2 ≤ 1 :=
  ⟨(claim_C7 [] DEFAULT_CONFIG).2.1 1 [] 5 wSt0 (by decide),
   (claim_C7 [] DEFAULT_CONFIG).2.2.1 0 [] 7 wSt1 (by decide)⟩

section StateHelpers

theorem modifyAt_length {β : Type} (l : List β) (i : Nat) (f : β → β) :
    (modifyAt l i f).length = l.length := by
  unfold modifyAt
  split
  · exact List.length_set l i _
  · rfl

theorem modifyAt_getElem_self {β : Type} (l : List β) (i : Nat) (f : β → β) :
    (modifyAt l i f)[i]? = (l[i]?).map f := by
  unfold modifyAt
  split
  · next x hx =>
    have hi : i < l.length := by
      by_contra hge
      rw [List.getElem?_eq_none (Nat.le_of_not_lt hge)] at hx
      exact Option.noConfusion hx
    rw [List.getElem?_set_self hi, hx]
    rfl
  · next hx =>
    rw [hx]
    rfl

theorem modifyAt_getElem_ne {β : Type} (l : List β) (i j : Nat) (f : β → β)
    (hij : i ≠ j) : (modifyAt l i f)[j]? = l[j]? := by
  unfold modifyAt
  split
  · exact List.getElem?_set_ne hij
  · rfl

theorem mem_modifyAt {β : Type} {l : List β} {i : Nat} {f : β → β} {x : β}
    (hx : x ∈ modifyAt l i f) : x ∈ l ∨ ∃ y ∈ l, x = f y := by
  unfold modifyAt at hx
  split at hx
  · next y hy =>
    rcases List.mem_or_eq_of_mem_set hx with h1 | rfl
    · exact Or.inl h1
    · have hi : i < l.length := by
        by_contra hge
        rw [List.getElem?_eq_none (Nat.le_of_not_lt hge)] at hy
        exact Option.noConfusion hy
      have h2 := List.getElem?_eq_getElem hi
      rw [hy] at h2
      exact Or.inr ⟨y, (Option.some.inj h2) ▸ List.getElem_mem hi, rfl⟩
  · exact Or.inl hx

theorem mem_frontierAdd {unclaimed valid fr : List Hex} {nb x : Hex}
    (hx : x ∈ frontierAdd unclaimed valid fr nb) : x ∈ fr ∨ x = nb := by
  unfold frontierAdd at hx
  split at hx
  · exact mem_sadd.mp hx
  · exact Or.inl hx

theorem mem_updateFrontier {t : Territory} {fr unclaimed valid : List Hex}
    {x : Hex} (hx : x ∈ updateFrontier t fr unclaimed valid) :
    (x ∈ fr ∨ ∃ y ∈ t.hexes, hexAdj y x) ∧ x ∈ unclaimed := by
  unfold updateFrontier at hx
  rw [List.mem_filter] at hx
  refine ⟨?_, by simpa using hx.2⟩
  have inner : ∀ (nbs : List Hex) (a0 : List Hex),
      x ∈ nbs.foldl (frontierAdd unclaimed valid) a0 → x ∈ a0 ∨ x ∈ nbs := by
    intro nbs
    induction nbs with
    | nil => intro a0 h0; exact Or.inl h0
    | cons nb ntl ih2 =>
      intro a0 h0
      rcases ih2 _ h0 with h2 | h2
      · rcases mem_frontierAdd h2 with h3 | rfl
        · exact Or.inl h3
        · exact Or.inr (by simp)
      · exact Or.inr (by simp [h2])
  have main : ∀ (l : List Hex) (acc : List Hex),
      x ∈ l.foldl
        (fun fr2 h => (hexNeighbors h).foldl (frontierAdd unclaimed valid) fr2)
        acc →
      x ∈ acc ∨ ∃ y ∈ l, hexAdj y x := by
    intro l
    induction l with
    | nil => intro acc h; exact Or.inl h
    | cons h rest ih =>
      intro acc hmem
      rcases ih _ hmem with h1 | ⟨y, hy, hadj⟩
      · rcases inner (hexNeighbors h) acc h1 with h2 | h2
        · exact Or.inl h2
        · exact Or.inr ⟨h, by simp, h2⟩
      · exact Or.inr ⟨y, by simp [hy], hadj⟩
  exact main t.hexes fr hx.1

theorem edgeConnected_sadd_adj {s : List Hex} {c : Hex}
    (hconn : EdgeConnected s) (hadj : ∃ y ∈ s, hexAdj y c) :
    EdgeConnected (sadd s c) := by
  rcases hadj with ⟨y, hy, hyc⟩
  intro a ha b hb
  have hsub : ∀ x ∈ s, x ∈ sadd s c := fun x hx => mem_sadd.mpr (Or.inl hx)
  have hc : c ∈ sadd s c := mem_sadd.mpr (Or.inr rfl)
  have reach_c : ∀ z ∈ s, ReachIn (sadd s c) z c := by
    intro z hz
    exact ReachIn.step z y c ((hconn z hz y hy).mono hsub) hc hyc
  rcases mem_sadd.mp ha with ha2 | rfl
  · rcases mem_sadd.mp hb with hb2 | rfl
    · exact (hconn a ha2 b hb2).mono hsub
    · exact reach_c a ha2
  · rcases mem_sadd.mp hb with hb2 | rfl
    · exact (reach_c b hb2).symm
    · exact ReachIn.refl _ hc

theorem edgeConnected_singleton (h : Hex) : EdgeConnected [h] := by
  intro a ha b hb
  have ha2 : a = h := by simpa using ha
  have hb2 : b = h := by simpa using hb
  rw [ha2, hb2]
  exact ReachIn.refl _ (by simp)

theorem edgeConnected_nil : EdgeConnected [] := by
  intro a ha
  cases ha

end StateHelpers

section GrowthInvariant

theorem mem_of_getElem?_some {β : Type} {l : List β} {i : Nat} {x : β}
    (h : l[i]? = some x) : x ∈ l := by
  rcases List.getElem?_eq_some_iff.mp h with ⟨hlt, heq⟩
  exact heq ▸ List.getElem_mem hlt

theorem randBelow_lt {g : RandS} {n : Nat} (h : 0 < n) : (randBelow g n).1 < n := by
  unfold randBelow
  simp only
  rw [if_neg (by omega)]
  exact Nat.mod_lt _ h

theorem getD_mem_of_lt {l : List Hex} {i : Nat} (h : i < l.length) (d : Hex) :
    l.getD i d ∈ l := by
  rw [List.getD_eq_getElem?_getD, List.getElem?_eq_getElem h]
  exact List.getElem_mem h

/-- Invariant of the growth phase: territories sit inside the valid
(non-blocked) hex set, are pairwise disjoint and edge-connected, their ids
equal their positions, they never overlap the unclaimed pool, the pool and
the territories cover the valid set, and every frontier hex is adjacent to
its own territory. -/
structure GrowInv (V : List Hex) (st : GenState) : Prop where
  hexesSub : ∀ t ∈ st.territories, ∀ h ∈ t.hexes, h ∈ V
  disjTT : ∀ (i j : Nat) (ti tj : Territory), i ≠ j →
    st.territories[i]? = some ti → st.territories[j]? = some tj →
    ∀ h ∈ ti.hexes, h ∉ tj.hexes
  disjTU : ∀ t ∈ st.territories, ∀ h ∈ t.hexes, h ∉ st.unclaimed
  unclSub : ∀ h ∈ st.unclaimed, h ∈ V
  unclNodup : st.unclaimed.Nodup
  cover : ∀ h ∈ V, h ∈ st.unclaimed ∨
    ∃ (k : Nat) (tk : Territory), st.territories[k]? = some tk ∧ h ∈ tk.hexes
  conn : ∀ t ∈ st.territories, EdgeConnected t.hexes
  front : ∀ (i : Nat) (f : List Hex), st.frontiers[i]? = some f → ∀ x ∈ f,
    ∃ t : Territory, st.territories[i]? = some t ∧ ∃ y ∈ t.hexes, hexAdj y x
  ids : ∀ (i : Nat) (t : Territory), st.territories[i]? = some t → t.id = i

theorem growStep_inv (maxSize : Nat) (V : List Hex) (st : GenState) (i : Nat)
    (hinv : GrowInv V st) : GrowInv V (growStep maxSize V st i) := by
  unfold growStep
  split
  · next t f ht hf =>
    split
    · exact hinv
    · next hflen =>
      split
      · exact hinv
      · next hflen2 =>
        simp only
        split
        · next hnu =>
          refine ⟨hinv.hexesSub, hinv.disjTT, hinv.disjTU, hinv.unclSub,
            hinv.unclNodup, hinv.cover, hinv.conn, ?_, hinv.ids⟩
          intro j fj hfj x hx
          replace hfj : (st.frontiers.set i (sdel f
            (f.getD (randBelow st.rng f.length).1 ⟨0, 0⟩)))[j]? = some fj := hfj
          rcases eq_or_ne j i with rfl | hji
          · have hlt : j < st.frontiers.length := by
              by_contra hge
              rw [List.getElem?_eq_none (Nat.le_of_not_lt hge)] at hf
              exact Option.noConfusion hf
            rw [List.getElem?_set_self hlt] at hfj
            have hfj2 := Option.some.inj hfj
            subst hfj2
            exact hinv.front j f hf x (sdel_subset x hx)
          · rw [List.getElem?_set_ne (Ne.symm hji)] at hfj
            exact hinv.front j fj hfj x hx
        · next hnu2 =>
          have hchu : (f.getD (randBelow st.rng f.length).1 ⟨0, 0⟩) ∈
              st.unclaimed := not_not.mp hnu2
          have hplt : (randBelow st.rng f.length).1 < f.length :=
            randBelow_lt (by omega)
          have hchf : (f.getD (randBelow st.rng f.length).1 ⟨0, 0⟩) ∈ f :=
            getD_mem_of_lt hplt _
          set chosen := f.getD (randBelow st.rng f.length).1 ⟨0, 0⟩ with hch
          have htmem : t ∈ st.territories := mem_of_getElem?_some ht
          have htlt : i < st.territories.length := by
            by_contra hge
            rw [List.getElem?_eq_none (Nat.le_of_not_lt hge)] at ht
            exact Option.noConfusion ht
          have hadjacent : ∃ y ∈ t.hexes, hexAdj y chosen := by
            rcases hinv.front i f hf chosen hchf with ⟨t2, ht2, hy⟩
            rw [ht] at ht2
            exact (Option.some.inj ht2) ▸ hy
          set t2 := addHexToTerritory t chosen with ht2def
          have ht2hex : t2.hexes = sadd t.hexes chosen := rfl
          have hsetl : (st.territories.set i t2)[i]? = some t2 :=
            List.getElem?_set_self htlt
          refine ⟨?_, ?_, ?_, ?_, ?_, ?_, ?_, ?_, ?_⟩
          · intro t3 ht3 h hh
            rcases List.mem_or_eq_of_mem_set ht3 with h1 | rfl
            · exact hinv.hexesSub t3 h1 h hh
            · rw [ht2hex] at hh
              rcases mem_sadd.mp hh with h2 | rfl
              · exact hinv.hexesSub t htmem h h2
              · exact hinv.unclSub _ hchu
          · intro a b ta tb hab hta htb h hh
            replace hta : (st.territories.set i t2)[a]? = some ta := hta
            replace htb : (st.territories.set i t2)[b]? = some tb := htb
            rcases eq_or_ne a i with rfl | ha2
            · rw [hsetl] at hta
              have := Option.some.inj hta
              subst this
              rw [List.getElem?_set_ne hab] at htb
              rw [ht2hex] at hh
              rcases mem_sadd.mp hh with h2 | rfl
              · exact hinv.disjTT a b t tb hab ht htb h h2
              · intro hcontra
                exact hinv.disjTU tb (mem_of_getElem?_some htb) _ hcontra hchu
            · rw [List.getElem?_set_ne (Ne.symm ha2)] at hta
              rcases eq_or_ne b i with rfl | hb2
              · rw [hsetl] at htb
                have := Option.some.inj htb
                subst this
                rw [ht2hex]
                intro hcontra
                rcases mem_sadd.mp hcontra with h2 | h2
                · exact hinv.disjTT a b ta t hab hta ht h hh h2
                · exact hinv.disjTU ta (mem_of_getElem?_some hta) h hh
                    (h2 ▸ hchu)
              · rw [List.getElem?_set_ne (Ne.symm hb2)] at htb
                exact hinv.disjTT a b ta tb hab hta htb h hh
          · intro t3 ht3 h hh
            rcases List.mem_or_eq_of_mem_set ht3 with h1 | rfl
            · intro hcontra
              exact hinv.disjTU t3 h1 h hh (sdel_subset h hcontra)
            · rw [ht2hex] at hh
              rcases mem_sadd.mp hh with h2 | rfl
              · intro hcontra
                exact hinv.disjTU t htmem h h2 (sdel_subset h hcontra)
              · intro hcontra
                exact (mem_sdel.mp hcontra).2 rfl
          · intro h hh
            exact hinv.unclSub h (sdel_subset h hh)
          · exact nodup_sdel hinv.unclNodup chosen
          · intro h hV
            rcases hinv.cover h hV with h1 | ⟨k, tk, hk, hhk⟩
            · rcases eq_or_ne h chosen with rfl | hne
              · exact Or.inr ⟨i, t2, hsetl,
                  (by rw [ht2hex]; exact mem_sadd.mpr (Or.inr rfl))⟩
              · exact Or.inl (mem_sdel.mpr ⟨h1, hne⟩)
            · rcases eq_or_ne k i with rfl | hk2
              · rw [ht] at hk
                have := Option.some.inj hk
                subst this
                exact Or.inr ⟨k, t2, hsetl,
                  (by rw [ht2hex]; exact mem_sadd.mpr (Or.inl hhk))⟩
              · exact Or.inr ⟨k, tk,
                  (by rw [List.getElem?_set_ne (Ne.symm hk2)]; exact hk), hhk⟩
          · intro t3 ht3
            rcases List.mem_or_eq_of_mem_set ht3 with h1 | rfl
            · exact hinv.conn t3 h1
            · rw [ht2hex]
              exact edgeConnected_sadd_adj (hinv.conn t htmem) hadjacent
          · intro j fj hfj x hx
            replace hfj : (st.frontiers.set i (updateFrontier t2 (sdel f chosen)
              (sdel st.unclaimed chosen) V))[j]? = some fj := hfj
            rcases eq_or_ne j i with rfl | hji
            · have hflt : j < st.frontiers.length := by
                by_contra hge
                rw [List.getElem?_eq_none (Nat.le_of_not_lt hge)] at hf
                exact Option.noConfusion hf
              rw [List.getElem?_set_self hflt] at hfj
              have := Option.some.inj hfj
              subst this
              rcases mem_updateFrontier hx with ⟨h1 | ⟨y, hy, hadj⟩, _⟩
              · have hxf : x ∈ f := sdel_subset x h1
                rcases hinv.front j f hf x hxf with ⟨t4, ht4, y, hy, hadj⟩
                rw [ht] at ht4
                have := Option.some.inj ht4
                subst this
                exact ⟨t2, hsetl, y,
                  (by rw [ht2hex]; exact mem_sadd.mpr (Or.inl hy)), hadj⟩
              · exact ⟨t2, hsetl, y, hy, hadj⟩
            · rw [List.getElem?_set_ne (Ne.symm hji)] at hfj
              rcases hinv.front j fj hfj x hx with ⟨t4, ht4, hrest⟩
              exact ⟨t4,
                (by rw [List.getElem?_set_ne (Ne.symm hji)]; exact ht4), hrest⟩
          · intro j t3 ht3
            replace ht3 : (st.territories.set i t2)[j]? = some t3 := ht3
            rcases eq_or_ne j i with rfl | hji
            · rw [hsetl] at ht3
              have := Option.some.inj ht3
              subst this
              have : t2.id = t.id := rfl
              rw [this]
              exact hinv.ids j t ht
            · rw [List.getElem?_set_ne (Ne.symm hji)] at ht3
              exact hinv.ids j t3 ht3
  · exact hinv

end GrowthInvariant

section GrowthPreservation

theorem growInv_rng {V : List Hex} {st : GenState} (h : GrowInv V st)
    (g : RandS) : GrowInv V { st with rng := g } :=
  ⟨h.hexesSub, h.disjTT, h.disjTU, h.unclSub, h.unclNodup, h.cover, h.conn,
    h.front, h.ids⟩

theorem growRound_inv (maxSize : Nat) (V : List Hex) (st : GenState)
    (hinv : GrowInv V st) : GrowInv V (growRound maxSize V st) := by
  rw [growRound_eq]
  have main : ∀ (l : List Nat) (s : GenState), GrowInv V s →
      GrowInv V (List.foldl (growStep maxSize V) s l) := by
    intro l
    induction l with
    | nil => intro s hs; exact hs
    | cons i rest ih =>
      intro s hs
      rw [List.foldl_cons]
      exact ih _ (growStep_inv maxSize V s i hs)
  exact main _ _ (growInv_rng hinv _)

theorem growLoop_inv (maxSize : Nat) (V : List Hex) :
    ∀ (fuel : Nat) (st : GenState), GrowInv V st →
      GrowInv V (growLoop maxSize V fuel st).1 := by
  intro fuel
  induction fuel with
  | zero => intro st h; exact h
  | succ k ih =>
    intro st h
    rw [growLoop_succ]
    split
    · exact h
    · split
      · exact growRound_inv maxSize V st h
      · exact ih _ (growRound_inv maxSize V st h)

/-- Size cap: every territory holds at most `maxSize` hexes. -/
def SizeInv (maxSize : Nat) (ts : List Territory) : Prop :=
  ∀ t ∈ ts, t.hexes.length ≤ maxSize

theorem growStep_size (maxSize : Nat) (V : List Hex) (st : GenState) (i : Nat)
    (hs : SizeInv maxSize st.territories) :
    SizeInv maxSize (growStep maxSize V st i).territories := by
  unfold growStep
  split
  · next t f ht hf =>
    split
    · exact hs
    · next hmax =>
      split
      · exact hs
      · simp only
        split
        · exact hs
        · intro t3 ht3
          rcases List.mem_or_eq_of_mem_set ht3 with h1 | rfl
          · exact hs t3 h1
          · show (sadd t.hexes _).length ≤ maxSize
            have := length_sadd_le (s := t.hexes)
              (a := f.getD (randBelow st.rng f.length).1 ⟨0, 0⟩)
            omega
  · exact hs

theorem growRound_size (maxSize : Nat) (V : List Hex) (st : GenState)
    (hs : SizeInv maxSize st.territories) :
    SizeInv maxSize (growRound maxSize V st).territories := by
  rw [growRound_eq]
  have main : ∀ (l : List Nat) (s : GenState), SizeInv maxSize s.territories →
      SizeInv maxSize (List.foldl (growStep maxSize V) s l).territories := by
    intro l
    induction l with
    | nil => intro s h; exact h
    | cons i rest ih =>
      intro s h
      rw [List.foldl_cons]
      exact ih _ (growStep_size maxSize V s i h)
  exact main _ _ hs

theorem growLoop_size (maxSize : Nat) (V : List Hex) :
    ∀ (fuel : Nat) (st : GenState), SizeInv maxSize st.territories →
      SizeInv maxSize (growLoop maxSize V fuel st).1.territories := by
  intro fuel
  induction fuel with
  | zero => intro st h; exact h
  | succ k ih =>
    intro st h
    rw [growLoop_succ]
    split
    · exact h
    · split
      · exact growRound_size maxSize V st h
      · exact ih _ (growRound_size maxSize V st h)

end GrowthPreservation

section SeedLemmas

theorem foldl_keep_or_append {β : Type} [DecidableEq β]
    (f : List β → β → List β)
    (hf : ∀ (s : List β) (h : β), f s h = s ∨ f s h = s ++ [h]) :
    ∀ (l : List β) (acc : List β),
      ∃ sub, sub.Sublist l ∧ l.foldl f acc = acc ++ sub := by
  intro l
  induction l with
  | nil => intro acc; exact ⟨[], List.Sublist.refl [], by simp⟩
  | cons h tl ih =>
    intro acc
    rcases hf acc h with heq | heq
    · rcases ih (f acc h) with ⟨sub, hsub, hres⟩
      exact ⟨sub, hsub.cons h, by rw [List.foldl_cons, hres, heq]⟩
    · rcases ih (f acc h) with ⟨sub, hsub, hres⟩
      refine ⟨h :: sub, hsub.cons₂ h, ?_⟩
      rw [List.foldl_cons, hres, heq]
      simp

theorem foldl_bounded_length {β : Type} (f : List β → β → List β) (count : Nat)
    (hf : ∀ (s : List β) (h : β), f s h = s ∨
      (s.length < count ∧ f s h = s ++ [h])) :
    ∀ (l : List β) (acc : List β), acc.length ≤ count →
      (l.foldl f acc).length ≤ count := by
  intro l
  induction l with
  | nil => intro acc h; exact h
  | cons h tl ih =>
    intro acc hacc
    rw [List.foldl_cons]
    apply ih
    rcases hf acc h with heq | ⟨hlt, heq⟩
    · rw [heq]; exact hacc
    · rw [heq]; simp; omega

theorem foldl_guarded_nodup {β : Type} [DecidableEq β]
    (f : List β → β → List β)
    (hf : ∀ (s : List β) (h : β), f s h = s ∨ (h ∉ s ∧ f s h = s ++ [h])) :
    ∀ (l : List β) (acc : List β), acc.Nodup → (l.foldl f acc).Nodup := by
  intro l
  induction l with
  | nil => intro acc h; exact h
  | cons h tl ih =>
    intro acc hacc
    rw [List.foldl_cons]
    apply ih
    rcases hf acc h with heq | ⟨hnm, heq⟩
    · rw [heq]; exact hacc
    · rw [heq]
      simpa [List.nodup_append] using ⟨hacc, hnm⟩

theorem pass1_step_shape (count : Nat) (minSpacing : Nat) :
    ∀ (seeds : List Hex) (h : Hex),
      (if count ≤ seeds.length then seeds
       else if seeds.any fun s =>
           decide ((h.q - s.q).natAbs + (h.r - s.r).natAbs < minSpacing * 2) then
         seeds
       else seeds ++ [h]) = seeds ∨
      (seeds.length < count ∧
        (if count ≤ seeds.length then seeds
         else if seeds.any fun s =>
             decide ((h.q - s.q).natAbs + (h.r - s.r).natAbs < minSpacing * 2) then
           seeds
         else seeds ++ [h]) = seeds ++ [h]) := by
  intro seeds h
  by_cases h1 : count ≤ seeds.length
  · rw [if_pos h1]; exact Or.inl rfl
  · rw [if_neg h1]
    by_cases h2 : seeds.any fun s =>
        decide ((h.q - s.q).natAbs + (h.r - s.r).natAbs < minSpacing * 2)
    · rw [if_pos h2]; exact Or.inl rfl
    · rw [if_neg h2]
      exact Or.inr ⟨by omega, rfl⟩

theorem pass2_step_shape (count : Nat) :
    ∀ (seeds : List Hex) (h : Hex),
      (if count ≤ seeds.length then seeds
       else if h ∈ seeds then seeds
       else seeds ++ [h]) = seeds ∨
      (h ∉ seeds ∧ seeds.length < count ∧
        (if count ≤ seeds.length then seeds
         else if h ∈ seeds then seeds
         else seeds ++ [h]) = seeds ++ [h]) := by
  intro seeds h
  by_cases h1 : count ≤ seeds.length
  · rw [if_pos h1]; exact Or.inl rfl
  · rw [if_neg h1]
    by_cases h2 : h ∈ seeds
    · rw [if_pos h2]; exact Or.inl rfl
    · rw [if_neg h2]
      exact Or.inr ⟨h2, by omega, rfl⟩

theorem placeSeedPoints_spec (g : RandS) (hexes : List Hex) (count : Nat)
    (hnd : hexes.Nodup) :
    (∀ x ∈ (placeSeedPoints g hexes count).1, x ∈ hexes) ∧
    (placeSeedPoints g hexes count).1.Nodup ∧
    (placeSeedPoints g hexes count).1.length ≤ count := by
  unfold placeSeedPoints
  simp only
  have hshufnd : (shuffleArray g hexes).1.Nodup := shuffleArray_nodup g hnd
  rcases foldl_keep_or_append _ (fun s h => by
      rcases pass1_step_shape count 2 s h with h1 | h1
      · exact Or.inl h1
      · exact Or.inr h1.2) (shuffleArray g hexes).1 [] with ⟨sub1, hsub1, hres1⟩
  rw [List.nil_append] at hres1
  have hp1nd : ((shuffleArray g hexes).1.foldl
      (fun seeds h =>
        if count ≤ seeds.length then seeds
        else if seeds.any fun s =>
            decide ((h.q - s.q).natAbs + (h.r - s.r).natAbs < 2 * 2) then
          seeds
        else seeds ++ [h]) []).Nodup := by
    rw [hres1]
    exact hsub1.nodup hshufnd
  have hp1len : ((shuffleArray g hexes).1.foldl
      (fun seeds h =>
        if count ≤ seeds.length then seeds
        else if seeds.any fun s =>
            decide ((h.q - s.q).natAbs + (h.r - s.r).natAbs < 2 * 2) then
          seeds
        else seeds ++ [h]) []).length ≤ count :=
    foldl_bounded_length _ count (pass1_step_shape count 2) _ [] (by simp)
  have hp1sub : ∀ x ∈ ((shuffleArray g hexes).1.foldl
      (fun seeds h =>
        if count ≤ seeds.length then seeds
        else if seeds.any fun s =>
            decide ((h.q - s.q).natAbs + (h.r - s.r).natAbs < 2 * 2) then
          seeds
        else seeds ++ [h]) []), x ∈ hexes := by
    intro x hx
    rw [hres1] at hx
    exact (shuffleArray_mem g hexes).mp (hsub1.subset hx)
  split
  · next hlen =>
    rcases foldl_keep_or_append _ (fun s h => by
        rcases pass2_step_shape count s h with h1 | h1
        · exact Or.inl h1
        · exact Or.inr h1.2.2) (shuffleArray g hexes).1 _ with ⟨sub2, hsub2, hres2⟩
    rw [hres2]
    refine ⟨?_, ?_, ?_⟩
    · intro x hx
      rcases List.mem_append.mp hx with h1 | h1
      · exact hp1sub x h1
      · exact (shuffleArray_mem g hexes).mp (hsub2.subset h1)
    · have := foldl_guarded_nodup _ (fun s h => by
          rcases pass2_step_shape count s h with h1 | h1
          · exact Or.inl h1
          · exact Or.inr ⟨h1.1, h1.2.2⟩) (shuffleArray g hexes).1 _ hp1nd
      rw [hres2] at this
      exact this
    · have := foldl_bounded_length _ count (fun s h => by
          rcases pass2_step_shape count s h with h1 | h1
          · exact Or.inl h1
          · exact Or.inr ⟨h1.2.1, h1.2.2⟩) (shuffleArray g hexes).1 _
          (Nat.le_of_lt hlen)
      rw [hres2] at this
      exact this
  · exact ⟨hp1sub, hp1nd, hp1len⟩

end SeedLemmas

section SeedFold

theorem seedFold_snd (sd : List Hex) :
    ∀ (n : Nat) (ts0 : List Territory) (u0 : List Hex),
      ((List.enumFrom n sd).foldl seedStep (ts0, u0)).2 = sd.foldl sdel u0 := by
  induction sd with
  | nil => intro n ts0 u0; rfl
  | cons s tl ih =>
    intro n ts0 u0
    show ((List.enumFrom (n + 1) tl).foldl seedStep
      (modifyAt ts0 n (fun t => addHexToTerritory t s), sdel u0 s)).2 = _
    rw [ih (n + 1)]
    rfl

theorem mem_foldl_sdel {u0 : List Hex} {sd : List Hex} {x : Hex} :
    x ∈ sd.foldl sdel u0 ↔ x ∈ u0 ∧ x ∉ sd := by
  induction sd generalizing u0 with
  | nil => simp
  | cons s tl ih =>
    rw [List.foldl_cons, ih, mem_sdel]
    constructor
    · rintro ⟨⟨h1, h2⟩, h3⟩
      exact ⟨h1, by simp [h2, h3]⟩
    · rintro ⟨h1, h2⟩
      simp only [List.mem_cons, not_or] at h2
      exact ⟨⟨h1, h2.1⟩, h2.2⟩

theorem nodup_foldl_sdel {u0 : List Hex} {sd : List Hex} (h : u0.Nodup) :
    (sd.foldl sdel u0).Nodup := by
  induction sd generalizing u0 with
  | nil => exact h
  | cons s tl ih => exact ih (nodup_sdel h s)

theorem seedFold_fst (sd : List Hex) :
    ∀ (n : Nat) (ts0 : List Territory) (u0 : List Hex) (i : Nat),
      ((List.enumFrom n sd).foldl seedStep (ts0, u0)).1[i]? =
        match (if n ≤ i then sd[i - n]? else none) with
        | some s => (ts0[i]?).map (fun t => addHexToTerritory t s)
        | none => ts0[i]? := by
  induction sd with
  | nil =>
    intro n ts0 u0 i
    have : (if n ≤ i then ([] : List Hex)[i - n]? else none) = none := by
      split <;> simp
    rw [this]
    rfl
  | cons s tl ih =>
    intro n ts0 u0 i
    show ((List.enumFrom (n + 1) tl).foldl seedStep
      (modifyAt ts0 n (fun t => addHexToTerritory t s), sdel u0 s)).1[i]? = _
    rw [ih (n + 1)]
    rcases Nat.lt_trichotomy i n with hlt | rfl | hgt
    · have h1 : ¬ (n + 1 ≤ i) := by omega
      have h2 : ¬ (n ≤ i) := by omega
      rw [if_neg h1, if_neg h2]
      simp only
      exact modifyAt_getElem_ne ts0 n i _ (by omega)
    · have h1 : ¬ (i + 1 ≤ i) := by omega
      rw [if_neg h1, if_pos (Nat.le_refl i)]
      simp only [Nat.sub_self]
      rw [List.getElem?_cons_zero]
      simp only
      exact modifyAt_getElem_self ts0 i _
    · have h1 : n + 1 ≤ i := by omega
      have h2 : n ≤ i := by omega
      rw [if_pos h1, if_pos h2]
      have h3 : i - n = (i - (n + 1)) + 1 := by omega
      rw [h3, List.getElem?_cons_succ]
      have h4 : (modifyAt ts0 n (fun t => addHexToTerritory t s))[i]? = ts0[i]? :=
        modifyAt_getElem_ne ts0 n i _ (by omega)
      rw [h4]

section InitInvariant

theorem mem_validHexesOf {g : RandS} {cfg : MapGeneratorConfig} {x : Hex} :
    x ∈ validHexesOf g cfg ↔
      x ∈ allHexesOf cfg ∧ x ∉ (emptyHexesOf g cfg).1 := by
  unfold validHexesOf
  rw [List.mem_filter, mem_addAll]
  simp

theorem validHexesOf_nodup (g : RandS) (cfg : MapGeneratorConfig) :
    (validHexesOf g cfg).Nodup :=
  (nodup_addAll (by simp)).filter _

theorem seedsOf_spec (g : RandS) (cfg : MapGeneratorConfig) :
    (∀ x ∈ (seedsOf g cfg).1, x ∈ validHexesOf g cfg) ∧
    (seedsOf g cfg).1.Nodup ∧ (seedsOf g cfg).1.length ≤ cfg.territoryCount := by
  have hnd : ((allHexesOf cfg).filter fun h =>
      decide (h ∉ (emptyHexesOf g cfg).1)).Nodup :=
    (generateHexGrid_nodup _ _).filter _
  have h := placeSeedPoints_spec (colorsOf g cfg).2
    ((allHexesOf cfg).filter fun h => decide (h ∉ (emptyHexesOf g cfg).1))
    cfg.territoryCount hnd
  refine ⟨?_, h.2.1, h.2.2⟩
  intro x hx
  have h2 := h.1 x hx
  rw [List.mem_filter] at h2
  exact mem_validHexesOf.mpr ⟨h2.1, by simpa using h2.2⟩

theorem territories0Of_getElem (g : RandS) (cfg : MapGeneratorConfig) (i : Nat) :
    (territories0Of g cfg)[i]? =
      if i < cfg.territoryCount then
        some (createTerritory i
          ((colorsOf g cfg).1.getD (i % (colorsOf g cfg).1.length) ""))
      else none := by
  unfold territories0Of
  rw [List.getElem?_map]
  split
  · next h => rw [List.getElem?_range h]; rfl
  · next h =>
    rw [List.getElem?_eq_none (by simpa using Nat.le_of_not_lt h)]
    rfl

theorem seededOf_fst (g : RandS) (cfg : MapGeneratorConfig) (i : Nat) :
    (seededOf g cfg).1[i]? =
      match (seedsOf g cfg).1[i]? with
      | some s => ((territories0Of g cfg)[i]?).map (fun t => addHexToTerritory t s)
      | none => (territories0Of g cfg)[i]? := by
  unfold seededOf
  rw [List.enum_eq_enumFrom, seedFold_fst]
  have h0 : (0 : Nat) ≤ i := Nat.zero_le i
  rw [if_pos h0]
  have h1 : i - 0 = i := by omega
  rw [h1]

theorem seededOf_snd_mem (g : RandS) (cfg : MapGeneratorConfig) (x : Hex) :
    x ∈ (seededOf g cfg).2 ↔
      x ∈ validHexesOf g cfg ∧ x ∉ (seedsOf g cfg).1 := by
  unfold seededOf
  rw [List.enum_eq_enumFrom, seedFold_snd, mem_foldl_sdel]

theorem seededOf_char (g : RandS) (cfg : MapGeneratorConfig) :
    ∀ (i : Nat) (t : Territory), (seededOf g cfg).1[i]? = some t →
      t.id = i ∧
      ((t.hexes = [] ∧ (seedsOf g cfg).1[i]? = none) ∨
        ∃ s, (seedsOf g cfg).1[i]? = some s ∧ t.hexes = [s]) := by
  intro i t ht
  rw [seededOf_fst] at ht
  cases hs : (seedsOf g cfg).1[i]? with
  | none =>
    rw [hs] at ht
    simp only at ht
    rw [territories0Of_getElem] at ht
    split at ht
    · have := Option.some.inj ht
      subst this
      exact ⟨rfl, Or.inl ⟨rfl, rfl⟩⟩
    · exact Option.noConfusion ht
  | some s =>
    rw [hs] at ht
    simp only at ht
    rw [territories0Of_getElem] at ht
    split at ht
    · simp only [Option.map_some'] at ht
      have := Option.some.inj ht
      subst this
      refine ⟨rfl, Or.inr ⟨s, rfl, ?_⟩⟩
      show sadd [] s = [s]
      rfl
    · simp only [Option.map_none'] at ht
      exact Option.noConfusion ht

theorem initContext_inv (g : RandS) (cfg : MapGeneratorConfig) :
    GrowInv (validHexesOf g cfg) (initContext g cfg).state := by
  have hsd := seedsOf_spec g cfg
  have hchar := seededOf_char g cfg
  refine ⟨?_, ?_, ?_, ?_, ?_, ?_, ?_, ?_, ?_⟩
  · intro t ht h hh
    rcases List.mem_iff_getElem?.mp ht with ⟨i, hi⟩
    rcases (hchar i t hi).2 with ⟨hnil, _⟩ | ⟨s, hs, hhex⟩
    · rw [hnil] at hh; cases hh
    · rw [hhex] at hh
      have : h = s := by simpa using hh
      subst this
      exact hsd.1 h (mem_of_getElem?_some hs)
  · intro a b ta tb hab hta htb h hh
    rcases (hchar a ta hta).2 with ⟨hnil, _⟩ | ⟨s, hs, hhex⟩
    · rw [hnil] at hh; cases hh
    · rw [hhex] at hh
      have hhs : h = s := by simpa using hh
      subst hhs
      rcases (hchar b tb htb).2 with ⟨hnil2, _⟩ | ⟨s2, hs2, hhex2⟩
      · rw [hnil2]; simp
      · rw [hhex2]
        intro hcontra
        have : h = s2 := by simpa using hcontra
        subst this
        have hlt : a < (seedsOf g cfg).1.length := by
          by_contra hge
          rw [List.getElem?_eq_none (Nat.le_of_not_lt hge)] at hs
          exact Option.noConfusion hs
        exact hab (List.getElem?_inj hlt hsd.2.1 (hs.trans hs2.symm))
  · intro t ht h hh
    rcases List.mem_iff_getElem?.mp ht with ⟨i, hi⟩
    rcases (hchar i t hi).2 with ⟨hnil, _⟩ | ⟨s, hs, hhex⟩
    · rw [hnil] at hh; cases hh
    · rw [hhex] at hh
      have : h = s := by simpa using hh
      subst this
      intro hcontra
      exact ((seededOf_snd_mem g cfg h).mp hcontra).2 (mem_of_getElem?_some hs)
  · intro h hh
    exact ((seededOf_snd_mem g cfg h).mp hh).1
  · show ((seedsOf g cfg).1.enum.foldl seedStep
      (territories0Of g cfg, validHexesOf g cfg)).2.Nodup
    rw [List.enum_eq_enumFrom, seedFold_snd]
    exact nodup_foldl_sdel (validHexesOf_nodup g cfg)
  · intro h hV
    by_cases hmem : h ∈ (seedsOf g cfg).1
    · rcases List.mem_iff_getElem?.mp hmem with ⟨k, hk⟩
      have hklt : k < (seedsOf g cfg).1.length := by
        by_contra hge
        rw [List.getElem?_eq_none (Nat.le_of_not_lt hge)] at hk
        exact Option.noConfusion hk
      have hkc : k < cfg.territoryCount := Nat.lt_of_lt_of_le hklt hsd.2.2
      refine Or.inr ⟨k, ?_, ?_, ?_⟩
      · exact addHexToTerritory (createTerritory k
          ((colorsOf g cfg).1.getD (k % (colorsOf g cfg).1.length) "")) h
      · show (seededOf g cfg).1[k]? = _
        rw [seededOf_fst, hk]
        simp only
        rw [territories0Of_getElem, if_pos hkc]
        rfl
      · show h ∈ sadd [] h
        rw [mem_sadd]
        exact Or.inr rfl
    · exact Or.inl ((seededOf_snd_mem g cfg h).mpr ⟨hV, hmem⟩)
  · intro t ht
    rcases List.mem_iff_getElem?.mp ht with ⟨i, hi⟩
    rcases (hchar i t hi).2 with ⟨hnil, _⟩ | ⟨s, hs, hhex⟩
    · rw [hnil]; exact edgeConnected_nil
    · rw [hhex]; exact edgeConnected_singleton s
  · intro i f hf x hx
    replace hf : (frontiers0Of g cfg)[i]? = some f := hf
    unfold frontiers0Of at hf
    rw [List.getElem?_map] at hf
    by_cases hlt : i < (seededOf g cfg).1.length
    · rw [List.getElem?_range hlt] at hf
      simp only [Option.map_some'] at hf
      cases hti : (seededOf g cfg).1[i]? with
      | none =>
        rw [List.getElem?_eq_getElem hlt] at hti
        exact Option.noConfusion hti
      | some t =>
        rw [hti] at hf
        have hf2 := Option.some.inj hf
        subst hf2
        rcases mem_updateFrontier hx with ⟨h1 | ⟨y, hy, hadj⟩, _⟩
        · cases h1
        · exact ⟨t, hti, y, hy, hadj⟩
    · rw [List.getElem?_eq_none (by simpa using Nat.le_of_not_lt hlt)] at hf
      exact Option.noConfusion hf
  · intro i t ht
    exact (hchar i t ht).1

end InitInvariant

section ResolverInvariant

theorem mem_buildHexToIdx {ts : List Territory} {k : Hex} {i : Nat}
    (h : (k, i) ∈ buildHexToIdx ts) :
    ∃ t, ts[i]? = some t ∧ k ∈ t.hexes := by
  unfold buildHexToIdx at h
  have main : ∀ (l : List (Nat × Territory)) (m0 : List (Hex × Nat)),
      (k, i) ∈ l.foldl
        (fun m p => p.2.hexes.foldl (fun m2 h2 => (h2, p.1) :: m2) m) m0 →
      (k, i) ∈ m0 ∨ ∃ p ∈ l, p.1 = i ∧ k ∈ p.2.hexes := by
    intro l
    induction l with
    | nil => intro m0 h0; exact Or.inl h0
    | cons p rest ih =>
      intro m0 h0
      rcases ih _ h0 with h1 | ⟨u, hu, hui, hku⟩
      · have inner : ∀ (hx : List Hex) (m1 : List (Hex × Nat)),
            (k, i) ∈ hx.foldl (fun m2 h2 => (h2, p.1) :: m2) m1 →
            (k, i) ∈ m1 ∨ (k ∈ hx ∧ p.1 = i) := by
          intro hx
          induction hx with
          | nil => intro m1 hm; exact Or.inl hm
          | cons h2 tl ih2 =>
            intro m1 hm
            rcases ih2 _ hm with h3 | h3
            · rcases List.mem_cons.mp h3 with h4 | h4
              · have hk2 : k = h2 ∧ i = p.1 :=
                  ⟨congrArg Prod.fst h4, congrArg Prod.snd h4⟩
                exact Or.inr ⟨by simp [hk2.1], hk2.2.symm⟩
              · exact Or.inl h4
            · exact Or.inr ⟨by simp [h3.1], h3.2⟩
        rcases inner p.2.hexes m0 h1 with h2 | ⟨h2, hpi⟩
        · exact Or.inl h2
        · exact Or.inr ⟨p, List.mem_cons_self p rest, hpi, h2⟩
      · exact Or.inr ⟨u, List.mem_cons_of_mem p hu, hui, hku⟩
  rcases main ts.enum [] h with h1 | ⟨u, hu, hui, hku⟩
  · cases h1
  · have := List.mem_enum_iff_getElem?.mp hu
    rw [hui] at this
    exact ⟨u.2, this, hku⟩

theorem mfind_buildHexToIdx_sound {ts : List Territory} {k : Hex} {i : Nat}
    (h : mfind (buildHexToIdx ts) k = some i) :
    ∃ t, ts[i]? = some t ∧ k ∈ t.hexes :=
  mem_buildHexToIdx (mfind_mem h)

/-- Invariant of the unclaimed-hex resolver: the map points at territories
that own the hex, territories sit inside the valid set `V`, are pairwise
disjoint, edge-connected, id-numbered by position, disjoint from the
blocked set; the not-yet-processed unclaimed hexes `rem` are fresh,
duplicate-free, valid; blocked hexes are grid hexes (`A`); every valid hex
is pending, blocked, or owned. -/
structure ResolveInv (A V : List Hex) (st : AssignState) (rem : List Hex) :
    Prop where
  mapSound : ∀ (x : Hex) (i : Nat), mfind st.hexToTerritory x = some i →
    ∃ t : Territory, st.territories[i]? = some t ∧ x ∈ t.hexes
  hexesSub : ∀ t ∈ st.territories, ∀ h ∈ t.hexes, h ∈ V
  disjTT : ∀ (i j : Nat) (ti tj : Territory), i ≠ j →
    st.territories[i]? = some ti → st.territories[j]? = some tj →
    ∀ h ∈ ti.hexes, h ∉ tj.hexes
  disjTE : ∀ t ∈ st.territories, ∀ h ∈ t.hexes, h ∉ st.emptyHexes
  remT : ∀ h ∈ rem, ∀ t ∈ st.territories, h ∉ t.hexes
  remE : ∀ h ∈ rem, h ∉ st.emptyHexes
  remNodup : rem.Nodup
  remSub : ∀ h ∈ rem, h ∈ V
  emptySub : ∀ h ∈ st.emptyHexes, h ∈ A
  subVA : ∀ h ∈ V, h ∈ A
  cover : ∀ h ∈ V, h ∈ rem ∨ h ∈ st.emptyHexes ∨
    ∃ (k : Nat) (tk : Territory), st.territories[k]? = some tk ∧ h ∈ tk.hexes
  conn : ∀ t ∈ st.territories, EdgeConnected t.hexes
  ids : ∀ (i : Nat) (t : Territory), st.territories[i]? = some t → t.id = i

theorem assignOne_inv (maxSize : Nat) (A V : List Hex) (st : AssignState)
    (h : Hex) (rem : List Hex) (hinv : ResolveInv A V st (h :: rem)) :
    ResolveInv A V (assignOne maxSize st h) rem := by
  have hnd := List.nodup_cons.mp hinv.remNodup
  have hmemh : h ∈ h :: rem := List.mem_cons_self h rem
  unfold assignOne
  cases hE : eligibleTerritories st.territories st.hexToTerritory maxSize h with
  | nil =>
    refine ⟨hinv.mapSound, hinv.hexesSub, hinv.disjTT, ?_, ?_, ?_, hnd.2,
      fun x hx => hinv.remSub x (List.mem_cons_of_mem h hx), ?_, hinv.subVA,
      ?_, hinv.conn, hinv.ids⟩
    · intro t ht x hx hcontra
      rcases mem_sadd.mp hcontra with h1 | rfl
      · exact hinv.disjTE t ht x hx h1
      · exact hinv.remT x hmemh t ht hx
    · intro x hx t ht
      exact hinv.remT x (List.mem_cons_of_mem h hx) t ht
    · intro x hx hcontra
      rcases mem_sadd.mp hcontra with h1 | rfl
      · exact hinv.remE x (List.mem_cons_of_mem h hx) h1
      · exact hnd.1 hx
    · intro x hx
      rcases mem_sadd.mp hx with h1 | rfl
      · exact hinv.emptySub x h1
      · exact hinv.subVA x (hinv.remSub x hmemh)
    · intro x hV
      rcases hinv.cover x hV with h1 | h2 | h3
      · rcases List.mem_cons.mp h1 with rfl | h4
        · exact Or.inr (Or.inl (mem_sadd.mpr (Or.inr rfl)))
        · exact Or.inl h4
      · exact Or.inr (Or.inl (mem_sadd.mpr (Or.inl h2)))
      · exact Or.inr (Or.inr h3)
  | cons first rest =>
    have hjmem : smallestOf st.territories first rest ∈
        eligibleTerritories st.territories st.hexToTerritory maxSize h := by
      rcases smallestOf_spec st.territories first rest with ⟨pre, post, hdec, _, _⟩
      rw [hE, hdec]
      simp
    rcases mem_eligibleTerritories.mp hjmem with
      ⟨⟨nb, hnbmem, hnbfind⟩, tj, htj, htjlt⟩
    set j := smallestOf st.territories first rest with hjdef
    rcases hinv.mapSound nb j hnbfind with ⟨tj2, htj2, hnbtj⟩
    rw [htj] at htj2
    have htjeq : tj2 = tj := (Option.some.inj htj2).symm
    rw [htjeq] at hnbtj
    have hjlt : j < st.territories.length := (List.getElem?_eq_some_iff.mp htj).1
    have hself : (modifyAt st.territories j
        (fun t => { t with hexes := sadd t.hexes h }))[j]? =
        some { tj with hexes := sadd tj.hexes h } := by
      rw [modifyAt_getElem_self, htj]
      rfl
    have hadjh : hexAdj nb h := hexAdj_symm hnbmem
    refine ⟨?_, ?_, ?_, ?_, ?_, ?_, hnd.2,
      fun x hx => hinv.remSub x (List.mem_cons_of_mem h hx), hinv.emptySub,
      hinv.subVA, ?_, ?_, ?_⟩
    · intro x i hfind
      replace hfind : mfind ((h, j) :: st.hexToTerritory) x = some i := hfind
      rw [mfind_cons] at hfind
      by_cases hxh : x = h
      · rw [if_pos hxh] at hfind
        have hij : j = i := Option.some.inj hfind
        subst hij
        exact ⟨{ tj with hexes := sadd tj.hexes h }, hself,
          mem_sadd.mpr (Or.inr hxh)⟩
      · rw [if_neg hxh] at hfind
        rcases hinv.mapSound x i hfind with ⟨t, ht, hxt⟩
        rcases eq_or_ne i j with rfl | hne
        · rw [htj] at ht
          have hteq : tj = t := Option.some.inj ht
          rw [← hteq] at hxt
          exact ⟨{ tj with hexes := sadd tj.hexes h }, hself,
            mem_sadd.mpr (Or.inl hxt)⟩
        · refine ⟨t, ?_, hxt⟩
          show (modifyAt st.territories j _)[i]? = some t
          rw [modifyAt_getElem_ne _ _ _ _ (Ne.symm hne)]
          exact ht
    · intro t ht x hx
      rcases mem_modifyAt ht with h1 | ⟨y, hy, rfl⟩
      · exact hinv.hexesSub t h1 x hx
      · rcases mem_sadd.mp hx with h2 | rfl
        · exact hinv.hexesSub y hy x h2
        · exact hinv.remSub x hmemh
    · intro a b ta tb hab hta htb x hx
      replace hta : (modifyAt st.territories j
          (fun t => { t with hexes := sadd t.hexes h }))[a]? = some ta := hta
      replace htb : (modifyAt st.territories j
          (fun t => { t with hexes := sadd t.hexes h }))[b]? = some tb := htb
      rcases eq_or_ne a j with rfl | hne_a
      · rw [hself] at hta
        have hta2 := Option.some.inj hta
        rw [modifyAt_getElem_ne _ _ _ _ hab] at htb
        rw [← hta2] at hx
        rcases mem_sadd.mp hx with h2 | rfl
        · exact hinv.disjTT j b tj tb hab htj htb x h2
        · exact hinv.remT x hmemh tb (mem_of_getElem?_some htb)
      · rw [modifyAt_getElem_ne _ _ _ _ (Ne.symm hne_a)] at hta
        rcases eq_or_ne b j with rfl | hne_b
        · rw [hself] at htb
          have htb2 := Option.some.inj htb
          rw [← htb2]
          intro hcontra
          rcases mem_sadd.mp hcontra with h2 | h2
          · exact hinv.disjTT a j ta tj hab hta htj x hx h2
          · rw [h2] at hx
            exact hinv.remT h hmemh ta (mem_of_getElem?_some hta) hx
        · rw [modifyAt_getElem_ne _ _ _ _ (Ne.symm hne_b)] at htb
          exact hinv.disjTT a b ta tb hab hta htb x hx
    · intro t ht x hx
      rcases mem_modifyAt ht with h1 | ⟨y, hy, rfl⟩
      · exact hinv.disjTE t h1 x hx
      · rcases mem_sadd.mp hx with h2 | rfl
        · exact hinv.disjTE y hy x h2
        · exact hinv.remE x hmemh
    · intro x hx t ht
      rcases mem_modifyAt ht with h1 | ⟨y, hy, rfl⟩
      · exact hinv.remT x (List.mem_cons_of_mem h hx) t h1
      · intro hcontra
        rcases mem_sadd.mp hcontra with h2 | rfl
        · exact hinv.remT x (List.mem_cons_of_mem h hx) y hy h2
        · exact hnd.1 hx
    · intro x hx
      exact hinv.remE x (List.mem_cons_of_mem h hx)
    · intro x hV
      rcases hinv.cover x hV with h1 | h2 | ⟨k, tk, hk, hxk⟩
      · rcases List.mem_cons.mp h1 with heq | h4
        · exact Or.inr (Or.inr ⟨j, { tj with hexes := sadd tj.hexes h },
            hself, mem_sadd.mpr (Or.inr heq)⟩)
        · exact Or.inl h4
      · exact Or.inr (Or.inl h2)
      · rcases eq_or_ne k j with rfl | hne
        · rw [htj] at hk
          have hkeq : tj = tk := Option.some.inj hk
          rw [← hkeq] at hxk
          exact Or.inr (Or.inr ⟨j, { tj with hexes := sadd tj.hexes h },
            hself, mem_sadd.mpr (Or.inl hxk)⟩)
        · refine Or.inr (Or.inr ⟨k, tk, ?_, hxk⟩)
          show (modifyAt st.territories j _)[k]? = some tk
          rw [modifyAt_getElem_ne _ _ _ _ (Ne.symm hne)]
          exact hk
    · intro t ht
      rcases List.mem_iff_getElem?.mp ht with ⟨k, hk⟩
      replace hk : (modifyAt st.territories j
          (fun t => { t with hexes := sadd t.hexes h }))[k]? = some t := hk
      rcases eq_or_ne k j with rfl | hne
      · rw [hself] at hk
        have hk2 := Option.some.inj hk
        rw [← hk2]
        show EdgeConnected (sadd tj.hexes h)
        exact edgeConnected_sadd_adj (hinv.conn tj (mem_of_getElem?_some htj))
          ⟨nb, hnbtj, hadjh⟩
      · rw [modifyAt_getElem_ne _ _ _ _ (Ne.symm hne)] at hk
        exact hinv.conn t (mem_of_getElem?_some hk)
    · intro i t ht
      replace ht : (modifyAt st.territories j
          (fun t => { t with hexes := sadd t.hexes h }))[i]? = some t := ht
      rcases eq_or_ne i j with rfl | hne
      · rw [hself] at ht
        have ht2 := Option.some.inj ht
        rw [← ht2]
        show tj.id = j
        exact hinv.ids j tj htj
      · rw [modifyAt_getElem_ne _ _ _ _ (Ne.symm hne)] at ht
        exact hinv.ids i t ht

theorem assignFold_inv (maxSize : Nat) (A V : List Hex) :
    ∀ (rem : List Hex) (st : AssignState), ResolveInv A V st rem →
      ResolveInv A V (rem.foldl (assignOne maxSize) st) [] := by
  intro rem
  induction rem with
  | nil => intro st hst; exact hst
  | cons h tl ih =>
    intro st hst
    rw [List.foldl_cons]
    exact ih _ (assignOne_inv maxSize A V st h tl hst)

theorem assignOne_size (maxSize : Nat) (st : AssignState) (h : Hex)
    (hs : SizeInv maxSize st.territories) :
    SizeInv maxSize (assignOne maxSize st h).territories := by
  unfold assignOne
  cases hE : eligibleTerritories st.territories st.hexToTerritory maxSize h with
  | nil => exact hs
  | cons first rest =>
    have hjmem : smallestOf st.territories first rest ∈
        eligibleTerritories st.territories st.hexToTerritory maxSize h := by
      rcases smallestOf_spec st.territories first rest with ⟨pre, post, hdec, _, _⟩
      rw [hE, hdec]
      simp
    rcases mem_eligibleTerritories.mp hjmem with ⟨_, tj, htj, htjlt⟩
    set j := smallestOf st.territories first rest with hjdef
    intro t ht
    rcases List.mem_iff_getElem?.mp ht with ⟨k, hk⟩
    replace hk : (modifyAt st.territories j
        (fun t => { t with hexes := sadd t.hexes h }))[k]? = some t := hk
    rcases eq_or_ne k j with rfl | hne
    · rw [modifyAt_getElem_self, htj] at hk
      have hk2 := Option.some.inj hk
      rw [← hk2]
      show (sadd tj.hexes h).length ≤ maxSize
      have := length_sadd_le (s := tj.hexes) (a := h)
      omega
    · rw [modifyAt_getElem_ne _ _ _ _ (Ne.symm hne)] at hk
      exact hs t (mem_of_getElem?_some hk)

theorem assignFold_size (maxSize : Nat) :
    ∀ (rem : List Hex) (st : AssignState), SizeInv maxSize st.territories →
      SizeInv maxSize (rem.foldl (assignOne maxSize) st).territories := by
  intro rem
  induction rem with
  | nil => intro st hst; exact hst
  | cons h tl ih =>
    intro st hst
    rw [List.foldl_cons]
    exact ih _ (assignOne_size maxSize st h hst)

end ResolverInvariant

section ResolvedFacts

theorem grownContext_state (g : RandS) (cfg : MapGeneratorConfig) :
    (grownContext g cfg).1.state =
      (growLoop cfg.maxTerritorySize (validHexesOf g cfg)
        (cfg.gridWidth * cfg.gridHeight * 2) (initContext g cfg).state).1 := rfl

theorem grownContext_empty (g : RandS) (cfg : MapGeneratorConfig) :
    (grownContext g cfg).1.emptyHexes = (emptyHexesOf g cfg).1 := rfl

theorem grownContext_inv (g : RandS) (cfg : MapGeneratorConfig) :
    GrowInv (validHexesOf g cfg) (grownContext g cfg).1.state := by
  rw [grownContext_state]
  exact growLoop_inv cfg.maxTerritorySize (validHexesOf g cfg)
    (cfg.gridWidth * cfg.gridHeight * 2) (initContext g cfg).state
    (initContext_inv g cfg)

theorem emptyHexesOf_sub (g : RandS) (cfg : MapGeneratorConfig) :
    ∀ x ∈ (emptyHexesOf g cfg).1, x ∈ allHexesOf cfg := by
  intro x hx
  unfold emptyHexesOf selectEmptyHexes at hx
  simp only at hx
  split at hx
  · rcases mem_addAll.mp hx with h1 | h1
    · cases h1
    · exact (shuffleArray_mem g (allHexesOf cfg)).mp (List.mem_of_mem_take h1)
  · cases hx

/-- Entry state of `assignUnclaimedHexes` inside `generateMap`. -/
theorem resolveEntry_inv (g : RandS) (cfg : MapGeneratorConfig) :
    ResolveInv (allHexesOf cfg) (validHexesOf g cfg)
      { territories := (grownContext g cfg).1.state.territories,
        hexToTerritory := buildHexToIdx (grownContext g cfg).1.state.territories,
        emptyHexes := (grownContext g cfg).1.emptyHexes }
      (grownContext g cfg).1.state.unclaimed := by
  have hg := grownContext_inv g cfg
  refine ⟨?_, hg.hexesSub, hg.disjTT, ?_, ?_, ?_, hg.unclNodup, hg.unclSub,
    ?_, fun x hx => (mem_validHexesOf.mp hx).1, ?_, hg.conn, hg.ids⟩
  · intro x i hfind
    exact mfind_buildHexToIdx_sound hfind
  · intro t ht x hx
    rw [grownContext_empty]
    exact (mem_validHexesOf.mp (hg.hexesSub t ht x hx)).2
  · intro x hx t ht hcontra
    exact hg.disjTU t ht x hcontra hx
  · intro x hx
    rw [grownContext_empty]
    exact (mem_validHexesOf.mp (hg.unclSub x hx)).2
  · intro x hx
    rw [grownContext_empty] at hx
    exact emptyHexesOf_sub g cfg x hx
  · intro x hV
    rcases hg.cover x hV with h1 | h2
    · exact Or.inl h1
    · exact Or.inr (Or.inr h2)

/-- The final mutable state of `assignUnclaimedHexes` inside `generateMap`
(the fold of `assignOne` over the leftover unclaimed pool). -/
def resolveStateOf (g : RandS) (cfg : MapGeneratorConfig) : AssignState :=
  (grownContext g cfg).1.state.unclaimed.foldl
    (assignOne cfg.maxTerritorySize)
    { territories := (grownContext g cfg).1.state.territories,
      hexToTerritory := buildHexToIdx (grownContext g cfg).1.state.territories,
      emptyHexes := (grownContext g cfg).1.emptyHexes }

theorem resolveStateOf_inv (g : RandS) (cfg : MapGeneratorConfig) :
    ResolveInv (allHexesOf cfg) (validHexesOf g cfg) (resolveStateOf g cfg) [] :=
  assignFold_inv cfg.maxTerritorySize (allHexesOf cfg) (validHexesOf g cfg)
    (grownContext g cfg).1.state.unclaimed _ (resolveEntry_inv g cfg)

theorem assignUnclaimedHexes_eq (ts : List Territory) (unclaimed empty : List Hex)
    (maxSize : Nat) :
    assignUnclaimedHexes ts unclaimed empty maxSize =
      ((unclaimed.foldl (assignOne maxSize)
          { territories := ts, hexToTerritory := buildHexToIdx ts,
            emptyHexes := empty }).territories,
        (unclaimed.foldl (assignOne maxSize)
          { territories := ts, hexToTerritory := buildHexToIdx ts,
            emptyHexes := empty }).emptyHexes) := by
  unfold assignUnclaimedHexes
  split
  · next h0 =>
    rw [List.length_eq_zero.mp h0]
    rfl
  · rfl

theorem resolvedContext_territories (g : RandS) (cfg : MapGeneratorConfig) :
    (resolvedContext g cfg).state.territories =
      (resolveStateOf g cfg).territories := by
  show (assignUnclaimedHexes (grownContext g cfg).1.state.territories
    (grownContext g cfg).1.state.unclaimed (grownContext g cfg).1.emptyHexes
    cfg.maxTerritorySize).1 = _
  rw [assignUnclaimedHexes_eq]
  rfl

theorem resolvedContext_empty (g : RandS) (cfg : MapGeneratorConfig) :
    (resolvedContext g cfg).emptyHexes = (resolveStateOf g cfg).emptyHexes := by
  show (assignUnclaimedHexes (grownContext g cfg).1.state.territories
    (grownContext g cfg).1.state.unclaimed (grownContext g cfg).1.emptyHexes
    cfg.maxTerritorySize).2 = _
  rw [assignUnclaimedHexes_eq]
  rfl

theorem initContext_size (g : RandS) (cfg : MapGeneratorConfig)
    (hmax : 1 ≤ cfg.maxTerritorySize) :
    SizeInv cfg.maxTerritorySize (initContext g cfg).state.territories := by
  intro t ht
  rcases List.mem_iff_getElem?.mp ht with ⟨i, hi⟩
  rcases (seededOf_char g cfg i t hi).2 with ⟨hnil, _⟩ | ⟨s, _, hhex⟩
  · rw [hnil]
    simp
  · rw [hhex]
    simpa using hmax

theorem resolveStateOf_size (g : RandS) (cfg : MapGeneratorConfig)
    (hmax : 1 ≤ cfg.maxTerritorySize) :
    SizeInv cfg.maxTerritorySize (resolveStateOf g cfg).territories := by
  apply assignFold_size
  show SizeInv cfg.maxTerritorySize (grownContext g cfg).1.state.territories
  rw [grownContext_state]
  exact growLoop_size cfg.maxTerritorySize (validHexesOf g cfg)
    (cfg.gridWidth * cfg.gridHeight * 2) (initContext g cfg).state
    (initContext_size g cfg hmax)

end ResolvedFacts

section CleanupLemmas

/-- The union of all territory hex sets (the `allTerritoryHexes` set of
`removeIsolatedTerritories`, built by iterated insertion). -/
def unionHexes (ts : List Territory) : List Hex :=
  ts.foldl (fun s t => addAll s t.hexes) []

theorem mem_foldl_addAll {x : Hex} :
    ∀ (l : List Territory) (s0 : List Hex),
      x ∈ l.foldl (fun s t => addAll s t.hexes) s0 ↔
        x ∈ s0 ∨ ∃ t ∈ l, x ∈ t.hexes := by
  intro l
  induction l with
  | nil => simp
  | cons t tl ih =>
    intro s0
    rw [List.foldl_cons, ih, mem_addAll]
    constructor
    · rintro ((h1 | h1) | ⟨u, hu, hxu⟩)
      · exact Or.inl h1
      · exact Or.inr ⟨t, List.mem_cons_self t tl, h1⟩
      · exact Or.inr ⟨u, List.mem_cons_of_mem t hu, hxu⟩
    · rintro (h1 | ⟨u, hu, hxu⟩)
      · exact Or.inl (Or.inl h1)
      · rcases List.mem_cons.mp hu with rfl | h2
        · exact Or.inl (Or.inr hxu)
        · exact Or.inr ⟨u, h2, hxu⟩

theorem mem_unionHexes {ts : List Territory} {x : Hex} :
    x ∈ unionHexes ts ↔ ∃ t ∈ ts, x ∈ t.hexes := by
  unfold unionHexes
  rw [mem_foldl_addAll]
  simp

theorem length_addAll_le {s l : List Hex} :
    (addAll s l).length ≤ s.length + l.length := by
  induction l generalizing s with
  | nil => simp [addAll]
  | cons a tl ih =>
    have h1 := ih (s := sadd s a)
    have h2 := length_sadd_le (s := s) (a := a)
    show (addAll (sadd s a) tl).length ≤ s.length + (a :: tl).length
    simp only [List.length_cons]
    omega

theorem calcNeighbors_getElem (ts : List Territory) (i : Nat) :
    (calculateTerritoryNeighbors ts)[i]? = (ts[i]?).map fun t =>
      { t with neighbors := territoryNeighborIds (buildHexToId ts) t } := by
  have h : calculateTerritoryNeighbors ts = ts.map fun t =>
      { t with neighbors := territoryNeighborIds (buildHexToId ts) t } := rfl
  rw [h, List.getElem?_map]

theorem renumber_getElem (ts : List Territory) (i : Nat) :
    (renumberTerritories ts)[i]? = (ts[i]?).map fun t =>
      { t with id := i, name := "Territory " ++ toString (i + 1) } := by
  unfold renumberTerritories
  rw [List.getElem?_map, List.getElem?_enum]
  cases ts[i]? <;> rfl

theorem findIdx_base (j : Nat) :
    ∀ (l : List Territory) (base : Nat),
      (∀ (i : Nat) (t : Territory), l[i]? = some t → t.id = base + i) →
      base ≤ j → j - base < l.length →
      l.findIdx? (fun t => decide (t.id = j)) base = some j := by
  intro l
  induction l with
  | nil =>
    intro base _ _ hlt
    simp at hlt
  | cons t tl ih =>
    intro base hid hle hlt
    rw [List.findIdx?_cons]
    have ht0 : t.id = base := by
      have := hid 0 t (by simp)
      omega
    by_cases hbj : base = j
    · rw [if_pos (by simp [ht0, hbj])]
      rw [hbj]
    · rw [if_neg (by simp only [decide_eq_true_eq, ht0]; exact hbj)]
      apply ih (base + 1)
      · intro i u hu
        have := hid (i + 1) u (by simpa using hu)
        omega
      · omega
      · simp only [List.length_cons] at hlt
        omega

theorem findIdxById_of_ids (ts : List Territory) (j : Nat)
    (hids : ∀ (i : Nat) (t : Territory), ts[i]? = some t → t.id = i)
    (hj : j < ts.length) : findIdxById ts j = some j := by
  unfold findIdxById
  exact findIdx_base j ts 0
    (by intro i t ht; have := hids i t ht; omega) (Nat.zero_le j) (by omega)

theorem merge_found_eq (ts : List Territory) :
    ∀ (ns : List Nat) (acc : List Nat),
      (∀ x ∈ ns, findIdxById ts x = some x) →
      ns.foldl (mergeFindIdx ts) acc = acc ++ ns := by
  intro ns
  induction ns with
  | nil =>
    intro acc _
    simp
  | cons n tl ih =>
    intro acc hall
    rw [List.foldl_cons]
    have hstep : mergeFindIdx ts acc n = acc ++ [n] := by
      unfold mergeFindIdx
      rw [hall n (List.mem_cons_self n tl)]
    rw [hstep, ih (acc ++ [n]) (fun x hx => hall x (List.mem_cons_of_mem n hx))]
    simp

end CleanupLemmas

section MergeInvariant

theorem mergeTransfer_length (ts : List Territory) (i j : Nat) (d : Territory) :
    (mergeTransfer ts i j d).length = ts.length := by
  show (modifyAt (modifyAt ts j
    (fun t => { t with hexes := addAll t.hexes d.hexes })) i
    (fun t => { t with hexes := [] })).length = ts.length
  rw [modifyAt_length, modifyAt_length]

theorem mergeTransfer_getElem_i (ts : List Territory) (i j : Nat)
    (d : Territory) (hij : i ≠ j) : (mergeTransfer ts i j d)[i]? =
      (ts[i]?).map fun t => { t with hexes := [] } := by
  show (modifyAt (modifyAt ts j
    (fun t => { t with hexes := addAll t.hexes d.hexes })) i
    (fun t => { t with hexes := [] }))[i]? = _
  rw [modifyAt_getElem_self, modifyAt_getElem_ne _ _ _ _ (Ne.symm hij)]

theorem mergeTransfer_getElem_j (ts : List Territory) (i j : Nat)
    (d : Territory) (hij : i ≠ j) : (mergeTransfer ts i j d)[j]? =
      (ts[j]?).map fun t => { t with hexes := addAll t.hexes d.hexes } := by
  show (modifyAt (modifyAt ts j
    (fun t => { t with hexes := addAll t.hexes d.hexes })) i
    (fun t => { t with hexes := [] }))[j]? = _
  rw [modifyAt_getElem_ne _ _ _ _ hij, modifyAt_getElem_self]

theorem mergeTransfer_getElem_other (ts : List Territory) (i j : Nat)
    (d : Territory) (k : Nat) (hki : k ≠ i) (hkj : k ≠ j) :
    (mergeTransfer ts i j d)[k]? = ts[k]? := by
  show (modifyAt (modifyAt ts j
    (fun t => { t with hexes := addAll t.hexes d.hexes })) i
    (fun t => { t with hexes := [] }))[k]? = _
  rw [modifyAt_getElem_ne _ _ _ _ (Ne.symm hki),
    modifyAt_getElem_ne _ _ _ _ (Ne.symm hkj)]

/-- Invariant of the merge loop of `cleanupTerritories` relative to the
territory list `tsE` captured when the (stale) neighbor graph was computed:
positions keep their id and neighbor list, hexes stay inside the entry
union, are pairwise disjoint and cover the union, every current hex of a
slot can reach every entry hex of the same slot inside the union, and a
slot that started empty stays empty. -/
structure MergeInv (tsE ts : List Territory) : Prop where
  len : ts.length = tsE.length
  meta2 : ∀ (k : Nat), (ts[k]?).map (fun t => (t.id, t.neighbors)) =
    (tsE[k]?).map (fun t => (t.id, t.neighbors))
  sub : ∀ t ∈ ts, ∀ h ∈ t.hexes, h ∈ unionHexes tsE
  disj : ∀ (a b : Nat) (ta tb : Territory), a ≠ b → ts[a]? = some ta →
    ts[b]? = some tb → ∀ h ∈ ta.hexes, h ∉ tb.hexes
  cover : ∀ h ∈ unionHexes tsE, ∃ (k : Nat) (tk : Territory),
    ts[k]? = some tk ∧ h ∈ tk.hexes
  tie : ∀ (k : Nat) (t tE : Territory), ts[k]? = some t → tsE[k]? = some tE →
    ∀ a ∈ t.hexes, ∀ e ∈ tE.hexes, ReachIn (unionHexes tsE) a e
  emptyStay : ∀ (k : Nat) (t tE : Territory), ts[k]? = some t →
    tsE[k]? = some tE → tE.hexes = [] → t.hexes = []

theorem mergeInv_entry {tsE ts : List Territory} (hinv : MergeInv tsE ts)
    {i : Nat} {t : Territory} (hti : ts[i]? = some t) :
    ∃ tE, tsE[i]? = some tE ∧ tE.id = t.id ∧ tE.neighbors = t.neighbors := by
  have h := hinv.meta2 i
  rw [hti] at h
  cases htEi : tsE[i]? with
  | none =>
    rw [htEi] at h
    simp only [Option.map_some', Option.map_none'] at h
    exact Option.noConfusion h
  | some tE =>
    rw [htEi] at h
    simp only [Option.map_some'] at h
    have h2 : (t.id, t.neighbors) = (tE.id, tE.neighbors) := Option.some.inj h
    exact ⟨tE, rfl, (congrArg Prod.fst h2).symm, (congrArg Prod.snd h2).symm⟩

theorem mergeInv_ids {tsE ts : List Territory} (hinv : MergeInv tsE ts)
    (hIDS : ∀ (i : Nat) (t : Territory), tsE[i]? = some t → t.id = i) :
    ∀ (k : Nat) (u : Territory), ts[k]? = some u → u.id = k := by
  intro k u hk
  obtain ⟨tE, htE, hid, _⟩ := mergeInv_entry hinv hk
  rw [← hid]
  exact hIDS k tE htE

theorem mergeInv_init (tsE : List Territory)
    (hEC : ∀ t ∈ tsE, EdgeConnected t.hexes)
    (hdisj : ∀ (a b : Nat) (ta tb : Territory), a ≠ b → tsE[a]? = some ta →
      tsE[b]? = some tb → ∀ h ∈ ta.hexes, h ∉ tb.hexes) :
    MergeInv tsE tsE := by
  refine ⟨rfl, fun k => rfl, ?_, hdisj, ?_, ?_, ?_⟩
  · intro t ht h hh
    exact mem_unionHexes.mpr ⟨t, ht, hh⟩
  · intro h hh
    rcases mem_unionHexes.mp hh with ⟨u, hu, hx⟩
    rcases List.mem_iff_getElem?.mp hu with ⟨k, hk⟩
    exact ⟨k, u, hk, hx⟩
  · intro k t tE ht htE a ha e he
    rw [ht] at htE
    have hteq : t = tE := Option.some.inj htE
    rw [← hteq] at he
    have hmem : t ∈ tsE := mem_of_getElem?_some ht
    exact (hEC t hmem a ha e he).mono
      (fun x hx => mem_unionHexes.mpr ⟨t, hmem, hx⟩)
  · intro k t tE ht htE hnil
    rw [ht] at htE
    have hteq : t = tE := Option.some.inj htE
    rw [hteq]
    exact hnil

theorem mergeStep_inv (minSize maxSize : Nat) (tsE : List Territory)
    (hEC : ∀ t ∈ tsE, EdgeConnected t.hexes)
    (hIDS : ∀ (k : Nat) (t : Territory), tsE[k]? = some t → t.id = k)
    (hEDGE : ∀ (a b : Nat) (tE : Territory), tsE[a]? = some tE →
      b ∈ tE.neighbors → b ≠ a ∧ ∃ tEb, tsE[b]? = some tEb ∧
        ∃ p ∈ tE.hexes, ∃ q ∈ tEb.hexes, hexAdj p q)
    (ts : List Territory) (i : Nat) (hinv : MergeInv tsE ts) :
    MergeInv tsE (mergeStep minSize maxSize ts i) := by
  unfold mergeStep
  split
  · exact hinv
  · next t hti =>
    split
    · next hguard =>
      split
      · next hnbs =>
        obtain ⟨tEi, htEi, hidEi, hnbsEi⟩ := mergeInv_entry hinv hti
        have hids_ts := mergeInv_ids hinv hIDS
        have hfind_all : ∀ x ∈ t.neighbors, findIdxById ts x = some x := by
          intro x hx
          have hx2 : x ∈ tEi.neighbors := by
            rw [hnbsEi]
            exact hx
          obtain ⟨_, tEx, htEx, _⟩ := hEDGE i x tEi htEi hx2
          have hxlt : x < tsE.length := (List.getElem?_eq_some_iff.mp htEx).1
          exact findIdxById_of_ids ts x hids_ts (by rw [hinv.len]; exact hxlt)
        simp only
        rw [merge_found_eq ts t.neighbors [] hfind_all, List.nil_append]
        split
        · exact hinv
        · next first rest hF =>
          set j := smallestOf ts first rest with hjdef
          have hjfil : j ∈ t.neighbors.filter
              (fun j2 => decide (tsize ts j2 + t.hexes.length ≤ maxSize)) := by
            rcases smallestOf_spec ts first rest with ⟨pre, post, hdec, _, _⟩
            rw [hF, hdec]
            simp
          have hjnb : j ∈ t.neighbors := (List.mem_filter.mp hjfil).1
          have hjnbE : j ∈ tEi.neighbors := by
            rw [hnbsEi]
            exact hjnb
          obtain ⟨hji, tEj, htEj, p, hp, q, hq, hpq⟩ := hEDGE i j tEi htEi hjnbE
          have hij : i ≠ j := fun he => hji he.symm
          have hjltE : j < tsE.length := (List.getElem?_eq_some_iff.mp htEj).1
          have hjlt : j < ts.length := by
            rw [hinv.len]
            exact hjltE
          obtain ⟨tj, htj⟩ : ∃ tj, ts[j]? = some tj := by
            rw [List.getElem?_eq_getElem hjlt]
            exact ⟨ts[j], rfl⟩
          have htmem : t ∈ ts := mem_of_getElem?_some hti
          have hUel : ∀ {tE : Territory}, tE ∈ tsE → ∀ {e : Hex},
              e ∈ tE.hexes → e ∈ unionHexes tsE := by
            intro tE htE e he
            exact mem_unionHexes.mpr ⟨tE, htE, he⟩
          have hri : (mergeTransfer ts i j t)[i]? =
              some { t with hexes := [] } := by
            rw [mergeTransfer_getElem_i ts i j t hij, hti]
            rfl
          have hrj : (mergeTransfer ts i j t)[j]? =
              some { tj with hexes := addAll tj.hexes t.hexes } := by
            rw [mergeTransfer_getElem_j ts i j t hij, htj]
            rfl
          refine ⟨?_, ?_, ?_, ?_, ?_, ?_, ?_⟩
          · rw [mergeTransfer_length]
            exact hinv.len
          · intro k
            by_cases hki : k = i
            · rw [hki, hri]
              have h2 := hinv.meta2 i
              rw [hti] at h2
              simp only [Option.map_some'] at h2 ⊢
              exact h2
            · by_cases hkj : k = j
              · rw [hkj, hrj]
                have h2 := hinv.meta2 j
                rw [htj] at h2
                simp only [Option.map_some'] at h2 ⊢
                exact h2
              · rw [mergeTransfer_getElem_other ts i j t k hki hkj]
                exact hinv.meta2 k
          · intro u hu x hx
            have hu0 : u ∈ modifyAt (modifyAt ts j
                (fun t2 => { t2 with hexes := addAll t2.hexes t.hexes })) i
                (fun t2 => { t2 with hexes := [] }) := hu
            rcases mem_modifyAt hu0 with hu1 | ⟨y, hy1, rfl⟩
            · rcases mem_modifyAt hu1 with hu2 | ⟨z, hz1, rfl⟩
              · exact hinv.sub u hu2 x hx
              · rcases mem_addAll.mp hx with h2 | h2
                · exact hinv.sub z hz1 x h2
                · exact hinv.sub t htmem x h2
            · cases hx
          · intro a b ta tb hab hta htb x hx
            by_cases hai : a = i
            · rw [hai, hri] at hta
              have hta2 := Option.some.inj hta
              rw [← hta2] at hx
              cases hx
            · by_cases haj : a = j
              · rw [haj, hrj] at hta
                rw [haj] at hab
                have hta2 := Option.some.inj hta
                rw [← hta2] at hx
                by_cases hbi : b = i
                · rw [hbi, hri] at htb
                  have htb2 := Option.some.inj htb
                  rw [← htb2]
                  intro hcontra
                  cases hcontra
                · rw [mergeTransfer_getElem_other ts i j t b hbi
                    (fun he => hab he.symm)] at htb
                  intro hcontra
                  rcases mem_addAll.mp hx with h2 | h2
                  · exact hinv.disj j b tj tb hab htj htb x h2 hcontra
                  · exact hinv.disj i b t tb (fun he => hbi he.symm) hti htb
                      x h2 hcontra
              · rw [mergeTransfer_getElem_other ts i j t a hai haj] at hta
                by_cases hbi : b = i
                · rw [hbi, hri] at htb
                  have htb2 := Option.some.inj htb
                  rw [← htb2]
                  intro hcontra
                  cases hcontra
                · by_cases hbj : b = j
                  · rw [hbj, hrj] at htb
                    rw [hbj] at hab
                    have htb2 := Option.some.inj htb
                    rw [← htb2]
                    intro hcontra
                    rcases mem_addAll.mp hcontra with h2 | h2
                    · exact hinv.disj a j ta tj hab hta htj x hx h2
                    · exact hinv.disj a i ta t hai hta hti x hx h2
                  · rw [mergeTransfer_getElem_other ts i j t b hbi hbj] at htb
                    exact hinv.disj a b ta tb hab hta htb x hx
          · intro x hxU
            rcases hinv.cover x hxU with ⟨k, tk, hk, hxk⟩
            by_cases hki : k = i
            · rw [hki, hti] at hk
              have hkeq : t = tk := Option.some.inj hk
              rw [← hkeq] at hxk
              exact ⟨j, { tj with hexes := addAll tj.hexes t.hexes }, hrj,
                mem_addAll.mpr (Or.inr hxk)⟩
            · by_cases hkj : k = j
              · rw [hkj, htj] at hk
                have hkeq : tj = tk := Option.some.inj hk
                rw [← hkeq] at hxk
                exact ⟨j, { tj with hexes := addAll tj.hexes t.hexes }, hrj,
                  mem_addAll.mpr (Or.inl hxk)⟩
              · refine ⟨k, tk, ?_, hxk⟩
                rw [mergeTransfer_getElem_other ts i j t k hki hkj]
                exact hk
          · intro k u tEk hu htEk a2 ha2 e he
            by_cases hki : k = i
            · rw [hki, hri] at hu
              have hueq := Option.some.inj hu
              rw [← hueq] at ha2
              cases ha2
            · by_cases hkj : k = j
              · rw [hkj] at hu htEk
                rw [hrj] at hu
                have hueq := Option.some.inj hu
                rw [htEj] at htEk
                have htEkeq : tEj = tEk := Option.some.inj htEk
                rw [← hueq] at ha2
                rw [← htEkeq] at he
                rcases mem_addAll.mp ha2 with h2 | h2
                · exact hinv.tie j tj tEj htj htEj a2 h2 e he
                · have r1 : ReachIn (unionHexes tsE) a2 p :=
                    hinv.tie i t tEi hti htEi a2 h2 p hp
                  have r2 : ReachIn (unionHexes tsE) p q :=
                    ReachIn.step p p q
                      (ReachIn.refl p (hUel (mem_of_getElem?_some htEi) hp))
                      (hUel (mem_of_getElem?_some htEj) hq) hpq
                  have r3 : ReachIn (unionHexes tsE) q e :=
                    (hEC tEj (mem_of_getElem?_some htEj) q hq e he).mono
                      (fun x2 hx2 => mem_unionHexes.mpr
                        ⟨tEj, mem_of_getElem?_some htEj, hx2⟩)
                  exact r1.trans (r2.trans r3)
              · rw [mergeTransfer_getElem_other ts i j t k hki hkj] at hu
                exact hinv.tie k u tEk hu htEk a2 ha2 e he
          · intro k u tEk hu htEk hnil
            by_cases hki : k = i
            · rw [hki, hri] at hu
              have hueq := Option.some.inj hu
              rw [← hueq]
            · by_cases hkj : k = j
              · rw [hkj, htEj] at htEk
                have htEkeq : tEj = tEk := Option.some.inj htEk
                rw [← htEkeq] at hnil
                rw [hnil] at hq
                cases hq
              · rw [mergeTransfer_getElem_other ts i j t k hki hkj] at hu
                exact hinv.emptyStay k u tEk hu htEk hnil
      · exact hinv
    · exact hinv

theorem mergeStep_size (minSize maxSize : Nat) (ts : List Territory) (i : Nat)
    (hs : SizeInv maxSize ts) :
    SizeInv maxSize (mergeStep minSize maxSize ts i) := by
  unfold mergeStep
  split
  · exact hs
  · next t hti =>
    split
    · next hguard =>
      split
      · next hnbs =>
        simp only
        split
        · exact hs
        · next first rest hF =>
          set j := smallestOf ts first rest with hjdef
          have hjfil : j ∈ (t.neighbors.foldl (mergeFindIdx ts) []).filter
              (fun j2 => decide (tsize ts j2 + t.hexes.length ≤ maxSize)) := by
            rcases smallestOf_spec ts first rest with ⟨pre, post, hdec, _, _⟩
            rw [hF, hdec]
            simp
          have hjsize : tsize ts j + t.hexes.length ≤ maxSize := by
            have := (List.mem_filter.mp hjfil).2
            simpa using this
          intro u hu
          rcases List.mem_iff_getElem?.mp hu with ⟨k, hk⟩
          by_cases hij : i = j
          · rw [← hij] at hk
            have hk0 : (modifyAt (modifyAt ts i
                (fun t2 => { t2 with hexes := addAll t2.hexes t.hexes })) i
                (fun t2 => { t2 with hexes := [] }))[k]? = some u := hk
            by_cases hki : k = i
            · rw [hki, modifyAt_getElem_self] at hk0
              cases h2 : (modifyAt ts i
                  (fun t2 => { t2 with hexes := addAll t2.hexes t.hexes }))[i]? with
              | none =>
                rw [h2] at hk0
                simp only [Option.map_none'] at hk0
                exact Option.noConfusion hk0
              | some w =>
                rw [h2] at hk0
                simp only [Option.map_some'] at hk0
                have hw := Option.some.inj hk0
                rw [← hw]
                show ([] : List Hex).length ≤ maxSize
                simp
            · rw [modifyAt_getElem_ne _ _ _ _ (Ne.symm hki),
                modifyAt_getElem_ne _ _ _ _ (Ne.symm hki)] at hk0
              exact hs u (mem_of_getElem?_some hk0)
          · have hij2 : i ≠ j := hij
            cases htj : ts[j]? with
            | none =>
              have hid2 : modifyAt ts j
                  (fun t2 => { t2 with hexes := addAll t2.hexes t.hexes }) = ts := by
                unfold modifyAt
                rw [htj]
              replace hk : (modifyAt (modifyAt ts j
                  (fun t2 => { t2 with hexes := addAll t2.hexes t.hexes })) i
                  (fun t2 => { t2 with hexes := [] }))[k]? = some u := hk
              rw [hid2] at hk
              by_cases hki : k = i
              · rw [hki, modifyAt_getElem_self, hti] at hk
                simp only [Option.map_some'] at hk
                have hw := Option.some.inj hk
                rw [← hw]
                show ([] : List Hex).length ≤ maxSize
                simp
              · rw [modifyAt_getElem_ne _ _ _ _ (Ne.symm hki)] at hk
                exact hs u (mem_of_getElem?_some hk)
            | some tj =>
              by_cases hki : k = i
              · rw [hki, mergeTransfer_getElem_i ts i j t hij2, hti] at hk
                simp only [Option.map_some'] at hk
                have hw := Option.some.inj hk
                rw [← hw]
                show ([] : List Hex).length ≤ maxSize
                simp
              · by_cases hkj : k = j
                · rw [hkj, mergeTransfer_getElem_j ts i j t hij2, htj] at hk
                  simp only [Option.map_some'] at hk
                  have hw := Option.some.inj hk
                  rw [← hw]
                  show (addAll tj.hexes t.hexes).length ≤ maxSize
                  have h1 := length_addAll_le (s := tj.hexes) (l := t.hexes)
                  have h2 : tsize ts j = tj.hexes.length := by
                    unfold tsize
                    rw [htj]
                    rfl
                  omega
                · rw [mergeTransfer_getElem_other ts i j t k hki hkj] at hk
                  exact hs u (mem_of_getElem?_some hk)
      · exact hs
    · exact hs

theorem mergeFold_inv (minSize maxSize : Nat) (tsE : List Territory)
    (hEC : ∀ t ∈ tsE, EdgeConnected t.hexes)
    (hIDS : ∀ (k : Nat) (t : Territory), tsE[k]? = some t → t.id = k)
    (hEDGE : ∀ (a b : Nat) (tE : Territory), tsE[a]? = some tE →
      b ∈ tE.neighbors → b ≠ a ∧ ∃ tEb, tsE[b]? = some tEb ∧
        ∃ p ∈ tE.hexes, ∃ q ∈ tEb.hexes, hexAdj p q) :
    ∀ (l : List Nat) (ts : List Territory), MergeInv tsE ts →
      MergeInv tsE (l.foldl (mergeStep minSize maxSize) ts) := by
  intro l
  induction l with
  | nil => intro ts h; exact h
  | cons i tl ih =>
    intro ts h
    rw [List.foldl_cons]
    exact ih _ (mergeStep_inv minSize maxSize tsE hEC hIDS hEDGE ts i h)

theorem mergeFold_size (minSize maxSize : Nat) :
    ∀ (l : List Nat) (ts : List Territory), SizeInv maxSize ts →
      SizeInv maxSize (l.foldl (mergeStep minSize maxSize) ts) := by
  intro l
  induction l with
  | nil => intro ts h; exact h
  | cons i tl ih =>
    intro ts h
    rw [List.foldl_cons]
    exact ih _ (mergeStep_size minSize maxSize ts i h)

end MergeInvariant

section CalcTransfer

theorem calcNeighbors_conn (res : List Territory)
    (hconn : ∀ t ∈ res, EdgeConnected t.hexes) :
    ∀ t ∈ calculateTerritoryNeighbors res, EdgeConnected t.hexes := by
  intro t ht
  rcases mem_calculateTerritoryNeighbors ht with ⟨u, hu, rfl⟩
  exact hconn u hu

theorem calcNeighbors_ids (res : List Territory)
    (hids : ∀ (k : Nat) (t : Territory), res[k]? = some t → t.id = k) :
    ∀ (k : Nat) (t : Territory),
      (calculateTerritoryNeighbors res)[k]? = some t → t.id = k := by
  intro k t hk
  rw [calcNeighbors_getElem] at hk
  cases hr : res[k]? with
  | none =>
    rw [hr] at hk
    simp only [Option.map_none'] at hk
    exact Option.noConfusion hk
  | some u =>
    rw [hr] at hk
    simp only [Option.map_some'] at hk
    have hu := Option.some.inj hk
    rw [← hu]
    show u.id = k
    exact hids k u hr

theorem calcNeighbors_disj (res : List Territory)
    (hdisj : ∀ (a b : Nat) (ta tb : Territory), a ≠ b → res[a]? = some ta →
      res[b]? = some tb → ∀ h ∈ ta.hexes, h ∉ tb.hexes) :
    ∀ (a b : Nat) (ta tb : Territory), a ≠ b →
      (calculateTerritoryNeighbors res)[a]? = some ta →
      (calculateTerritoryNeighbors res)[b]? = some tb →
      ∀ h ∈ ta.hexes, h ∉ tb.hexes := by
  intro a b ta tb hab ha hb x hx
  rw [calcNeighbors_getElem] at ha hb
  cases hra : res[a]? with
  | none =>
    rw [hra] at ha
    simp only [Option.map_none'] at ha
    exact Option.noConfusion ha
  | some ua =>
    cases hrb : res[b]? with
    | none =>
      rw [hrb] at hb
      simp only [Option.map_none'] at hb
      exact Option.noConfusion hb
    | some ub =>
      rw [hra] at ha
      rw [hrb] at hb
      simp only [Option.map_some'] at ha hb
      have ha2 := Option.some.inj ha
      have hb2 := Option.some.inj hb
      rw [← ha2] at hx
      rw [← hb2]
      exact hdisj a b ua ub hab hra hrb x hx

theorem calcNeighbors_size (res : List Territory) (maxSize : Nat)
    (hs : SizeInv maxSize res) :
    SizeInv maxSize (calculateTerritoryNeighbors res) := by
  intro t ht
  rcases mem_calculateTerritoryNeighbors ht with ⟨u, hu, rfl⟩
  exact hs u hu

theorem calcNeighbors_edge (res : List Territory)
    (hids : ∀ (k : Nat) (t : Territory), res[k]? = some t → t.id = k) :
    ∀ (a b : Nat) (tE : Territory),
      (calculateTerritoryNeighbors res)[a]? = some tE → b ∈ tE.neighbors →
      b ≠ a ∧ ∃ tEb, (calculateTerritoryNeighbors res)[b]? = some tEb ∧
        ∃ p ∈ tE.hexes, ∃ q ∈ tEb.hexes, hexAdj p q := by
  intro a b tE ha hb
  rw [calcNeighbors_getElem] at ha
  cases hra : res[a]? with
  | none =>
    rw [hra] at ha
    simp only [Option.map_none'] at ha
    exact Option.noConfusion ha
  | some u =>
    rw [hra] at ha
    simp only [Option.map_some'] at ha
    have haeq := Option.some.inj ha
    rw [← haeq] at hb
    have hb2 : b ∈ territoryNeighborIds (buildHexToId res) u := hb
    rcases mem_territoryNeighborIds.mp hb2 with ⟨h, hh, nb, hnb, hfind, hneq⟩
    have hua : u.id = a := hids a u hra
    have hba : b ≠ a := by
      rw [← hua]
      exact hneq
    rcases mfind_buildHexToId_sound hfind with ⟨w, hw, hnbw, hwid⟩
    rcases List.mem_iff_getElem?.mp hw with ⟨kb, hkb⟩
    have hkbid : w.id = kb := hids kb w hkb
    have hkb2 : kb = b := by omega
    rw [hkb2] at hkb
    refine ⟨hba,
      { w with neighbors := territoryNeighborIds (buildHexToId res) w }, ?_, ?_⟩
    · rw [calcNeighbors_getElem, hkb]
      rfl
    · refine ⟨h, ?_, nb, hnbw, hnb⟩
      rw [← haeq]
      exact hh

theorem exists_mem_calcNeighbors (res : List Territory) (x : Hex) :
    (∃ t ∈ calculateTerritoryNeighbors res, x ∈ t.hexes) ↔
      ∃ t ∈ res, x ∈ t.hexes := by
  constructor
  · rintro ⟨t, ht, hx⟩
    rcases mem_calculateTerritoryNeighbors ht with ⟨u, hu, rfl⟩
    exact ⟨u, hu, hx⟩
  · rintro ⟨u, hu, hx⟩
    refine ⟨{ u with neighbors := territoryNeighborIds (buildHexToId res) u },
      ?_, hx⟩
    have h : calculateTerritoryNeighbors res = res.map fun t =>
        { t with neighbors := territoryNeighborIds (buildHexToId res) t } := rfl
    rw [h]
    exact List.mem_map.mpr ⟨u, hu, rfl⟩

theorem exists_mem_renumber (l : List Territory) (x : Hex) :
    (∃ t ∈ renumberTerritories l, x ∈ t.hexes) ↔ ∃ t ∈ l, x ∈ t.hexes := by
  constructor
  · rintro ⟨t, ht, hx⟩
    unfold renumberTerritories at ht
    rcases List.mem_map.mp ht with ⟨p, hp, rfl⟩
    exact ⟨p.2, mem_of_getElem?_some (List.mem_enum_iff_getElem?.mp hp), hx⟩
  · rintro ⟨u, hu, hx⟩
    rcases List.mem_iff_getElem?.mp hu with ⟨i, hi⟩
    refine ⟨{ u with id := i, name := "Territory " ++ toString (i + 1) }, ?_, hx⟩
    unfold renumberTerritories
    exact List.mem_map.mpr ⟨(i, u),
      List.mem_enum_iff_getElem?.mpr hi, rfl⟩

theorem exists_mem_filter_pos (l : List Territory) (x : Hex) :
    (∃ t ∈ l.filter (fun t => decide (0 < t.hexes.length)), x ∈ t.hexes) ↔
      ∃ t ∈ l, x ∈ t.hexes := by
  constructor
  · rintro ⟨t, ht, hx⟩
    exact ⟨t, List.mem_of_mem_filter ht, hx⟩
  · rintro ⟨u, hu, hx⟩
    refine ⟨u, List.mem_filter.mpr ⟨hu, ?_⟩, hx⟩
    simp only [decide_eq_true_eq]
    exact List.length_pos.mpr (List.ne_nil_of_mem hx)

theorem pairwise_disj_of_indexed (l : List Territory)
    (h : ∀ (a b : Nat) (ta tb : Territory), a ≠ b → l[a]? = some ta →
      l[b]? = some tb → ∀ x ∈ ta.hexes, x ∉ tb.hexes) :
    l.Pairwise (fun a b => ∀ x ∈ a.hexes, x ∉ b.hexes) := by
  rw [List.pairwise_iff_getElem]
  intro a b ha hb hab
  exact h a b l[a] l[b] (Nat.ne_of_lt hab)
    (List.getElem?_eq_getElem ha) (List.getElem?_eq_getElem hb)

theorem indexed_of_pairwise_disj (l : List Territory)
    (h : l.Pairwise (fun a b => ∀ x ∈ a.hexes, x ∉ b.hexes)) :
    ∀ (a b : Nat) (ta tb : Territory), a ≠ b → l[a]? = some ta →
      l[b]? = some tb → ∀ x ∈ ta.hexes, x ∉ tb.hexes := by
  rw [List.pairwise_iff_getElem] at h
  intro a b ta tb hab hta htb x hx
  have hal : a < l.length := (List.getElem?_eq_some_iff.mp hta).1
  have hbl : b < l.length := (List.getElem?_eq_some_iff.mp htb).1
  have hta2 : l[a] = ta := by
    have := List.getElem?_eq_getElem hal
    rw [hta] at this
    exact (Option.some.inj this).symm
  have htb2 : l[b] = tb := by
    have := List.getElem?_eq_getElem hbl
    rw [htb] at this
    exact (Option.some.inj this).symm
  rcases Nat.lt_or_ge a b with hlt | hge
  · have := h a b hal hbl hlt
    rw [hta2, htb2] at this
    exact this x hx
  · have hblt : b < a := by omega
    have := h b a hbl hal hblt
    rw [hta2, htb2] at this
    intro hcontra
    exact this x hcontra hx

end CalcTransfer

section CleanupFacts

/-- Territory list at entry to the merge loop of `cleanupTerritories`
inside `generateMap` (after the one-time neighbor-graph computation). -/
def cleanupEntryOf (g : RandS) (cfg : MapGeneratorConfig) : List Territory :=
  calculateTerritoryNeighbors (resolveStateOf g cfg).territories

/-- Territory list after the merge loop of `cleanupTerritories`. -/
def mergedOf (g : RandS) (cfg : MapGeneratorConfig) : List Territory :=
  (List.range (cleanupEntryOf g cfg).length).foldl
    (mergeStep cfg.minTerritorySize cfg.maxTerritorySize) (cleanupEntryOf g cfg)

/-- Output of `cleanupTerritories` inside `generateMap`. -/
def cleanedOf (g : RandS) (cfg : MapGeneratorConfig) : List Territory :=
  calculateTerritoryNeighbors (renumberTerritories
    ((mergedOf g cfg).filter fun t => decide (0 < t.hexes.length)))

theorem cleanedOf_eq (g : RandS) (cfg : MapGeneratorConfig) :
    cleanupTerritories (resolveStateOf g cfg).territories
      cfg.minTerritorySize cfg.maxTerritorySize = cleanedOf g cfg := rfl

theorem resolve_ids (g : RandS) (cfg : MapGeneratorConfig) :
    ∀ (k : Nat) (t : Territory),
      (resolveStateOf g cfg).territories[k]? = some t → t.id = k :=
  (resolveStateOf_inv g cfg).ids

theorem mergedOf_inv (g : RandS) (cfg : MapGeneratorConfig) :
    MergeInv (cleanupEntryOf g cfg) (mergedOf g cfg) := by
  have hinv := resolveStateOf_inv g cfg
  apply mergeFold_inv
  · exact calcNeighbors_conn _ hinv.conn
  · exact calcNeighbors_ids _ (resolve_ids g cfg)
  · exact calcNeighbors_edge _ (resolve_ids g cfg)
  · exact mergeInv_init _ (calcNeighbors_conn _ hinv.conn)
      (calcNeighbors_disj _ hinv.disjTT)

theorem mergedOf_size (g : RandS) (cfg : MapGeneratorConfig)
    (hmax : 1 ≤ cfg.maxTerritorySize) :
    SizeInv cfg.maxTerritorySize (mergedOf g cfg) := by
  apply mergeFold_size
  exact calcNeighbors_size _ _ (resolveStateOf_size g cfg hmax)

theorem cleanedOf_hexes (g : RandS) (cfg : MapGeneratorConfig) (i : Nat) :
    ((cleanedOf g cfg)[i]?).map Territory.hexes =
      (((mergedOf g cfg).filter fun t =>
        decide (0 < t.hexes.length))[i]?).map Territory.hexes := by
  unfold cleanedOf
  rw [calcNeighbors_getElem, renumber_getElem]
  cases ((mergedOf g cfg).filter fun t => decide (0 < t.hexes.length))[i]? <;> rfl

theorem cleanedOf_disj (g : RandS) (cfg : MapGeneratorConfig) :
    ∀ (a b : Nat) (ta tb : Territory), a ≠ b →
      (cleanedOf g cfg)[a]? = some ta → (cleanedOf g cfg)[b]? = some tb →
      ∀ h ∈ ta.hexes, h ∉ tb.hexes := by
  have hfil : ∀ (a b : Nat) (ta tb : Territory), a ≠ b →
      ((mergedOf g cfg).filter fun t => decide (0 < t.hexes.length))[a]? = some ta →
      ((mergedOf g cfg).filter fun t => decide (0 < t.hexes.length))[b]? = some tb →
      ∀ x ∈ ta.hexes, x ∉ tb.hexes :=
    indexed_of_pairwise_disj _
      ((pairwise_disj_of_indexed _ (mergedOf_inv g cfg).disj).filter _)
  intro a b ta tb hab ha hb x hx
  have ha2 := cleanedOf_hexes g cfg a
  have hb2 := cleanedOf_hexes g cfg b
  rw [ha] at ha2
  rw [hb] at hb2
  cases hfa : ((mergedOf g cfg).filter fun t => decide (0 < t.hexes.length))[a]? with
  | none =>
    rw [hfa] at ha2
    simp only [Option.map_some', Option.map_none'] at ha2
    exact Option.noConfusion ha2
  | some ua =>
    cases hfb : ((mergedOf g cfg).filter fun t => decide (0 < t.hexes.length))[b]? with
    | none =>
      rw [hfb] at hb2
      simp only [Option.map_some', Option.map_none'] at hb2
      exact Option.noConfusion hb2
    | some ub =>
      rw [hfa] at ha2
      rw [hfb] at hb2
      simp only [Option.map_some'] at ha2 hb2
      have ha3 : ta.hexes = ua.hexes := Option.some.inj ha2
      have hb3 : tb.hexes = ub.hexes := Option.some.inj hb2
      rw [ha3] at hx
      rw [hb3]
      exact hfil a b ua ub hab hfa hfb x hx

theorem cleanedOf_nonempty (g : RandS) (cfg : MapGeneratorConfig) :
    ∀ t ∈ cleanedOf g cfg, 0 < t.hexes.length := by
  intro t ht
  rcases mem_calculateTerritoryNeighbors ht with ⟨u, hu, rfl⟩
  unfold renumberTerritories at hu
  rcases List.mem_map.mp hu with ⟨p, hp, rfl⟩
  have hpm : p.2 ∈ (mergedOf g cfg).filter fun t => decide (0 < t.hexes.length) :=
    mem_of_getElem?_some (List.mem_enum_iff_getElem?.mp hp)
  have := List.of_mem_filter hpm
  simpa using this

theorem cleanedOf_size (g : RandS) (cfg : MapGeneratorConfig)
    (hmax : 1 ≤ cfg.maxTerritorySize) :
    SizeInv cfg.maxTerritorySize (cleanedOf g cfg) := by
  intro t ht
  rcases mem_calculateTerritoryNeighbors ht with ⟨u, hu, rfl⟩
  unfold renumberTerritories at hu
  rcases List.mem_map.mp hu with ⟨p, hp, rfl⟩
  have hpm : p.2 ∈ (mergedOf g cfg).filter fun t => decide (0 < t.hexes.length) :=
    mem_of_getElem?_some (List.mem_enum_iff_getElem?.mp hp)
  exact mergedOf_size g cfg hmax p.2 (List.mem_of_mem_filter hpm)

theorem cleanedOf_union (g : RandS) (cfg : MapGeneratorConfig) (x : Hex) :
    (∃ t ∈ cleanedOf g cfg, x ∈ t.hexes) ↔
      ∃ t ∈ (resolveStateOf g cfg).territories, x ∈ t.hexes := by
  unfold cleanedOf
  rw [exists_mem_calcNeighbors, exists_mem_renumber, exists_mem_filter_pos]
  have hinv := mergedOf_inv g cfg
  constructor
  · rintro ⟨t, ht, hx⟩
    have hxU : x ∈ unionHexes (cleanupEntryOf g cfg) := hinv.sub t ht x hx
    rcases mem_unionHexes.mp hxU with ⟨u, hu, hxu⟩
    exact (exists_mem_calcNeighbors _ x).mp ⟨u, hu, hxu⟩
  · intro hx
    have hxU : x ∈ unionHexes (cleanupEntryOf g cfg) := by
      rw [mem_unionHexes]
      exact (exists_mem_calcNeighbors _ x).mpr hx
    rcases hinv.cover x hxU with ⟨k, tk, hk, hxk⟩
    exact ⟨tk, mem_of_getElem?_some hk, hxk⟩

theorem cleanedOf_class (g : RandS) (cfg : MapGeneratorConfig) :
    ∀ t ∈ cleanedOf g cfg, ∀ a ∈ t.hexes, ∀ b ∈ t.hexes,
      ReachIn (unionHexes (cleanupEntryOf g cfg)) a b := by
  have hinv := mergedOf_inv g cfg
  intro t ht a ha b hb
  rcases mem_calculateTerritoryNeighbors ht with ⟨u, hu, rfl⟩
  unfold renumberTerritories at hu
  rcases List.mem_map.mp hu with ⟨p, hp, rfl⟩
  have hpm : p.2 ∈ (mergedOf g cfg).filter fun t => decide (0 < t.hexes.length) :=
    mem_of_getElem?_some (List.mem_enum_iff_getElem?.mp hp)
  have hmem : p.2 ∈ mergedOf g cfg := List.mem_of_mem_filter hpm
  rcases List.mem_iff_getElem?.mp hmem with ⟨k, hk⟩
  have hklt : k < (mergedOf g cfg).length := (List.getElem?_eq_some_iff.mp hk).1
  have hkltE : k < (cleanupEntryOf g cfg).length := by
    have := hinv.len
    omega
  obtain ⟨tEk, htEk⟩ : ∃ tEk, (cleanupEntryOf g cfg)[k]? = some tEk := by
    rw [List.getElem?_eq_getElem hkltE]
    exact ⟨(cleanupEntryOf g cfg)[k], rfl⟩
  have ha2 : a ∈ p.2.hexes := ha
  have hb2 : b ∈ p.2.hexes := hb
  cases hEnil : tEk.hexes with
  | nil =>
    have := hinv.emptyStay k p.2 tEk hk htEk hEnil
    rw [this] at ha2
    cases ha2
  | cons e etl =>
    have he : e ∈ tEk.hexes := by
      rw [hEnil]
      exact List.mem_cons_self e etl
    have r1 : ReachIn (unionHexes (cleanupEntryOf g cfg)) a e :=
      hinv.tie k p.2 tEk hk htEk a ha2 e he
    have r2 : ReachIn (unionHexes (cleanupEntryOf g cfg)) b e :=
      hinv.tie k p.2 tEk hk htEk b hb2 e he
    exact r1.trans r2.symm

theorem cleanedOf_sub (g : RandS) (cfg : MapGeneratorConfig) :
    ∀ t ∈ cleanedOf g cfg, ∀ x ∈ t.hexes, x ∈ validHexesOf g cfg := by
  intro t ht x hx
  have h1 : ∃ t ∈ (resolveStateOf g cfg).territories, x ∈ t.hexes :=
    (cleanedOf_union g cfg x).mp ⟨t, ht, hx⟩
  rcases h1 with ⟨u, hu, hxu⟩
  exact (resolveStateOf_inv g cfg).hexesSub u hu x hxu

theorem cleanedOf_disjE (g : RandS) (cfg : MapGeneratorConfig) :
    ∀ t ∈ cleanedOf g cfg, ∀ x ∈ t.hexes,
      x ∉ (resolveStateOf g cfg).emptyHexes := by
  intro t ht x hx
  rcases (cleanedOf_union g cfg x).mp ⟨t, ht, hx⟩ with ⟨u, hu, hxu⟩
  exact (resolveStateOf_inv g cfg).disjTE u hu x hxu

end CleanupFacts

section BfsLemmas

theorem sadd_toFinset (v : List Hex) (nb : Hex) :
    (sadd v nb).toFinset = insert nb v.toFinset := by
  apply Finset.ext
  intro y
  simp only [List.mem_toFinset, Finset.mem_insert, mem_sadd]
  tauto

theorem bfsFold_spec (allT : List Hex) :
    ∀ (nbs : List Hex) (q0 v0 : List Hex),
      (∀ x ∈ q0, x ∈ v0) → (∀ x ∈ q0, x ∈ allT) →
      (∀ x ∈ q0, x ∈ (nbs.foldl (bfsStepNb allT) (q0, v0)).1) ∧
      (∀ x ∈ (nbs.foldl (bfsStepNb allT) (q0, v0)).1,
        x ∈ q0 ∨ (x ∈ nbs ∧ x ∈ allT)) ∧
      (∀ x ∈ v0, x ∈ (nbs.foldl (bfsStepNb allT) (q0, v0)).2) ∧
      (∀ x ∈ (nbs.foldl (bfsStepNb allT) (q0, v0)).2,
        x ∈ v0 ∨ x ∈ (nbs.foldl (bfsStepNb allT) (q0, v0)).1) ∧
      (∀ x ∈ (nbs.foldl (bfsStepNb allT) (q0, v0)).1,
        x ∈ (nbs.foldl (bfsStepNb allT) (q0, v0)).2) ∧
      (∀ x ∈ (nbs.foldl (bfsStepNb allT) (q0, v0)).1, x ∈ allT) ∧
      (nbs.foldl (bfsStepNb allT) (q0, v0)).1.length +
          (allT.toFinset \ (nbs.foldl (bfsStepNb allT) (q0, v0)).2.toFinset).card =
        q0.length + (allT.toFinset \ v0.toFinset).card := by
  intro nbs
  induction nbs with
  | nil =>
    intro q0 v0 hqv hqa
    exact ⟨fun x hx => hx, fun x hx => Or.inl hx, fun x hx => hx,
      fun x hx => Or.inl hx, hqv, hqa, rfl⟩
  | cons nb ntl ih =>
    intro q0 v0 hqv hqa
    rw [List.foldl_cons]
    by_cases hcond : nb ∉ v0 ∧ nb ∈ allT
    · have hstep : bfsStepNb allT (q0, v0) nb = (q0 ++ [nb], sadd v0 nb) := by
        show (if nb ∉ v0 ∧ nb ∈ allT then (q0 ++ [nb], sadd v0 nb)
          else (q0, v0)) = _
        rw [if_pos hcond]
      rw [hstep]
      have hnba : nb ∈ allT := hcond.2
      have hnbv : nb ∉ v0 := hcond.1
      have hqv2 : ∀ x ∈ q0 ++ [nb], x ∈ sadd v0 nb := by
        intro x hx
        rcases List.mem_append.mp hx with h1 | h1
        · exact mem_sadd.mpr (Or.inl (hqv x h1))
        · have : x = nb := by simpa using h1
          exact mem_sadd.mpr (Or.inr this)
      have hqa2 : ∀ x ∈ q0 ++ [nb], x ∈ allT := by
        intro x hx
        rcases List.mem_append.mp hx with h1 | h1
        · exact hqa x h1
        · have : x = nb := by simpa using h1
          rw [this]
          exact hnba
      obtain ⟨i1, i2, i3, i4, i5, i6, i7⟩ := ih (q0 ++ [nb]) (sadd v0 nb) hqv2 hqa2
      refine ⟨?_, ?_, ?_, ?_, i5, i6, ?_⟩
      · intro x hx
        exact i1 x (List.mem_append.mpr (Or.inl hx))
      · intro x hx
        rcases i2 x hx with h1 | h1
        · rcases List.mem_append.mp h1 with h2 | h2
          · exact Or.inl h2
          · have : x = nb := by simpa using h2
            exact Or.inr ⟨by rw [this]; exact List.mem_cons_self nb ntl,
              by rw [this]; exact hnba⟩
        · exact Or.inr ⟨List.mem_cons_of_mem nb h1.1, h1.2⟩
      · intro x hx
        exact i3 x (mem_sadd.mpr (Or.inl hx))
      · intro x hx
        rcases i4 x hx with h1 | h1
        · rcases mem_sadd.mp h1 with h2 | h2
          · exact Or.inl h2
          · refine Or.inr (i1 x ?_)
            rw [h2]
            simp
        · exact Or.inr h1
      · rw [i7]
        have hlen : (q0 ++ [nb]).length = q0.length + 1 := by simp
        have hcard : (allT.toFinset \ v0.toFinset).card =
            (allT.toFinset \ (sadd v0 nb).toFinset).card + 1 := by
          rw [sadd_toFinset, Finset.sdiff_insert]
          have hmem : nb ∈ allT.toFinset \ v0.toFinset :=
            Finset.mem_sdiff.mpr ⟨List.mem_toFinset.mpr hnba,
              fun hc => hnbv (List.mem_toFinset.mp hc)⟩
          rw [Finset.card_erase_of_mem hmem]
          have hpos : 0 < (allT.toFinset \ v0.toFinset).card :=
            Finset.card_pos.mpr ⟨nb, hmem⟩
          omega
        omega
    · have hstep : bfsStepNb allT (q0, v0) nb = (q0, v0) := by
        show (if nb ∉ v0 ∧ nb ∈ allT then (q0 ++ [nb], sadd v0 nb)
          else (q0, v0)) = _
        rw [if_neg hcond]
      rw [hstep]
      obtain ⟨i1, i2, i3, i4, i5, i6, i7⟩ := ih q0 v0 hqv hqa
      refine ⟨i1, ?_, i3, i4, i5, i6, i7⟩
      intro x hx
      rcases i2 x hx with h1 | h1
      · exact Or.inl h1
      · exact Or.inr ⟨List.mem_cons_of_mem nb h1.1, h1.2⟩

end BfsLemmas

section BfsMain

theorem bfsLoop_succ_cons (allT : List Hex) (fuel : Nat) (cur : Hex)
    (queue visited comp : List Hex) :
    bfsLoop allT (fuel + 1) (cur :: queue) visited comp =
      bfsLoop allT fuel
        ((hexNeighbors cur).foldl (bfsStepNb allT) (queue, visited)).1
        ((hexNeighbors cur).foldl (bfsStepNb allT) (queue, visited)).2
        (sadd comp cur) := rfl

theorem bfsLoop_spec (allT : List Hex) (vis0 : List Hex) :
    ∀ (fuel : Nat) (queue visited comp : List Hex),
      queue.length + (allT.toFinset \ visited.toFinset).card < fuel →
      (∀ x ∈ queue, x ∈ visited) →
      (∀ x ∈ queue, x ∈ allT) →
      (∀ x ∈ comp, x ∈ visited) →
      (∀ x ∈ comp, x ∈ allT) →
      (∀ x, (x ∈ comp ∨ x ∈ queue) → ∀ y, (y ∈ comp ∨ y ∈ queue) →
        ReachIn (comp ++ queue) x y) →
      (∀ x ∈ visited, x ∈ vis0 ∨ x ∈ comp ∨ x ∈ queue) →
      (∀ x ∈ vis0, x ∈ visited) →
      (∀ x, (x ∈ comp ∨ x ∈ queue) →
        x ∈ (bfsLoop allT fuel queue visited comp).1) ∧
      (∀ x ∈ (bfsLoop allT fuel queue visited comp).1, x ∈ allT) ∧
      EdgeConnected (bfsLoop allT fuel queue visited comp).1 ∧
      (∀ x ∈ (bfsLoop allT fuel queue visited comp).2,
        x ∈ vis0 ∨ x ∈ (bfsLoop allT fuel queue visited comp).1) ∧
      (∀ x ∈ visited, x ∈ (bfsLoop allT fuel queue visited comp).2) ∧
      (∀ x ∈ (bfsLoop allT fuel queue visited comp).1,
        x ∈ (bfsLoop allT fuel queue visited comp).2) := by
  intro fuel
  induction fuel with
  | zero =>
    intro queue visited comp hfuel
    exact absurd hfuel (Nat.not_lt_zero _)
  | succ f ih =>
    intro queue visited comp hfuel hqv hqa hcv hca hconn hvchar hv0
    cases queue with
    | nil =>
      refine ⟨?_, hca, ?_, ?_, fun x hx => hx, hcv⟩
      · intro x hx
        rcases hx with h1 | h1
        · exact h1
        · cases h1
      · intro a ha b hb
        exact (hconn a (Or.inl ha) b (Or.inl hb)).mono
          (fun x hx => by simpa using hx)
      · intro x hx
        rcases hvchar x hx with h1 | h1 | h1
        · exact Or.inl h1
        · exact Or.inr h1
        · cases h1
    | cons cur qtl =>
      rw [bfsLoop_succ_cons]
      obtain ⟨s1, s2, s3, s4, s5, s6, s7⟩ :=
        bfsFold_spec allT (hexNeighbors cur) qtl visited
          (fun x hx => hqv x (List.mem_cons_of_mem cur hx))
          (fun x hx => hqa x (List.mem_cons_of_mem cur hx))
      set pr := (hexNeighbors cur).foldl (bfsStepNb allT) (qtl, visited)
        with hprdef
      have hcur_v : cur ∈ visited := hqv cur (List.mem_cons_self cur qtl)
      have hcur_a : cur ∈ allT := hqa cur (List.mem_cons_self cur qtl)
      have hc2v : ∀ x ∈ sadd comp cur, x ∈ pr.2 := by
        intro x hx
        rcases mem_sadd.mp hx with h1 | h1
        · exact s3 x (hcv x h1)
        · rw [h1]
          exact s3 cur hcur_v
      have hc2a : ∀ x ∈ sadd comp cur, x ∈ allT := by
        intro x hx
        rcases mem_sadd.mp hx with h1 | h1
        · exact hca x h1
        · rw [h1]
          exact hcur_a
      have hmono_old : ∀ x ∈ comp ++ (cur :: qtl), x ∈ sadd comp cur ++ pr.1 := by
        intro x hx
        rcases List.mem_append.mp hx with h1 | h1
        · exact List.mem_append.mpr (Or.inl (mem_sadd.mpr (Or.inl h1)))
        · rcases List.mem_cons.mp h1 with h2 | h2
          · rw [h2]
            exact List.mem_append.mpr (Or.inl (mem_sadd.mpr (Or.inr rfl)))
          · exact List.mem_append.mpr (Or.inr (s1 x h2))
      have reach_cur : ∀ x, (x ∈ sadd comp cur ∨ x ∈ pr.1) →
          ReachIn (sadd comp cur ++ pr.1) x cur := by
        intro x hx
        have hcur_mem : cur ∈ sadd comp cur ++ pr.1 :=
          List.mem_append.mpr (Or.inl (mem_sadd.mpr (Or.inr rfl)))
        rcases hx with h1 | h1
        · rcases mem_sadd.mp h1 with h2 | h2
          · exact (hconn x (Or.inl h2) cur
              (Or.inr (List.mem_cons_self cur qtl))).mono hmono_old
          · rw [h2]
            exact ReachIn.refl cur hcur_mem
        · rcases s2 x h1 with h2 | h2
          · exact (hconn x (Or.inr (List.mem_cons_of_mem cur h2)) cur
              (Or.inr (List.mem_cons_self cur qtl))).mono hmono_old
          · have hxm : x ∈ sadd comp cur ++ pr.1 :=
              List.mem_append.mpr (Or.inr h1)
            exact (ReachIn.step cur cur x (ReachIn.refl cur hcur_mem)
              hxm h2.1).symm
      have hconn2 : ∀ x, (x ∈ sadd comp cur ∨ x ∈ pr.1) → ∀ y,
          (y ∈ sadd comp cur ∨ y ∈ pr.1) →
          ReachIn (sadd comp cur ++ pr.1) x y :=
        fun x hx y hy => (reach_cur x hx).trans (reach_cur y hy).symm
      have hvchar2 : ∀ x ∈ pr.2, x ∈ vis0 ∨ x ∈ sadd comp cur ∨ x ∈ pr.1 := by
        intro x hx
        rcases s4 x hx with h1 | h1
        · rcases hvchar x h1 with h2 | h2 | h2
          · exact Or.inl h2
          · exact Or.inr (Or.inl (mem_sadd.mpr (Or.inl h2)))
          · rcases List.mem_cons.mp h2 with h3 | h3
            · exact Or.inr (Or.inl (mem_sadd.mpr (Or.inr h3)))
            · exact Or.inr (Or.inr (s1 x h3))
        · exact Or.inr (Or.inr h1)
      have hv02 : ∀ x ∈ vis0, x ∈ pr.2 := fun x hx => s3 x (hv0 x hx)
      have hfuel2 : pr.1.length + (allT.toFinset \ pr.2.toFinset).card < f := by
        have hq : (cur :: qtl).length = qtl.length + 1 := rfl
        omega
      obtain ⟨c1, c2, c3, c4, c5, c6⟩ := ih pr.1 pr.2 (sadd comp cur) hfuel2
        s5 s6 hc2v hc2a hconn2 hvchar2 hv02
      refine ⟨?_, c2, c3, c4, ?_, c6⟩
      · intro x hx
        apply c1
        rcases hx with h1 | h1
        · exact Or.inl (mem_sadd.mpr (Or.inl h1))
        · rcases List.mem_cons.mp h1 with h2 | h2
          · exact Or.inl (mem_sadd.mpr (Or.inr h2))
          · exact Or.inr (s1 x h2)
      · intro x hx
        exact c5 x (s3 x hx)

end BfsMain

section ComponentsSpec

theorem compStep_spec (allT : List Hex) (pr : List Hex × List (List Hex))
    (h : Hex) (hha : h ∈ allT)
    (hI1 : ∀ c ∈ pr.2, (∀ x ∈ c, x ∈ allT) ∧ c ≠ [] ∧ EdgeConnected c)
    (hI2 : ∀ x ∈ pr.1, ∃ c ∈ pr.2, x ∈ c) :
    (∀ c ∈ (compStep allT pr h).2,
      (∀ x ∈ c, x ∈ allT) ∧ c ≠ [] ∧ EdgeConnected c) ∧
    (∀ x ∈ (compStep allT pr h).1, ∃ c ∈ (compStep allT pr h).2, x ∈ c) ∧
    (∀ x ∈ pr.1, x ∈ (compStep allT pr h).1) ∧
    h ∈ (compStep allT pr h).1 := by
  unfold compStep
  split
  · next hmem =>
    exact ⟨hI1, hI2, fun x hx => hx, hmem⟩
  · next hmem =>
    simp only
    have hfuel : ([h] : List Hex).length +
        (allT.toFinset \ (sadd pr.1 h).toFinset).card < allT.length + 1 := by
      have hhf : h ∈ (sadd pr.1 h).toFinset :=
        List.mem_toFinset.mpr (mem_sadd.mpr (Or.inr rfl))
      have hsub : allT.toFinset \ (sadd pr.1 h).toFinset ⊆
          allT.toFinset.erase h := by
        intro x hx
        rw [Finset.mem_sdiff] at hx
        rw [Finset.mem_erase]
        refine ⟨?_, hx.1⟩
        intro hxe
        rw [hxe] at hx
        exact hx.2 hhf
      have h1 : (allT.toFinset \ (sadd pr.1 h).toFinset).card ≤
          (allT.toFinset.erase h).card := Finset.card_le_card hsub
      have h2 : (allT.toFinset.erase h).card = allT.toFinset.card - 1 :=
        Finset.card_erase_of_mem (List.mem_toFinset.mpr hha)
      have h3 : allT.toFinset.card ≤ allT.length := List.toFinset_card_le allT
      have h4 : 0 < allT.toFinset.card :=
        Finset.card_pos.mpr ⟨h, List.mem_toFinset.mpr hha⟩
      simp only [List.length_singleton]
      omega
    obtain ⟨c1, c2, c3, c4, c5, c6⟩ := bfsLoop_spec allT pr.1
      (allT.length + 1) [h] (sadd pr.1 h) [] hfuel
      (by
        intro x hx
        have hx2 : x = h := by simpa using hx
        rw [hx2]
        exact mem_sadd.mpr (Or.inr rfl))
      (by
        intro x hx
        have hx2 : x = h := by simpa using hx
        rw [hx2]
        exact hha)
      (by intro x hx; cases hx)
      (by intro x hx; cases hx)
      (by
        intro x hx y hy
        have hx2 : x = h := by
          rcases hx with h1 | h1
          · cases h1
          · simpa using h1
        have hy2 : y = h := by
          rcases hy with h1 | h1
          · cases h1
          · simpa using h1
        rw [hx2, hy2]
        exact ReachIn.refl h (by simp))
      (by
        intro x hx
        rcases mem_sadd.mp hx with h1 | h1
        · exact Or.inl h1
        · exact Or.inr (Or.inr (by simp [h1])))
      (by
        intro x hx
        exact mem_sadd.mpr (Or.inl hx))
    have hhr : h ∈ (bfsLoop allT (allT.length + 1) [h] (sadd pr.1 h) []).1 :=
      c1 h (Or.inr (by simp))
    refine ⟨?_, ?_, ?_, ?_⟩
    · intro c hc
      rcases List.mem_append.mp hc with h1 | h1
      · exact hI1 c h1
      · have hc2 : c = (bfsLoop allT (allT.length + 1) [h] (sadd pr.1 h) []).1 := by
          simpa using h1
        rw [hc2]
        exact ⟨c2, List.ne_nil_of_mem hhr, c3⟩
    · intro x hx
      rcases c4 x hx with h1 | h1
      · rcases hI2 x h1 with ⟨c, hcm, hxc⟩
        exact ⟨c, List.mem_append.mpr (Or.inl hcm), hxc⟩
      · exact ⟨(bfsLoop allT (allT.length + 1) [h] (sadd pr.1 h) []).1,
          List.mem_append.mpr (Or.inr (by simp)), h1⟩
    · intro x hx
      exact c5 x (mem_sadd.mpr (Or.inl hx))
    · exact c5 h (mem_sadd.mpr (Or.inr rfl))

theorem compFold_spec (allT : List Hex) :
    ∀ (l : List Hex) (pr : List Hex × List (List Hex)),
      (∀ x ∈ l, x ∈ allT) →
      (∀ c ∈ pr.2, (∀ x ∈ c, x ∈ allT) ∧ c ≠ [] ∧ EdgeConnected c) →
      (∀ x ∈ pr.1, ∃ c ∈ pr.2, x ∈ c) →
      (∀ c ∈ (l.foldl (compStep allT) pr).2,
        (∀ x ∈ c, x ∈ allT) ∧ c ≠ [] ∧ EdgeConnected c) ∧
      (∀ x ∈ (l.foldl (compStep allT) pr).1,
        ∃ c ∈ (l.foldl (compStep allT) pr).2, x ∈ c) ∧
      (∀ x ∈ pr.1, x ∈ (l.foldl (compStep allT) pr).1) ∧
      (∀ x ∈ l, x ∈ (l.foldl (compStep allT) pr).1) := by
  intro l
  induction l with
  | nil =>
    intro pr _ hI1 hI2
    exact ⟨hI1, hI2, fun x hx => hx, by intro x hx; cases hx⟩
  | cons h tl ih =>
    intro pr hla hI1 hI2
    rw [List.foldl_cons]
    obtain ⟨p1, p2, p3, p4⟩ := compStep_spec allT pr h
      (hla h (List.mem_cons_self h tl)) hI1 hI2
    obtain ⟨q1, q2, q3, q4⟩ := ih (compStep allT pr h)
      (fun x hx => hla x (List.mem_cons_of_mem h hx)) p1 p2
    refine ⟨q1, q2, ?_, ?_⟩
    · intro x hx
      exact q3 x (p3 x hx)
    · intro x hx
      rcases List.mem_cons.mp hx with h1 | h1
      · rw [h1]
        exact q3 h p4
      · exact q4 x h1

theorem hexComponents_spec (allT : List Hex) :
    (∀ c ∈ hexComponents allT,
      (∀ x ∈ c, x ∈ allT) ∧ c ≠ [] ∧ EdgeConnected c) ∧
    (∀ h ∈ allT, ∃ c ∈ hexComponents allT, h ∈ c) := by
  obtain ⟨i1, i2, i3, i4⟩ := compFold_spec allT allT ([], [])
    (fun x hx => hx) (by intro c hc; cases hc) (by intro x hx; cases hx)
  exact ⟨i1, fun h hh => i2 h (i4 h hh)⟩

theorem foldl_max_mem (rest : List (List Hex)) :
    ∀ (c : List Hex),
      rest.foldl (fun a b => if b.length ≤ a.length then a else b) c = c ∨
      rest.foldl (fun a b => if b.length ≤ a.length then a else b) c ∈ rest := by
  induction rest with
  | nil => intro c; exact Or.inl rfl
  | cons b tl ih =>
    intro c
    rw [List.foldl_cons]
    rcases ih (if b.length ≤ c.length then c else b) with h1 | h1
    · rw [h1]
      split
      · exact Or.inl rfl
      · exact Or.inr (List.mem_cons_self b tl)
    · exact Or.inr (List.mem_cons_of_mem b h1)

theorem largestComponent_mem {comps : List (List Hex)} (h : comps ≠ []) :
    largestComponent comps ∈ comps := by
  cases comps with
  | nil => exact absurd rfl h
  | cons c rest =>
    show List.foldl (fun a b => if b.length ≤ a.length then a else b) c rest ∈
      c :: rest
    rcases foldl_max_mem rest c with h1 | h1
    · rw [h1]
      exact List.mem_cons_self c rest
    · exact List.mem_cons_of_mem c h1

theorem edgeConnected_congr {s t : List Hex} (h : ∀ x, x ∈ s ↔ x ∈ t)
    (hc : EdgeConnected s) : EdgeConnected t := by
  intro a ha b hb
  exact (hc a ((h a).mpr ha) b ((h b).mpr hb)).mono (fun x hx => (h x).mp hx)

end ComponentsSpec

section RemoveIsolatedFacts

theorem renumber_hexes (l : List Territory) (i : Nat) :
    ((renumberTerritories l)[i]?).map Territory.hexes =
      (l[i]?).map Territory.hexes := by
  rw [renumber_getElem]
  cases l[i]? <;> rfl

theorem disj_of_hexes_eq (l l2 : List Territory)
    (hh : ∀ i : Nat, (l2[i]?).map Territory.hexes = (l[i]?).map Territory.hexes)
    (h : ∀ (a b : Nat) (ta tb : Territory), a ≠ b → l[a]? = some ta →
      l[b]? = some tb → ∀ x ∈ ta.hexes, x ∉ tb.hexes) :
    ∀ (a b : Nat) (ta tb : Territory), a ≠ b → l2[a]? = some ta →
      l2[b]? = some tb → ∀ x ∈ ta.hexes, x ∉ tb.hexes := by
  intro a b ta tb hab hta htb x hx
  have ha2 := hh a
  have hb2 := hh b
  rw [hta] at ha2
  rw [htb] at hb2
  cases hfa : l[a]? with
  | none =>
    rw [hfa] at ha2
    simp only [Option.map_some', Option.map_none'] at ha2
    exact Option.noConfusion ha2
  | some ua =>
    cases hfb : l[b]? with
    | none =>
      rw [hfb] at hb2
      simp only [Option.map_some', Option.map_none'] at hb2
      exact Option.noConfusion hb2
    | some ub =>
      rw [hfa] at ha2
      rw [hfb] at hb2
      simp only [Option.map_some'] at ha2 hb2
      have ha3 : ta.hexes = ua.hexes := Option.some.inj ha2
      have hb3 : tb.hexes = ub.hexes := Option.some.inj hb2
      rw [ha3] at hx
      rw [hb3]
      exact h a b ua ub hab hfa hfb x hx

theorem mem_foldl_addAll_filter (L : List Hex) {x : Hex} :
    ∀ (l : List Territory) (e0 : List Hex),
      x ∈ l.foldl (fun e t => addAll e (t.hexes.filter fun h =>
          decide (h ∉ L))) e0 ↔
        x ∈ e0 ∨ ∃ t ∈ l, x ∈ t.hexes ∧ x ∉ L := by
  intro l
  induction l with
  | nil => simp
  | cons t tl ih =>
    intro e0
    rw [List.foldl_cons, ih, mem_addAll]
    constructor
    · rintro ((h1 | h1) | ⟨u, hu, hxu⟩)
      · exact Or.inl h1
      · rw [List.mem_filter] at h1
        exact Or.inr ⟨t, List.mem_cons_self t tl, h1.1, by simpa using h1.2⟩
      · exact Or.inr ⟨u, List.mem_cons_of_mem t hu, hxu⟩
    · rintro (h1 | ⟨u, hu, hxu, hxL⟩)
      · exact Or.inl (Or.inl h1)
      · rcases List.mem_cons.mp hu with rfl | h2
        · exact Or.inl (Or.inr (List.mem_filter.mpr ⟨hxu, by simpa using hxL⟩))
        · exact Or.inr ⟨u, h2, hxu, hxL⟩

theorem exists_mem_mapFilter (ts : List Territory) (L : List Hex) (x : Hex) :
    (∃ t ∈ ts.map (fun t => { t with hexes := t.hexes.filter (fun h => decide (h ∈ L)) }), x ∈ t.hexes) ↔
      ∃ t ∈ ts, x ∈ t.hexes ∧ x ∈ L := by
  constructor
  · rintro ⟨t, ht, hx⟩
    rcases List.mem_map.mp ht with ⟨u, hu, rfl⟩
    have hx2 : x ∈ u.hexes.filter fun h => decide (h ∈ L) := hx
    rw [List.mem_filter] at hx2
    exact ⟨u, hu, hx2.1, by simpa using hx2.2⟩
  · rintro ⟨u, hu, hxu, hxL⟩
    refine ⟨{ u with hexes := u.hexes.filter fun h => decide (h ∈ L) },
      List.mem_map.mpr ⟨u, hu, rfl⟩, ?_⟩
    show x ∈ u.hexes.filter fun h => decide (h ∈ L)
    rw [List.mem_filter]
    exact ⟨hxu, by simpa using hxL⟩

theorem mapFilter_disj (ts : List Territory) (L : List Hex)
    (hdisj : ∀ (a b : Nat) (ta tb : Territory), a ≠ b → ts[a]? = some ta →
      ts[b]? = some tb → ∀ h ∈ ta.hexes, h ∉ tb.hexes) :
    ∀ (a b : Nat) (ta tb : Territory), a ≠ b →
      (ts.map (fun t => { t with hexes := t.hexes.filter (fun h => decide (h ∈ L)) }))[a]? = some ta →
      (ts.map (fun t => { t with hexes := t.hexes.filter (fun h => decide (h ∈ L)) }))[b]? = some tb →
      ∀ h ∈ ta.hexes, h ∉ tb.hexes := by
  intro a b ta tb hab hta htb x hx
  rw [List.getElem?_map] at hta htb
  cases hfa : ts[a]? with
  | none =>
    rw [hfa] at hta
    simp only [Option.map_none'] at hta
    exact Option.noConfusion hta
  | some ua =>
    cases hfb : ts[b]? with
    | none =>
      rw [hfb] at htb
      simp only [Option.map_none'] at htb
      exact Option.noConfusion htb
    | some ub =>
      rw [hfa] at hta
      rw [hfb] at htb
      simp only [Option.map_some'] at hta htb
      have hta2 := Option.some.inj hta
      have htb2 := Option.some.inj htb
      rw [← hta2] at hx
      rw [← htb2]
      have hx2 : x ∈ ua.hexes.filter fun h => decide (h ∈ L) := hx
      rw [List.mem_filter] at hx2
      intro hc
      have hc2 : x ∈ ub.hexes.filter fun h => decide (h ∈ L) := hc
      rw [List.mem_filter] at hc2
      exact hdisj a b ua ub hab hfa hfb x hx2.1 hc2.1

theorem mem_renumber_filter (l : List Territory) (t : Territory)
    (ht : t ∈ renumberTerritories (l.filter fun t =>
      decide (0 < t.hexes.length))) :
    ∃ u ∈ l, t.hexes = u.hexes ∧ 0 < u.hexes.length := by
  unfold renumberTerritories at ht
  rcases List.mem_map.mp ht with ⟨p, hp, rfl⟩
  have hpm : p.2 ∈ l.filter fun t => decide (0 < t.hexes.length) :=
    mem_of_getElem?_some (List.mem_enum_iff_getElem?.mp hp)
  rw [List.mem_filter] at hpm
  exact ⟨p.2, hpm.1, rfl, by simpa using hpm.2⟩

theorem removeIsolated_eq (ts : List Territory) (empty : List Hex) :
    removeIsolatedTerritories ts empty =
      if ts.length ≤ 1 then (ts, empty)
      else if (hexComponents (unionHexes ts)).length ≤ 1 then (ts, empty)
      else
        (renumberTerritories ((ts.map fun t =>
            { t with hexes := t.hexes.filter (fun h =>
              decide (h ∈ largestComponent (hexComponents (unionHexes ts)))) }).filter
          fun t => decide (0 < t.hexes.length)),
         ts.foldl (fun e t => addAll e (t.hexes.filter fun h =>
            decide (h ∉ largestComponent (hexComponents (unionHexes ts)))))
          empty) := rfl

end RemoveIsolatedFacts

section RemoveIsolatedMain

theorem removeIsolated_facts (ts : List Territory) (empty : List Hex)
    (hdisj : ∀ (a b : Nat) (ta tb : Territory), a ≠ b → ts[a]? = some ta →
      ts[b]? = some tb → ∀ h ∈ ta.hexes, h ∉ tb.hexes)
    (hdisjE : ∀ t ∈ ts, ∀ x ∈ t.hexes, x ∉ empty) :
    (∀ t ∈ (removeIsolatedTerritories ts empty).1, ∃ u ∈ ts,
      (∀ x ∈ t.hexes, x ∈ u.hexes) ∧ t.hexes.length ≤ u.hexes.length) ∧
    (∀ (a b : Nat) (ta tb : Territory), a ≠ b →
      (removeIsolatedTerritories ts empty).1[a]? = some ta →
      (removeIsolatedTerritories ts empty).1[b]? = some tb →
      ∀ x ∈ ta.hexes, x ∉ tb.hexes) ∧
    (∀ x ∈ (removeIsolatedTerritories ts empty).2,
      x ∈ empty ∨ ∃ u ∈ ts, x ∈ u.hexes) ∧
    (∀ x, ((∃ u ∈ ts, x ∈ u.hexes) ∨ x ∈ empty) →
      (∃ t ∈ (removeIsolatedTerritories ts empty).1, x ∈ t.hexes) ∨
        x ∈ (removeIsolatedTerritories ts empty).2) ∧
    (∀ t ∈ (removeIsolatedTerritories ts empty).1, ∀ x ∈ t.hexes,
      x ∉ (removeIsolatedTerritories ts empty).2) := by
  rw [removeIsolated_eq]
  by_cases hlen : ts.length ≤ 1
  · rw [if_pos hlen]
    exact ⟨fun t ht => ⟨t, ht, fun x hx => hx, Nat.le_refl _⟩, hdisj,
      fun x hx => Or.inl hx, fun x hx => hx, hdisjE⟩
  · rw [if_neg hlen]
    by_cases hcomp : (hexComponents (unionHexes ts)).length ≤ 1
    · rw [if_pos hcomp]
      exact ⟨fun t ht => ⟨t, ht, fun x hx => hx, Nat.le_refl _⟩, hdisj,
        fun x hx => Or.inl hx, fun x hx => hx, hdisjE⟩
    · rw [if_neg hcomp]
      set L := largestComponent (hexComponents (unionHexes ts)) with hLdef
      have hiff : ∀ y, (∃ t ∈ renumberTerritories ((ts.map fun t =>
          { t with hexes := t.hexes.filter (fun h => decide (h ∈ L)) }).filter
          fun t => decide (0 < t.hexes.length)), y ∈ t.hexes) ↔
          ∃ t ∈ ts, y ∈ t.hexes ∧ y ∈ L := by
        intro y
        rw [exists_mem_renumber, exists_mem_filter_pos, exists_mem_mapFilter]
      have horigin : ∀ t ∈ renumberTerritories ((ts.map fun t =>
          { t with hexes := t.hexes.filter (fun h => decide (h ∈ L)) }).filter
          fun t => decide (0 < t.hexes.length)), ∃ w ∈ ts,
          t.hexes = w.hexes.filter (fun h => decide (h ∈ L)) := by
        intro t ht
        rcases mem_renumber_filter _ t ht with ⟨u, hu, hhex, _⟩
        rcases List.mem_map.mp hu with ⟨w, hw, rfl⟩
        exact ⟨w, hw, hhex⟩
      refine ⟨?_, ?_, ?_, ?_, ?_⟩
      · intro t ht
        rcases horigin t ht with ⟨w, hw, hhex⟩
        refine ⟨w, hw, ?_, ?_⟩
        · intro x hx
          rw [hhex] at hx
          exact (List.mem_filter.mp hx).1
        · rw [hhex]
          exact List.length_filter_le _ _
      · exact disj_of_hexes_eq _ _ (renumber_hexes _)
          (indexed_of_pairwise_disj _
            ((pairwise_disj_of_indexed _ (mapFilter_disj ts L hdisj)).filter _))
      · intro x hx
        rcases (mem_foldl_addAll_filter L ts empty).mp hx with h1 | ⟨u, hu, hxu, _⟩
        · exact Or.inl h1
        · exact Or.inr ⟨u, hu, hxu⟩
      · intro x hx
        rcases hx with ⟨u, hu, hxu⟩ | h1
        · by_cases hxL : x ∈ L
          · exact Or.inl ((hiff x).mpr ⟨u, hu, hxu, hxL⟩)
          · exact Or.inr ((mem_foldl_addAll_filter L ts empty).mpr
              (Or.inr ⟨u, hu, hxu, hxL⟩))
        · exact Or.inr ((mem_foldl_addAll_filter L ts empty).mpr (Or.inl h1))
      · intro t ht x hx
        rcases horigin t ht with ⟨w, hw, hhex⟩
        rw [hhex] at hx
        rw [List.mem_filter] at hx
        have hxw : x ∈ w.hexes := hx.1
        have hxL : x ∈ L := by simpa using hx.2
        intro hc
        rcases (mem_foldl_addAll_filter L ts empty).mp hc with h1 | ⟨v, hv, hxv, hxL2⟩
        · exact hdisjE w hw x hxw h1
        · exact hxL2 hxL

theorem removeIsolated_conn (ts : List Territory) (empty : List Hex)
    (hnonempty : ∀ t ∈ ts, 0 < t.hexes.length)
    (hclass : ∀ t ∈ ts, ∀ a ∈ t.hexes, ∀ b ∈ t.hexes,
      ReachIn (unionHexes ts) a b)
    (hne : (removeIsolatedTerritories ts empty).1 ≠ []) :
    unionHexes (removeIsolatedTerritories ts empty).1 ≠ [] ∧
    EdgeConnected (unionHexes (removeIsolatedTerritories ts empty).1) := by
  rw [removeIsolated_eq] at hne ⊢
  by_cases hlen : ts.length ≤ 1
  · rw [if_pos hlen] at hne ⊢
    cases ts with
    | nil => exact absurd rfl hne
    | cons t tl =>
      have htl : tl = [] := by
        simp only [List.length_cons] at hlen
        exact List.length_eq_zero.mp (by omega)
      subst htl
      have htpos := hnonempty t (by simp)
      obtain ⟨x0, hx0⟩ := List.exists_mem_of_length_pos htpos
      constructor
      · exact List.ne_nil_of_mem (mem_unionHexes.mpr ⟨t, by simp, hx0⟩)
      · intro a ha b hb
        rcases mem_unionHexes.mp ha with ⟨u, hu, hau⟩
        rcases mem_unionHexes.mp hb with ⟨v, hv, hbv⟩
        have hu2 : u = t := by simpa using hu
        have hv2 : v = t := by simpa using hv
        rw [hu2] at hau
        rw [hv2] at hbv
        exact hclass t (by simp) a hau b hbv
  · rw [if_neg hlen] at hne ⊢
    by_cases hcomp : (hexComponents (unionHexes ts)).length ≤ 1
    · rw [if_pos hcomp] at hne ⊢
      obtain ⟨hc1, hc2⟩ := hexComponents_spec (unionHexes ts)
      obtain ⟨t0, ht0⟩ := List.exists_mem_of_ne_nil ts hne
      have htpos := hnonempty t0 ht0
      obtain ⟨x0, hx0⟩ := List.exists_mem_of_length_pos htpos
      have hx0U : x0 ∈ unionHexes ts := mem_unionHexes.mpr ⟨t0, ht0, hx0⟩
      rcases hc2 x0 hx0U with ⟨c, hcm, hx0c⟩
      have hcomps : hexComponents (unionHexes ts) = [c] := by
        cases hE : hexComponents (unionHexes ts) with
        | nil =>
          rw [hE] at hcm
          cases hcm
        | cons c0 ctl =>
          rw [hE] at hcomp hcm
          have hctl : ctl = [] := by
            simp only [List.length_cons] at hcomp
            exact List.length_eq_zero.mp (by omega)
          subst hctl
          have hcc : c = c0 := by simpa using hcm
          rw [hcc]
      have hsub1 : ∀ y ∈ unionHexes ts, y ∈ c := by
        intro y hy
        rcases hc2 y hy with ⟨c2, hc2m, hyc⟩
        rw [hcomps] at hc2m
        have hc2eq : c2 = c := by simpa using hc2m
        rw [← hc2eq]
        exact hyc
      have hsub2 : ∀ y ∈ c, y ∈ unionHexes ts := (hc1 c hcm).1
      constructor
      · exact List.ne_nil_of_mem hx0U
      · exact edgeConnected_congr
          (fun y => ⟨fun hy => hsub2 y hy, fun hy => hsub1 y hy⟩)
          (hc1 c hcm).2.2
    · rw [if_neg hcomp] at hne ⊢
      obtain ⟨hc1, hc2⟩ := hexComponents_spec (unionHexes ts)
      have hcompne : hexComponents (unionHexes ts) ≠ [] := by
        intro hE
        rw [hE] at hcomp
        simp at hcomp
      have hLm := largestComponent_mem hcompne
      obtain ⟨hLsub, hLne, hLconn⟩ := hc1 _ hLm
      set L := largestComponent (hexComponents (unionHexes ts)) with hLdef
      have hiff : ∀ y, y ∈ unionHexes (renumberTerritories ((ts.map fun t =>
          { t with hexes := t.hexes.filter (fun h => decide (h ∈ L)) }).filter
          fun t => decide (0 < t.hexes.length))) ↔ y ∈ L := by
        intro y
        rw [mem_unionHexes]
        rw [exists_mem_renumber, exists_mem_filter_pos, exists_mem_mapFilter]
        constructor
        · rintro ⟨u, hu, hyu, hyL⟩
          exact hyL
        · intro hyL
          have hyU : y ∈ unionHexes ts := hLsub y hyL
          rcases mem_unionHexes.mp hyU with ⟨u, hu, hyu⟩
          exact ⟨u, hu, hyu, hyL⟩
      obtain ⟨y0, hy0⟩ := List.exists_mem_of_ne_nil L hLne
      constructor
      · exact List.ne_nil_of_mem ((hiff y0).mpr hy0)
      · exact edgeConnected_congr (fun y => (hiff y).symm) hLconn

end RemoveIsolatedMain

section FinalAssembly

theorem resolvedContext_allHexes (g : RandS) (cfg : MapGeneratorConfig) :
    (resolvedContext g cfg).allHexes = allHexesOf cfg := rfl

theorem generateMap_eq (g : RandS) (cfg : MapGeneratorConfig) :
    generateMap g cfg =
      { territories := calculateTerritoryNeighbors
          (removeIsolatedTerritories (cleanedOf g cfg)
            (resolveStateOf g cfg).emptyHexes).1,
        allHexes := allHexesOf cfg,
        emptyHexes := (removeIsolatedTerritories (cleanedOf g cfg)
          (resolveStateOf g cfg).emptyHexes).2,
        config := cfg } := by
  show ({ territories := calculateTerritoryNeighbors
            (removeIsolatedTerritories (cleanupTerritories
              (resolvedContext g cfg).state.territories cfg.minTerritorySize
              cfg.maxTerritorySize) (resolvedContext g cfg).emptyHexes).1,
          allHexes := (resolvedContext g cfg).allHexes,
          emptyHexes := (removeIsolatedTerritories (cleanupTerritories
            (resolvedContext g cfg).state.territories cfg.minTerritorySize
            cfg.maxTerritorySize) (resolvedContext g cfg).emptyHexes).2,
          config := cfg } : GeneratedMap) = _
  rw [resolvedContext_territories, resolvedContext_empty,
    resolvedContext_allHexes, cleanedOf_eq]

theorem generateMapTs_eq (g : RandS) (cfg : MapGeneratorConfig) :
    generateMapTs g cfg =
      { territories := calculateTerritoryNeighbors (cleanedOf g cfg),
        allHexes := allHexesOf cfg,
        emptyHexes := (resolveStateOf g cfg).emptyHexes,
        config := cfg } := by
  show ({ territories := calculateTerritoryNeighbors (cleanupTerritories
            (resolvedContext g cfg).state.territories cfg.minTerritorySize
            cfg.maxTerritorySize),
          allHexes := (resolvedContext g cfg).allHexes,
          emptyHexes := (resolvedContext g cfg).emptyHexes,
          config := cfg } : GeneratedMap) = _
  rw [resolvedContext_territories, resolvedContext_empty,
    resolvedContext_allHexes, cleanedOf_eq]

theorem generateMap_territories (g : RandS) (cfg : MapGeneratorConfig) :
    (generateMap g cfg).territories = calculateTerritoryNeighbors
      (removeIsolatedTerritories (cleanedOf g cfg)
        (resolveStateOf g cfg).emptyHexes).1 := by
  rw [generateMap_eq]

theorem generateMap_empty (g : RandS) (cfg : MapGeneratorConfig) :
    (generateMap g cfg).emptyHexes = (removeIsolatedTerritories
      (cleanedOf g cfg) (resolveStateOf g cfg).emptyHexes).2 := by
  rw [generateMap_eq]

theorem generateMap_all (g : RandS) (cfg : MapGeneratorConfig) :
    (generateMap g cfg).allHexes = allHexesOf cfg := by
  rw [generateMap_eq]

theorem generateMapTs_territories (g : RandS) (cfg : MapGeneratorConfig) :
    (generateMapTs g cfg).territories =
      calculateTerritoryNeighbors (cleanedOf g cfg) := by
  rw [generateMapTs_eq]

theorem resolveStateOf_empty0 (g : RandS) (cfg : MapGeneratorConfig) :
    ∀ x ∈ (emptyHexesOf g cfg).1, x ∈ (resolveStateOf g cfg).emptyHexes := by
  have main : ∀ (l : List Hex) (st : AssignState), ∀ x ∈ st.emptyHexes,
      x ∈ (l.foldl (assignOne cfg.maxTerritorySize) st).emptyHexes := by
    intro l
    induction l with
    | nil => intro st x hx; exact hx
    | cons h tl ih =>
      intro st x hx
      rw [List.foldl_cons]
      apply ih
      unfold assignOne
      cases hE : eligibleTerritories st.territories st.hexToTerritory
          cfg.maxTerritorySize h with
      | nil => exact mem_sadd.mpr (Or.inl hx)
      | cons first rest => exact hx
  intro x hx
  exact main (grownContext g cfg).1.state.unclaimed
    { territories := (grownContext g cfg).1.state.territories,
      hexToTerritory := buildHexToIdx (grownContext g cfg).1.state.territories,
      emptyHexes := (grownContext g cfg).1.emptyHexes } x
    (by rw [grownContext_empty]; exact hx)

theorem cleaned_union_entry (g : RandS) (cfg : MapGeneratorConfig) (x : Hex) :
    x ∈ unionHexes (cleanupEntryOf g cfg) ↔
      x ∈ unionHexes (cleanedOf g cfg) := by
  rw [mem_unionHexes, mem_unionHexes]
  unfold cleanupEntryOf
  rw [exists_mem_calcNeighbors]
  exact (cleanedOf_union g cfg x).symm

theorem cleaned_class2 (g : RandS) (cfg : MapGeneratorConfig) :
    ∀ t ∈ cleanedOf g cfg, ∀ a ∈ t.hexes, ∀ b ∈ t.hexes,
      ReachIn (unionHexes (cleanedOf g cfg)) a b :=
  fun t ht a ha b hb => (cleanedOf_class g cfg t ht a ha b hb).mono
    (fun x hx => (cleaned_union_entry g cfg x).mp hx)

end FinalAssembly

section ClaimPartition

/-- C1: for every configuration and every run of the random stream, the map
returned by `generateMap` (the full compiled pipeline of
`src/mapGenerator.js`) partitions the grid exactly: every territory hex and
every blocked hex is a grid hex, distinct territories never share a hex, no
territory hex is blocked, and every grid hex is blocked or owned by some
territory. -/
theorem claim_C1 (g : RandS) (cfg : MapGeneratorConfig) :
    (∀ t ∈ (generateMap g cfg).territories, ∀ x ∈ t.hexes,
      x ∈ (generateMap g cfg).allHexes) ∧
    (∀ x ∈ (generateMap g cfg).emptyHexes, x ∈ (generateMap g cfg).allHexes) ∧
    (∀ (a b : Nat) (ta tb : Territory), a ≠ b →
      (generateMap g cfg).territories[a]? = some ta →
      (generateMap g cfg).territories[b]? = some tb →
      ∀ x ∈ ta.hexes, x ∉ tb.hexes) ∧
    (∀ t ∈ (generateMap g cfg).territories, ∀ x ∈ t.hexes,
      x ∉ (generateMap g cfg).emptyHexes) ∧
    (∀ x ∈ (generateMap g cfg).allHexes,
      x ∈ (generateMap g cfg).emptyHexes ∨
        ∃ t ∈ (generateMap g cfg).territories, x ∈ t.hexes) := by
  rw [generateMap_territories, generateMap_empty, generateMap_all]
  obtain ⟨f1, f2, f3, f4, f5⟩ := removeIsolated_facts (cleanedOf g cfg)
    (resolveStateOf g cfg).emptyHexes (cleanedOf_disj g cfg)
    (cleanedOf_disjE g cfg)
  refine ⟨?_, ?_, ?_, ?_, ?_⟩
  · intro t ht x hx
    rcases mem_calculateTerritoryNeighbors ht with ⟨u, hu, rfl⟩
    have hx2 : x ∈ u.hexes := hx
    rcases f1 u hu with ⟨w, hw, hsub, _⟩
    exact (mem_validHexesOf.mp (cleanedOf_sub g cfg w hw x (hsub x hx2))).1
  · intro x hx
    rcases f3 x hx with h1 | ⟨u, hu, hxu⟩
    · exact (resolveStateOf_inv g cfg).emptySub x h1
    · exact (mem_validHexesOf.mp (cleanedOf_sub g cfg u hu x hxu)).1
  · exact calcNeighbors_disj _ f2
  · intro t ht x hx
    rcases mem_calculateTerritoryNeighbors ht with ⟨u, hu, rfl⟩
    exact f5 u hu x hx
  · intro x hx
    have hmap : ((∃ t ∈ (removeIsolatedTerritories (cleanedOf g cfg)
          (resolveStateOf g cfg).emptyHexes).1, x ∈ t.hexes) ∨
        x ∈ (removeIsolatedTerritories (cleanedOf g cfg)
          (resolveStateOf g cfg).emptyHexes).2) →
        x ∈ (removeIsolatedTerritories (cleanedOf g cfg)
          (resolveStateOf g cfg).emptyHexes).2 ∨
        ∃ t ∈ calculateTerritoryNeighbors (removeIsolatedTerritories
          (cleanedOf g cfg) (resolveStateOf g cfg).emptyHexes).1, x ∈ t.hexes := by
      rintro (h2 | h2)
      · exact Or.inr ((exists_mem_calcNeighbors _ x).mpr h2)
      · exact Or.inl h2
    by_cases hV : x ∈ validHexesOf g cfg
    · rcases (resolveStateOf_inv g cfg).cover x hV with h1 | h1 | ⟨k, tk, hk, hxk⟩
      · cases h1
      · exact hmap (f4 x (Or.inr h1))
      · have hts1 : ∃ t ∈ cleanedOf g cfg, x ∈ t.hexes :=
          (cleanedOf_union g cfg x).mpr ⟨tk, mem_of_getElem?_some hk, hxk⟩
        exact hmap (f4 x (Or.inl hts1))
    · have hE0 : x ∈ (emptyHexesOf g cfg).1 := by
        by_contra hnot
        exact hV (mem_validHexesOf.mpr ⟨hx, hnot⟩)
      exact hmap (f4 x (Or.inr (resolveStateOf_empty0 g cfg x hE0)))

/-- C4: when `maxTerritorySize` is at least 1, every territory of the map
returned by `generateMap` holds at most `maxTerritorySize` hexes: the
growth loop skips full territories, the resolver only feeds territories
strictly below the cap, and a merge happens only when the combined size
stays within the cap. -/
theorem claim_C4 (g : RandS) (cfg : MapGeneratorConfig)
    (hmax : 1 ≤ cfg.maxTerritorySize) :
    ∀ t ∈ (generateMap g cfg).territories,
      t.hexes.length ≤ cfg.maxTerritorySize := by
  rw [generateMap_territories]
  obtain ⟨f1, _, _, _, _⟩ := removeIsolated_facts (cleanedOf g cfg)
    (resolveStateOf g cfg).emptyHexes (cleanedOf_disj g cfg)
    (cleanedOf_disjE g cfg)
  intro t ht
  rcases mem_calculateTerritoryNeighbors ht with ⟨u, hu, rfl⟩
  rcases f1 u hu with ⟨w, hw, _, hlen⟩
  have hws := cleanedOf_size g cfg hmax w hw
  show u.hexes.length ≤ cfg.maxTerritorySize
  omega

/-- C3: whenever `generateMap` returns at least one territory, the union of
all territory hex sets is non-empty and edge-connected: the
connectivity-enforcement pass keeps only the largest connected component,
and a single surviving merge product is itself connected inside the union. -/
theorem claim_C3 (g : RandS) (cfg : MapGeneratorConfig)
    (hne : (generateMap g cfg).territories ≠ []) :
    unionHexes (generateMap g cfg).territories ≠ [] ∧
    EdgeConnected (unionHexes (generateMap g cfg).territories) := by
  rw [generateMap_territories] at hne ⊢
  have hne0 : calculateTerritoryNeighbors (removeIsolatedTerritories
      (cleanedOf g cfg) (resolveStateOf g cfg).emptyHexes).1 ≠ [] := hne
  have hne1 : (removeIsolatedTerritories (cleanedOf g cfg)
      (resolveStateOf g cfg).emptyHexes).1 ≠ [] := by
    intro h0
    apply hne0
    show calculateTerritoryNeighbors _ = []
    rw [h0]
    rfl
  obtain ⟨hu_ne, hu_conn⟩ := removeIsolated_conn (cleanedOf g cfg)
    (resolveStateOf g cfg).emptyHexes (cleanedOf_nonempty g cfg)
    (cleaned_class2 g cfg) hne1
  have hiff : ∀ y, y ∈ unionHexes (removeIsolatedTerritories (cleanedOf g cfg)
      (resolveStateOf g cfg).emptyHexes).1 ↔
      y ∈ unionHexes (calculateTerritoryNeighbors (removeIsolatedTerritories
        (cleanedOf g cfg) (resolveStateOf g cfg).emptyHexes).1) := by
    intro y
    rw [mem_unionHexes, mem_unionHexes, exists_mem_calcNeighbors]
  constructor
  · obtain ⟨y0, hy0⟩ := List.exists_mem_of_ne_nil _ hu_ne
    exact List.ne_nil_of_mem ((hiff y0).mp hy0)
  · exact edgeConnected_congr hiff hu_conn

/-- C2 (amended): every territory is edge-connected when the Size-Balancer
pass (`cleanupTerritories`) starts, and every territory returned by the
TypeScript `generateMap` is non-empty; the pass itself, merging along a
neighbor graph computed once before any merge, does not preserve
edge-connectedness (see the counterexample). -/
theorem claim_C2 (g : RandS) (cfg : MapGeneratorConfig) :
    (∀ t ∈ (resolvedContext g cfg).state.territories, EdgeConnected t.hexes) ∧
    (∀ t ∈ (generateMapTs g cfg).territories, t.hexes ≠ []) := by
  constructor
  · intro t ht
    rw [resolvedContext_territories] at ht
    exact (resolveStateOf_inv g cfg).conn t ht
  · intro t ht
    rw [generateMapTs_territories] at ht
    rcases mem_calculateTerritoryNeighbors ht with ⟨u, hu, rfl⟩
    show u.hexes ≠ []
    exact List.length_pos.mp (cleanedOf_nonempty g cfg u hu)

/-- A 4 by 2 grid with four territories, sizes clamped to exactly 4 and no
blocked tiles. -/
def cexCfg : MapGeneratorConfig :=
  { gridWidth := 4, gridHeight := 2, territoryCount := 4,
    minTerritorySize := 4, maxTerritorySize := 4, emptyTilePercent := 0 }

/-- A random stream driving `generateMap` on `cexCfg` into a merge cascade
whose stale neighbor graph refills an emptied territory from two mutually
non-adjacent donors. -/
def cexStream : RandS :=
  List.replicate 15 0 ++
    [7, 6, 5, 4, 3, 0, 0, 1, 1, 1, 1, 0, 1, 0, 3, 2, 1, 1, 0, 0]

/-- C2 counterexample: this run of `generateMap` returns a non-empty
territory (hexes (0,0), (0,1), (3,0), (3,1)) that is not edge-connected,
because `cleanupTerritories` merged two non-adjacent donors into the same
emptied territory using its stale neighbor graph. -/
theorem claim_C2_counterexample :
    ∃ t ∈ (generateMap cexStream cexCfg).territories,
      t.hexes ≠ [] ∧ ¬ EdgeConnected t.hexes := by decide

/-- A 2 by 2 grid with two territories and no blocked tiles, used to
instantiate the universal claims. -/
def wCfg3 : MapGeneratorConfig :=
  { gridWidth := 2, gridHeight := 2, territoryCount := 2,
    minTerritorySize := 1, maxTerritorySize := 4, emptyTilePercent := 0 }

/-- Witness for C3: on a concrete run the hypothesis holds and the union of
the returned territories is one non-empty connected component. -/
theorem claim_C3_witness :
    (generateMap [] wCfg3).territories ≠ [] ∧
    (unionHexes (generateMap [] wCfg3).territories ≠ [] ∧
      EdgeConnected (unionHexes (generateMap [] wCfg3).territories)) :=
  ⟨by decide, claim_C3 [] wCfg3 (by decide)⟩

/-- A 3 by 2 grid with two territories capped at 3 hexes each. -/
def wCfg4 : MapGeneratorConfig :=
  { gridWidth := 3, gridHeight := 2, territoryCount := 2,
    minTerritorySize := 1, maxTerritorySize := 3, emptyTilePercent := 0 }

/-- Witness for C4: on a concrete run the cap hypothesis holds and every
returned territory is within the cap. -/
theorem claim_C4_witness :
    1 ≤ wCfg4.maxTerritorySize ∧
    ∀ t ∈ (generateMap [] wCfg4).territories,
      t.hexes.length ≤ wCfg4.maxTerritorySize :=
  ⟨by decide, claim_C4 [] wCfg4 (by decide)⟩

end ClaimPartition
